import Mathlib

/-!
# Adjacency-matrix graph: a shallow embedding

The development follows the two C++ sources of the repository,
`main.cpp` (edges carry weight and bandwidth, `dijkstra`) and
`cycle_detection_and_transposition.cpp` (edges carry a weight, `cycleDFS`,
`isAcyclic`).  Both share the class `AdjacencyMatrixGraph`.

Conventions of the embedding.

* `Vertex<V>*` is a pair of the address of the allocation and the title stored
  there (a title is never written after construction).  Comparing two vertex
  pointers is comparing the pairs.
* `Edge<E>*` is an address into `heap`, the list of all `Edge` objects created
  so far by `new`; `edges` is the matrix of such addresses.  `removeEdge`
  writes through the address, `transpose` swaps addresses.
* `int` is `Int`; a sum of `dijkstra` that can leave the 32-bit range is
  wrapped with `wrapInt`, the increment of a loop counter that holds `INT_MAX`
  has no defined result (`succInt`), and an `int` compared with a `size_t` is
  converted with `toSize`.
* An operation whose C++ text indexes a vector at `-1` (a key that
  `getIndex` did not find) has no defined result; it returns `none`.
  A loop that needs fuel returns `none` when the fuel is used up.
* `operator[]` inside a square matrix is in range; outside the range the
  embedding reads a default and writes nothing.
-/

namespace GraphADT

set_option linter.unusedSectionVars false

/-! ## Machine integers -/

/-- The largest `int`. -/
def INT_MAX : Int := 2147483647

/-- Two's complement wrap of an `int` result to 32 bits. -/
def wrapInt (x : Int) : Int := (x + 2147483648) % 4294967296 - 2147483648

/-- The value of `x + 1` for an `int` counter `x`, as in `i++` and
`int j = i + 1`: the sum leaves the range of `int` when `x` is `INT_MAX`, and
then it has no defined result. -/
def succInt (x : Int) : Option Int := if x < INT_MAX then some (x + 1) else none

/-- Conversion of an `int` to `size_t` (64 bits), as done when an `int` is
compared with `vertices.size()` or used as an index. -/
def toSize (x : Int) : Nat := (x % 18446744073709551616).toNat

/-- Subtraction of two `size_t` values. -/
def sizeSub (a b : Nat) : Nat := (a + 18446744073709551616 - b % 18446744073709551616) % 18446744073709551616

/-! ## Vertex, Edge, AdjacencyMatrixGraph -/

/-- A `Vertex<V>*`: where the object lives and the title it holds. -/
structure Vertex (V : Type) where
  addr : Nat
  title : V
deriving DecidableEq, Repr

/-- An `Edge<E>` object (`main.cpp`; the cycle-detection variant has no
`bandwidth` field). -/
structure Edge where
  weight : Int
  bandwidth : Int
  isEmpty : Bool
deriving DecidableEq, Repr

/-- The object built by `Edge()`: only `isEmpty` is set by the constructor; the
embedding stores 0 in the two fields the constructor leaves unset. -/
def Edge.empty : Edge := { weight := 0, bandwidth := 0, isEmpty := true }

/-- The object built by `Edge(weight, bandwidth)`. -/
def Edge.make (weight bandwidth : Int) : Edge :=
  { weight := weight, bandwidth := bandwidth, isEmpty := false }

/-- The class `AdjacencyMatrixGraph<V,E>` with `E = int`: the two member
vectors, the `Edge` objects the matrix points to, and the number of `Vertex`
objects allocated by the class so far (the next fresh vertex address). -/
structure AdjacencyMatrixGraph (V : Type) where
  vertices : List (Vertex V)
  edges : List (List Nat)
  heap : List Edge
  allocated : Nat
deriving DecidableEq

/-- The graph made by the default constructor. -/
def AdjacencyMatrixGraph.init (V : Type) : AdjacencyMatrixGraph V :=
  { vertices := [], edges := [], heap := [], allocated := 0 }

variable {V : Type} [DecidableEq V]

/-- The address stored at `edges[i][j]`. -/
def edgeAt (g : AdjacencyMatrixGraph V) (i j : Nat) : Nat :=
  (g.edges.getD i []).getD j 0

/-- The `Edge` object at address `p`. -/
def deref (g : AdjacencyMatrixGraph V) (p : Nat) : Edge :=
  g.heap.getD p Edge.empty

/-- The `Edge` object that `edges[i][j]` points to. -/
def slot (g : AdjacencyMatrixGraph V) (i j : Nat) : Edge :=
  deref g (edgeAt g i j)

/-- The scan of `getIndex` over a vertex list: position of the first vertex
with the given title; `none` is the `-1` of the source. -/
def getIndexIn (title : V) : List (Vertex V) → Option Nat
  | [] => none
  | v :: rest =>
    if v.title = title then some 0 else (getIndexIn title rest).map (· + 1)

/-- The method `getIndex(v)`. -/
def getIndex (g : AdjacencyMatrixGraph V) (v : Vertex V) : Option Nat :=
  getIndexIn v.title g.vertices

/-- The loop `for (i = 0; i < count; i++) v.push_back(new Edge)` of
`addVertex`: the addresses of `count` fresh empty edges, and the heap after
the allocations. -/
def newRow : Nat → List Edge → List Nat × List Edge
  | 0, heap => ([], heap)
  | count + 1, heap =>
    let r := newRow count (heap ++ [Edge.empty])
    (heap.length :: r.1, r.2)

/-- The loop `for (i = 0; i < count; i++) edges[i].push_back(new Edge)` of
`addVertex`, over the rows from row `i` on. -/
def pushColumn : Nat → List (List Nat) → List Edge → List (List Nat) × List Edge
  | 0, rows, heap => (rows, heap)
  | _ + 1, [], heap => ([], heap)
  | count + 1, row :: rows, heap =>
    let r := pushColumn count rows (heap ++ [Edge.empty])
    ((row ++ [heap.length]) :: r.1, r.2)

/-- The method `addVertex(value)`: the returned vertex and the graph afterwards. -/
def addVertex (g : AdjacencyMatrixGraph V) (value : V) :
    Vertex V × AdjacencyMatrixGraph V :=
  let probe : Vertex V := { addr := g.allocated, title := value }
  let g1 : AdjacencyMatrixGraph V := { g with allocated := g.allocated + 1 }
  match getIndex g1 probe with
  | some index => (g1.vertices.getD index probe, g1)
  | none =>
    let newVertex : Vertex V := { addr := g1.allocated, title := value }
    let vertices := g1.vertices ++ [newVertex]
    let v := newRow vertices.length g1.heap
    let edges := g1.edges ++ [v.1]
    let r := pushColumn (vertices.length - 1) edges v.2
    (newVertex,
      { vertices := vertices, edges := r.1, heap := r.2, allocated := g1.allocated + 1 })

/-- The loop `for (i = 0; i < count; i++) edges[i].erase(edges[i].begin() + index)`
of `removeVertex`. -/
def eraseColumn (index : Nat) : Nat → List (List Nat) → List (List Nat)
  | 0, rows => rows
  | _ + 1, [] => []
  | count + 1, row :: rows => row.eraseIdx index :: eraseColumn index count rows

/-- The method `removeVertex(v)`.  When `getIndex` returns `-1` the source evaluates
`vertices.erase(vertices.begin() - 1)`, which has no defined result. -/
def removeVertex (g : AdjacencyMatrixGraph V) (v : Vertex V) :
    Option (AdjacencyMatrixGraph V) :=
  match getIndex g v with
  | none => none
  | some index =>
    let vertices := g.vertices.eraseIdx index
    let edges := g.edges.eraseIdx index
    some { g with vertices := vertices, edges := eraseColumn index vertices.length edges }

/-- The scan of `addEdge`: `i` is the loop counter, the result is
`(fromVertexID, toVertexID, count)` when the loop is left. -/
def addEdgeScan (fromTitle toTitle : V) :
    List (Vertex V) → Nat → Nat → Nat → Nat → Nat × Nat × Nat
  | [], _, fromVertexID, toVertexID, count => (fromVertexID, toVertexID, count)
  | v :: rest, i, fromVertexID, toVertexID, count =>
    let a := if v.title = fromTitle then (i, count + 1) else (fromVertexID, count)
    let b := if v.title = toTitle then (i, a.2 + 1) else (toVertexID, a.2)
    if b.2 = 2 then (a.1, b.1, b.2)
    else addEdgeScan fromTitle toTitle rest (i + 1) a.1 b.1 b.2

/-- The method `addEdge(fromVertex, toVertex, weight, bandwidth)` with the two IDs
starting at 0 as in `cycle_detection_and_transposition.cpp` (in `main.cpp`
they start unset).  The result is the address of the new edge and the graph
afterwards; `none` when `edges[fromVertexID][toVertexID]` is outside the
matrix. -/
def addEdge (g : AdjacencyMatrixGraph V) (fromVertex toVertex : Vertex V)
    (weight bandwidth : Int) : Option (Nat × AdjacencyMatrixGraph V) :=
  let ids := addEdgeScan fromVertex.title toVertex.title g.vertices 0 0 0 0
  if ids.1 < g.edges.length ∧ ids.2.1 < (g.edges.getD ids.1 []).length then
    let p := g.heap.length
    some (p, { g with
      heap := g.heap ++ [Edge.make weight bandwidth]
      edges := g.edges.set ids.1 ((g.edges.getD ids.1 []).set ids.2.1 p) })
  else none

/-- The method `removeEdge(e)`: writes `isEmpty = true` and `weight = 0` through the
pointer. -/
def removeEdge (g : AdjacencyMatrixGraph V) (e : Nat) : AdjacencyMatrixGraph V :=
  { g with heap := g.heap.set e { deref g e with isEmpty := true, weight := 0 } }

/-- The method `edgesFrom(v)`: the addresses in row `getIndex(v)` whose edge is not
empty; `none` when the row index is `-1`. -/
def edgesFrom (g : AdjacencyMatrixGraph V) (v : Vertex V) : Option (List Nat) :=
  match getIndex g v with
  | none => none
  | some index =>
    some ((g.edges.getD index []).filter (fun edge => !(deref g edge).isEmpty))

/-- The method `edgesTo(v)`: the addresses in column `getIndex(v)` whose edge is not
empty; `none` when the column index is `-1`. -/
def edgesTo (g : AdjacencyMatrixGraph V) (v : Vertex V) : Option (List Nat) :=
  match getIndex g v with
  | none => none
  | some index =>
    some ((g.edges.map (fun edge => edge.getD index 0)).filter
      (fun e => !(deref g e).isEmpty))

/-- The method `findVertex(value)`. -/
def findVertex (g : AdjacencyMatrixGraph V) (value : V) : Option (Vertex V) :=
  g.vertices.find? (fun vertex => decide (vertex.title = value))

/-- The method `findEdge(from_value, to_value)`: the address `edges[getIndex(from)][getIndex(to)]`;
`none` when one of the two indices is `-1`. -/
def findEdge (g : AdjacencyMatrixGraph V) (from_value to_value : V) : Option Nat :=
  match getIndex g { addr := g.allocated, title := from_value },
        getIndex g { addr := g.allocated + 1, title := to_value } with
  | some x, some y => some (edgeAt g x y)
  | _, _ => none

/-- The method `hasEdge(v, u)`. -/
def hasEdge (g : AdjacencyMatrixGraph V) (v u : Vertex V) : Bool :=
  match getIndex g v with
  | none => false
  | some x =>
    match getIndex g u with
    | none => false
    | some y => (slot g x y).isEmpty == false

/-- The three assignments in the body of the loops of `transpose`. -/
def swapSlots (e : List (List Nat)) (i j : Nat) : List (List Nat) :=
  let temp := (e.getD i []).getD j 0
  let e1 := e.set i ((e.getD i []).set j ((e.getD j []).getD i 0))
  e1.set j ((e1.getD j []).set i temp)

/-- The inner loop of `transpose`, `for (int j = ...; j < vertices.size(); j++)`,
entered with the current value of `j`; `next` is the value of `j` after `j++`. -/
def transposeInner (n : Nat) (i : Int) :
    Nat → Int → List (List Nat) → Option (List (List Nat))
  | 0, _, _ => none
  | fuel + 1, j, e =>
    if toSize j < n then
      match succInt j with
      | none => none
      | some next => transposeInner n i fuel next (swapSlots e (toSize i) (toSize j))
    else some e

/-- The outer loop of `transpose`, `for (int i = 0; i < vertices.size() - 1; i++)`,
entered with the current value of `i`.  The bound is computed in `size_t`;
`next` is the value of `i + 1`, which the round computes first for
`int j = i + 1` and again for `i++`. -/
def transposeOuter (n : Nat) :
    Nat → Int → List (List Nat) → Option (List (List Nat))
  | 0, _, _ => none
  | fuel + 1, i, e =>
    if toSize i < sizeSub n 1 then
      match succInt i with
      | none => none
      | some next => (transposeInner n i 4294967296 next e).bind (transposeOuter n fuel next)
    else some e

/-- The method `transpose()`.  A counter is incremented fewer than 2^32 times
before its increment has no defined result, which is the fuel given to each
loop. -/
def transpose (g : AdjacencyMatrixGraph V) : Option (AdjacencyMatrixGraph V) :=
  (transposeOuter g.vertices.length 4294967296 0 g.edges).map
    (fun e => { g with edges := e })

/-! ## Well-formed graphs -/

/-- The matrix is square with side `vertices.size()`. -/
def Square (g : AdjacencyMatrixGraph V) : Prop :=
  g.edges.length = g.vertices.length ∧
    ∀ row ∈ g.edges, row.length = g.vertices.length

/-- No two vertices of the list have the same title. -/
def UniqueKeys (g : AdjacencyMatrixGraph V) : Prop :=
  (g.vertices.map (fun v => v.title)).Nodup

/-- Every address in the matrix is the address of an allocated `Edge`, and no
address is stored in two places (each slot was filled by its own `new`). -/
def Unaliased (g : AdjacencyMatrixGraph V) : Prop :=
  (∀ row ∈ g.edges, ∀ p ∈ row, p < g.heap.length) ∧ g.edges.flatten.Nodup

/-- A well-formed graph: square, the vertex count fits the `int` the code
indexes with, and the matrix holds distinct valid addresses. -/
def WellFormed (g : AdjacencyMatrixGraph V) : Prop :=
  Square g ∧ (g.vertices.length : Int) ≤ INT_MAX ∧ Unaliased g

/-- One call of the public vertex interface. -/
inductive VertexCall (V : Type) where
  | add (value : V)
  | remove (v : Vertex V)

/-- Runs a sequence of `addVertex` / `removeVertex` calls. -/
def runVertexCalls : List (VertexCall V) → AdjacencyMatrixGraph V →
    Option (AdjacencyMatrixGraph V)
  | [], g => some g
  | VertexCall.add value :: rest, g => runVertexCalls rest (addVertex g value).2
  | VertexCall.remove v :: rest, g =>
    (removeVertex g v).bind (runVertexCalls rest)

instance instDecidableSquare (g : AdjacencyMatrixGraph V) : Decidable (Square g) := by
  unfold Square; infer_instance

instance instDecidableUniqueKeys (g : AdjacencyMatrixGraph V) : Decidable (UniqueKeys g) := by
  unfold UniqueKeys; infer_instance

instance instDecidableUnaliased (g : AdjacencyMatrixGraph V) : Decidable (Unaliased g) := by
  unfold Unaliased; infer_instance

instance instDecidableWellFormed (g : AdjacencyMatrixGraph V) : Decidable (WellFormed g) := by
  unfold WellFormed; infer_instance

/-- The address at row `i`, column `j` of a matrix of addresses. -/
def entry (e : List (List Nat)) (i j : Nat) : Nat := (e.getD i []).getD j 0

/-- A matrix of addresses with `n` rows of `n` slots. -/
def IsSq (e : List (List Nat)) (n : Nat) : Prop :=
  e.length = n ∧ ∀ r ∈ e, r.length = n

/-! ## Sample graphs -/

/-- A caller-side `new Vertex<V>(title)`, as `solve` builds before each call. -/
def key (title : String) : Vertex String := { addr := 1000, title := title }

/-- The graph after `ADD_VERTEX A`, `ADD_VERTEX B`, `ADD_VERTEX C`. -/
def graphABC : AdjacencyMatrixGraph String :=
  (addVertex (addVertex (addVertex (AdjacencyMatrixGraph.init String) "A").2 "B").2 "C").2

/-- The command `ADD_EDGE a b weight bandwidth` as `solve` runs it; the sample graphs only
name keys that are present. -/
def withEdge (g : AdjacencyMatrixGraph String) (a b : String)
    (weight bandwidth : Int) : AdjacencyMatrixGraph String :=
  match addEdge g (key a) (key b) weight bandwidth with
  | some r => r.2
  | none => g

/-- The path `A -> B -> C`. -/
def graphPath : AdjacencyMatrixGraph String :=
  withEdge (withEdge graphABC "A" "B" 1 5) "B" "C" 1 5

/-- The 3-cycle `A -> B -> C -> A` with weights 1, 2, 3. -/
def graphCycle : AdjacencyMatrixGraph String :=
  withEdge (withEdge (withEdge graphABC "A" "B" 1 0) "B" "C" 2 0) "C" "A" 3 0

/-- The graph of the shortest-path scenario: `A -> B` (1, 5), `B -> C` (1, 5),
`A -> C` (5, 1). -/
def graphScenario : AdjacencyMatrixGraph String :=
  withEdge (withEdge (withEdge graphABC "A" "B" 1 5) "B" "C" 1 5) "A" "C" 5 1

/-! ## Cycle detection (`cycle_detection_and_transposition.cpp`) -/

/-- What a call of `cycleDFS` leaves: the returned pointer (`none` is
`nullptr`) and the two vectors it was given by reference. -/
structure DfsResult (V : Type) where
  result : Option (Vertex V)
  visited : List (Vertex V)
  stack : List (Vertex V)
deriving DecidableEq

/-- The index pairs `(i, j)` in the order the two nested `for` loops of
`cycleDFS` run through them. -/
def allPairs (n : Nat) : List (Nat × Nat) :=
  (List.range n).flatMap (fun i => (List.range n).map (fun j => (i, j)))

/-- The statements guarded by `if (edge == edges[i][j])` in `cycleDFS`, for
the column `j`: `result` is the value of a `return` that was executed, `none`
when the loops go on.  `rec` is the recursive call. -/
def visitTarget (g : AdjacencyMatrixGraph V)
    (rec : Vertex V → List (Vertex V) → List (Vertex V) → Option (DfsResult V))
    (j : Nat) (visited stack : List (Vertex V)) : Option (DfsResult V) :=
  match g.vertices[j]? with
  | none => none
  | some toVertex =>
    let temp := visited.any (fun vertex => decide (toVertex.title = vertex.title))
    if !temp then
      match rec toVertex visited stack with
      | none => none
      | some r =>
        match r.result with
        | some _ => some r
        | none => some { result := none, visited := r.visited, stack := r.stack }
    else if stack.any (fun vertex => decide (toVertex.title = vertex.title)) then
      some { result := some toVertex, visited := visited, stack := stack }
    else some { result := none, visited := visited, stack := stack }

/-- The two nested index loops of `cycleDFS` for one `edge`, over the pairs
still to come. -/
def scanPairs (g : AdjacencyMatrixGraph V)
    (rec : Vertex V → List (Vertex V) → List (Vertex V) → Option (DfsResult V))
    (edge : Nat) :
    List (Nat × Nat) → List (Vertex V) → List (Vertex V) → Option (DfsResult V)
  | [], visited, stack => some { result := none, visited := visited, stack := stack }
  | (i, j) :: rest, visited, stack =>
    if edge = edgeAt g i j then
      match visitTarget g rec j visited stack with
      | none => none
      | some r =>
        match r.result with
        | some _ => some r
        | none => scanPairs g rec edge rest r.visited r.stack
    else scanPairs g rec edge rest visited stack

/-- The loop `for (Edge<E>* edge : edgesFrom(from))` of `cycleDFS`, over the
edges still to come. -/
def scanEdges (g : AdjacencyMatrixGraph V)
    (rec : Vertex V → List (Vertex V) → List (Vertex V) → Option (DfsResult V)) :
    List Nat → List (Vertex V) → List (Vertex V) → Option (DfsResult V)
  | [], visited, stack => some { result := none, visited := visited, stack := stack }
  | edge :: rest, visited, stack =>
    match scanPairs g rec edge (allPairs g.vertices.length) visited stack with
    | none => none
    | some r =>
      match r.result with
      | some _ => some r
      | none => scanEdges g rec rest r.visited r.stack

/-- The method `cycleDFS(from, visited, stack)`; the fuel bounds the depth of the
recursion. -/
def cycleDFS (g : AdjacencyMatrixGraph V) :
    Nat → Vertex V → List (Vertex V) → List (Vertex V) → Option (DfsResult V)
  | 0, _, _, _ => none
  | fuel + 1, frm, visited, stack =>
    match edgesFrom g frm with
    | none => none
    | some out =>
      match scanEdges g (cycleDFS g fuel) out (visited ++ [frm]) (stack ++ [frm]) with
      | none => none
      | some r =>
        match r.result with
        | some _ => some r
        | none => some { result := none, visited := r.visited, stack := r.stack.dropLast }

/-- The loop of `isAcyclic` that erases the front of `stack` until the front
is `result`; `stack.front()` of an empty vector has no defined result. -/
def trimStack (result : Vertex V) : List (Vertex V) → Option (List (Vertex V))
  | [] => none
  | front :: rest =>
    if front = result then some (front :: rest) else trimStack result rest

/-- The loop `for (auto vertex : vertices)` of `isAcyclic`, over the roots
still to come: the returned flag and the `stack` left to the caller.  Each
root starts with cleared vectors; the recursion is at most as deep as there
are vertices. -/
def isAcyclicFrom (g : AdjacencyMatrixGraph V) :
    List (Vertex V) → Option (Bool × List (Vertex V))
  | [] => some (true, [])
  | vertex :: rest =>
    match cycleDFS g g.vertices.length vertex [] [] with
    | none => none
    | some r =>
      match r.result with
      | some result => (trimStack result r.stack).map (fun s => (false, s))
      | none => isAcyclicFrom g rest

/-- The method `isAcyclic(stack)`. -/
def isAcyclic (g : AdjacencyMatrixGraph V) : Option (Bool × List (Vertex V)) :=
  isAcyclicFrom g g.vertices

/-- A reported cycle `[v0, ..., vn-1]` of the graph: not empty, made of
vertices of the graph, with an edge from each `vi` to `v((i+1) mod n)`. -/
def IsCycle (g : AdjacencyMatrixGraph V) (c : List (Vertex V)) : Prop :=
  c ≠ [] ∧ (∀ v ∈ c, v ∈ g.vertices) ∧
    ∀ (i : Nat) (h : i < c.length),
      hasEdge g (c.get ⟨i, h⟩)
        (c.get ⟨(i + 1) % c.length, Nat.mod_lt _ (Nat.lt_of_le_of_lt (Nat.zero_le i) h)⟩) = true

/-- The graph has a directed cycle made of present edges. -/
def HasCycle (g : AdjacencyMatrixGraph V) : Prop := ∃ c, IsCycle g c

/-- There is a present edge from the vertex `u` of the graph to the vertex
`w` of the graph. -/
def EdgeRel (g : AdjacencyMatrixGraph V) (u w : Vertex V) : Prop :=
  u ∈ g.vertices ∧ w ∈ g.vertices ∧ hasEdge g u w = true

/-- The number of vertices of the graph that are not in `visited`. -/
def unvisited (g : AdjacencyMatrixGraph V) (visited : List (Vertex V)) : Nat :=
  (g.vertices.filter (fun v => decide (v ∉ visited))).length

/-- The loop of `scanEdges` read over the columns the edges sit in. -/
def scanTargets (g : AdjacencyMatrixGraph V)
    (rec : Vertex V → List (Vertex V) → List (Vertex V) → Option (DfsResult V)) :
    List Nat → List (Vertex V) → List (Vertex V) → Option (DfsResult V)
  | [], visited, stack => some { result := none, visited := visited, stack := stack }
  | j :: rest, visited, stack =>
    match visitTarget g rec j visited stack with
    | none => none
    | some r =>
      match r.result with
      | some _ => some r
      | none => scanTargets g rec rest r.visited r.stack

/-- The columns of row `i` whose slot holds a present edge. -/
def targets (g : AdjacencyMatrixGraph V) (i : Nat) : List Nat :=
  (List.range g.vertices.length).filter (fun j => !(slot g i j).isEmpty)

/-- What `cycleDFS` can rely on when it is called: `frm` is a vertex of the
graph not visited yet, everything on the stack was visited, and the stack
followed by `frm` is a path of the graph. -/
structure DfsPre (g : AdjacencyMatrixGraph V) (frm : Vertex V)
    (visited stack : List (Vertex V)) : Prop where
  frm_mem : frm ∈ g.vertices
  frm_new : frm ∉ visited
  visited_sub : ∀ v ∈ visited, v ∈ g.vertices
  stack_sub : ∀ v ∈ stack, v ∈ visited
  chain : List.Chain' (EdgeRel g) (stack ++ [frm])

/-- What a `return` of a vertex leaves: the vertex is on the stack, the stack
is a path of visited vertices, and the last vertex of the stack has an edge to
the returned vertex. -/
def Found (g : AdjacencyMatrixGraph V) (r : DfsResult V) : Prop :=
  ∀ res, r.result = some res →
    res ∈ r.stack ∧ List.Chain' (EdgeRel g) r.stack ∧ (∀ v ∈ r.stack, v ∈ r.visited) ∧
      ∃ x, r.stack.getLast? = some x ∧ EdgeRel g x res

/-- What a call of `cycleDFS` leaves. -/
structure DfsPost (g : AdjacencyMatrixGraph V) (frm : Vertex V)
    (visited stack : List (Vertex V)) (r : DfsResult V) : Prop where
  mono : ∀ v, v ∈ visited ∨ v = frm → v ∈ r.visited
  visited_sub : ∀ v ∈ r.visited, v ∈ g.vertices
  null : r.result = none → r.stack = stack ∧
    ∀ u ∈ r.visited, u ∉ visited → ∀ w, EdgeRel g u w →
      w ∈ r.visited ∧ w ∉ stack ∧ w ≠ frm
  found : Found g r

/-- What the edge loop of `cycleDFS` leaves, started with `visited` and the
stack `stack` after the columns `js` of the current vertex. -/
structure LoopPost (g : AdjacencyMatrixGraph V) (js : List Nat)
    (visited stack : List (Vertex V)) (r : DfsResult V) : Prop where
  mono : ∀ v ∈ visited, v ∈ r.visited
  visited_sub : ∀ v ∈ r.visited, v ∈ g.vertices
  null : r.result = none → r.stack = stack ∧
    (∀ j ∈ js, ∀ w, g.vertices[j]? = some w → w ∈ r.visited ∧ w ∉ stack) ∧
    ∀ u ∈ r.visited, u ∉ visited → ∀ w, EdgeRel g u w → w ∈ r.visited ∧ w ∉ stack
  found : Found g r

/-! ## Bandwidth-constrained shortest path (`main.cpp`) -/

/-- The sentinel `int MAX = INT_MAX-1000` of `dijkstra`. -/
def MAX : Int := INT_MAX - 1000

/-- The local vectors of `dijkstra` and its priority queue (the elements it
holds, in any order). -/
structure DijkstraState where
  visited : List Bool
  weightPath : List Int
  bandwidthPath : List Int
  vertexPath : List (List Nat)
  pqueue : List Nat
deriving DecidableEq

/-- The call `pqueue.top()`: the largest element of a `priority_queue<int>`. -/
def pqueueTop (q : List Nat) : Option Nat := q.max?

/-- The body of the loop `for (int i = 0; i < vertices.size(); i++)` that
relaxes the edge from `currentVertex` to `i`.  `vertexPath[i].back()` of an
empty vector has no defined result. -/
def relaxEdge (g : AdjacencyMatrixGraph V) (W : Int) (currentVertex : Nat)
    (s : DijkstraState) (i : Nat) : Option DijkstraState :=
  if (slot g currentVertex i).isEmpty = true then some s
  else if (slot g currentVertex i).bandwidth < W then some s
  else
    let edgeWeight := (slot g currentVertex i).weight
    let edgeBandwidth := (slot g currentVertex i).bandwidth
    if wrapInt (s.weightPath.getD currentVertex 0 + edgeWeight) < s.weightPath.getD i 0 then
      match (s.vertexPath.getD i []).getLast? with
      | none => none
      | some back =>
        some { s with
          vertexPath :=
            if back ≠ currentVertex then
              s.vertexPath.set i (s.vertexPath.getD currentVertex [] ++ [currentVertex])
            else s.vertexPath
          bandwidthPath :=
            s.bandwidthPath.set i
              (if edgeBandwidth < s.bandwidthPath.getD currentVertex 0 then edgeBandwidth
               else s.bandwidthPath.getD currentVertex 0)
          weightPath :=
            s.weightPath.set i (wrapInt (edgeWeight + s.weightPath.getD currentVertex 0)) }
    else some s

/-- The relaxation loop over the indices still to come. -/
def relaxAll (g : AdjacencyMatrixGraph V) (W : Int) (currentVertex : Nat) :
    List Nat → DijkstraState → Option DijkstraState
  | [], s => some s
  | i :: rest, s => (relaxEdge g W currentVertex s i).bind (relaxAll g W currentVertex rest)

/-- The scan for the unvisited vertex of least `weightPath`, over the indices
still to come; the pair is `(min, minIndex)`. -/
def selectMin (s : DijkstraState) : List Nat → Int × Nat → Int × Nat
  | [], acc => acc
  | i :: rest, acc =>
    if s.weightPath.getD i 0 < acc.1 ∧ s.visited.getD i false = false then
      selectMin s rest (s.weightPath.getD i 0, i)
    else selectMin s rest acc

/-- One round of the `while` loop of `dijkstra`, after `currentVertex` was
popped. -/
def dijkstraRound (g : AdjacencyMatrixGraph V) (W : Int) (currentVertex : Nat)
    (s : DijkstraState) : Option DijkstraState :=
  (relaxAll g W currentVertex (List.range g.vertices.length)
      { s with visited := s.visited.set currentVertex true }).map
    (fun s2 =>
      let m := selectMin s2 (List.range g.vertices.length) (INT_MAX, 0)
      if s2.visited.getD m.2 false = false then { s2 with pqueue := m.2 :: s2.pqueue }
      else s2)

/-- The loop `while (!pqueue.empty())` of `dijkstra`. -/
def dijkstraLoop (g : AdjacencyMatrixGraph V) (W : Int) :
    Nat → DijkstraState → Option DijkstraState
  | 0, s => if s.pqueue = [] then some s else none
  | fuel + 1, s =>
    match pqueueTop s.pqueue with
    | none => some s
    | some currentVertex =>
      (dijkstraRound g W currentVertex
        { s with pqueue := s.pqueue.erase currentVertex }).bind (dijkstraLoop g W fuel)

/-- The loop after the `while` loop that appends `i` to `vertexPath[i]` unless
it is already the last element; `i` is the index of the first path of the
list. -/
def completePaths : List (List Nat) → Nat → List (List Nat)
  | [], _ => []
  | p :: rest, i =>
    (if p.getLast? = some i then p else p ++ [i]) :: completePaths rest (i + 1)

/-- What `dijkstra` prints: `IMPOSSIBLE`, or the path length, the total
weight, the bandwidth and the vertex sequence (printed as `vertex + 1`). -/
inductive DijkstraOutput where
  | impossible
  | report (length : Nat) (weight bandwidth : Int) (path : List Nat)
deriving DecidableEq

/-- The state of `dijkstra(frm, toIndex, W)` when the `while` loop is entered. -/
def dijkstraInit (g : AdjacencyMatrixGraph V) (frm : Nat) : DijkstraState :=
  { visited := List.replicate g.vertices.length false
    weightPath := (List.replicate g.vertices.length MAX).set frm 0
    bandwidthPath := List.replicate g.vertices.length MAX
    vertexPath := (List.range g.vertices.length).map (fun i => if i ≠ frm then [frm] else [])
    pqueue := [frm] }

/-- The method `dijkstra(frm, toIndex, W)`.  Every round marks one more vertex, so
`vertices.size()` rounds are the fuel of the loop. -/
def dijkstra (g : AdjacencyMatrixGraph V) (frm toIndex : Nat) (W : Int) :
    Option DijkstraOutput :=
  (dijkstraLoop g W g.vertices.length (dijkstraInit g frm)).map
    (fun s =>
      let vertexPath := completePaths s.vertexPath 0
      if ((vertexPath.getD toIndex []).length = 1 ∧ toIndex = frm) ∨
          s.weightPath.getD toIndex 0 = MAX then DijkstraOutput.impossible
      else DijkstraOutput.report (vertexPath.getD toIndex []).length
        (s.weightPath.getD toIndex 0) (s.bandwidthPath.getD toIndex 0)
        (vertexPath.getD toIndex []))

/-- The graph with the edges `A -> B` (1, 5), `C -> B` (2000, 5) and
`A -> C` (1, 1): under the threshold 3 the vertex `C` cannot be reached
from `A`. -/
def graphFar : AdjacencyMatrixGraph String :=
  withEdge (withEdge (withEdge graphABC "A" "B" 1 5) "C" "B" 2000 5) "A" "C" 1 1

/-- The edge `u -> v` is present and its bandwidth is at least `W`: the edges
`dijkstra` does not skip. -/
def Allowed (g : AdjacencyMatrixGraph V) (W : Int) (u v : Nat) : Prop :=
  u < g.vertices.length ∧ v < g.vertices.length ∧
    (slot g u v).isEmpty = false ∧ W ≤ (slot g u v).bandwidth

instance instDecidableAllowed (g : AdjacencyMatrixGraph V) (W : Int) (u v : Nat) :
    Decidable (Allowed g W u v) := by
  unfold Allowed; infer_instance

/-- The vertex sequence `p` leads from `a` to `b` over allowed edges. -/
def IsPath (g : AdjacencyMatrixGraph V) (W : Int) (p : List Nat) (a b : Nat) : Prop :=
  p.head? = some a ∧ p.getLast? = some b ∧ a < g.vertices.length ∧
    List.Chain' (Allowed g W) p

/-- The sum of the weights of the slots between consecutive vertices of `p`. -/
def pathWeight (g : AdjacencyMatrixGraph V) : List Nat → Int
  | [] => 0
  | [_] => 0
  | u :: v :: rest => (slot g u v).weight + pathWeight g (v :: rest)

/-- The bandwidths of the slots between consecutive vertices of `p`. -/
def pathBandwidths (g : AdjacencyMatrixGraph V) : List Nat → List Int
  | [] => []
  | [_] => []
  | u :: v :: rest => (slot g u v).bandwidth :: pathBandwidths g (v :: rest)

/-- The weight `w` is the least total weight of a path from `a` to `b` over
allowed edges. -/
def IsMinWeight (g : AdjacencyMatrixGraph V) (W : Int) (a b : Nat) (w : Int) : Prop :=
  (∃ p, IsPath g W p a b ∧ pathWeight g p = w) ∧
    ∀ p, IsPath g W p a b → w ≤ pathWeight g p

/-- Every present edge has a weight of at least 0. -/
def NonNegWeights (g : AdjacencyMatrixGraph V) : Prop :=
  ∀ i < g.vertices.length, ∀ j < g.vertices.length,
    (slot g i j).isEmpty = false → 0 ≤ (slot g i j).weight

instance instDecidableNonNegWeights (g : AdjacencyMatrixGraph V) :
    Decidable (NonNegWeights g) := by
  unfold NonNegWeights; infer_instance

/-- Every present edge has a weight of at most `bound`. -/
def WeightsAtMost (g : AdjacencyMatrixGraph V) (bound : Int) : Prop :=
  ∀ i < g.vertices.length, ∀ j < g.vertices.length,
    (slot g i j).isEmpty = false → (slot g i j).weight ≤ bound

instance instDecidableWeightsAtMost (g : AdjacencyMatrixGraph V) (bound : Int) :
    Decidable (WeightsAtMost g bound) := by
  unfold WeightsAtMost; infer_instance

/-- Every present edge has a bandwidth below `bound`. -/
def BandwidthsBelow (g : AdjacencyMatrixGraph V) (bound : Int) : Prop :=
  ∀ i < g.vertices.length, ∀ j < g.vertices.length,
    (slot g i j).isEmpty = false → (slot g i j).bandwidth < bound

instance instDecidableBandwidthsBelow (g : AdjacencyMatrixGraph V) (bound : Int) :
    Decidable (BandwidthsBelow g bound) := by
  unfold BandwidthsBelow; infer_instance

/-- The sum of the weights of all present edges. -/
def totalWeight (g : AdjacencyMatrixGraph V) : Int :=
  ((List.range g.vertices.length).map (fun i =>
    ((List.range g.vertices.length).map (fun j =>
      if (slot g i j).isEmpty = true then 0 else (slot g i j).weight)).sum)).sum

/-- The entry `weightPath[i]`. -/
def DijkstraState.wp (s : DijkstraState) (i : Nat) : Int := s.weightPath.getD i 0

/-- The entry `bandwidthPath[i]`. -/
def DijkstraState.bp (s : DijkstraState) (i : Nat) : Int := s.bandwidthPath.getD i 0

/-- The entry `vertexPath[i]`. -/
def DijkstraState.vp (s : DijkstraState) (i : Nat) : List Nat := s.vertexPath.getD i []

/-- The entry `visited[i]`. -/
def DijkstraState.vis (s : DijkstraState) (i : Nat) : Bool := s.visited.getD i false

/-- The least bandwidth along `p`, the sentinel when `p` has no edge. -/
def bottleneck (g : AdjacencyMatrixGraph V) (p : List Nat) : Int :=
  (pathBandwidths g p).foldl min MAX

/-- The bookkeeping of vertex `i` describes a path: `vertexPath[i]` followed by
`i` leads from `frm` to `i` over allowed edges, `weightPath[i]` is its weight
and `bandwidthPath[i]` its least bandwidth. -/
def Good (g : AdjacencyMatrixGraph V) (W : Int) (frm : Nat) (s : DijkstraState)
    (i : Nat) : Prop :=
  IsPath g W (s.vp i ++ [i]) frm i ∧ pathWeight g (s.vp i ++ [i]) = s.wp i ∧
    bottleneck g (s.vp i ++ [i]) = s.bp i

/-- What holds of the vectors of `dijkstra` at every point of the run, when
the weights are between 0 and 1000. -/
structure Basic (g : AdjacencyMatrixGraph V) (W : Int) (frm : Nat)
    (s : DijkstraState) : Prop where
  len_v : s.visited.length = g.vertices.length
  len_w : s.weightPath.length = g.vertices.length
  len_b : s.bandwidthPath.length = g.vertices.length
  len_p : s.vertexPath.length = g.vertices.length
  frm_lt : frm < g.vertices.length
  wp_frm : s.wp frm = 0
  vp_frm : s.vp frm = []
  bp_frm : s.bp frm = MAX
  rng : ∀ i < g.vertices.length, 0 ≤ s.wp i ∧ s.wp i ≤ MAX
  good : ∀ i < g.vertices.length, s.wp i < MAX → Good g W frm s i
  pred : ∀ i < g.vertices.length, i ≠ frm →
    s.vp i = [frm] ∨
      ∃ c < g.vertices.length, c ≠ i ∧ s.vis c = true ∧ s.vp i = s.vp c ++ [c]

/-- What holds inside the relaxation loop of the round of `cur`, before the
index `k` is handled. -/
structure Relaxing (g : AdjacencyMatrixGraph V) (W : Int) (frm cur k : Nat)
    (s : DijkstraState) : Prop where
  basic : Basic g W frm s
  cur_lt : cur < g.vertices.length
  vis_cur : s.vis cur = true
  ordA : ∀ u < g.vertices.length, s.vis u = true → s.wp u ≤ s.wp cur
  ordB : ∀ v < g.vertices.length, s.vis v = false → s.wp cur ≤ s.wp v
  closed : ∀ u < g.vertices.length, s.vis u = true → u ≠ cur →
    ∀ v, Allowed g W u v → s.wp v ≤ s.wp u + (slot g u v).weight
  closed_cur : ∀ v < k, Allowed g W cur v → s.wp v ≤ s.wp cur + (slot g cur v).weight
  queue : s.pqueue = []

/-- What holds between two rounds of the `while` loop. -/
structure Between (g : AdjacencyMatrixGraph V) (W : Int) (frm : Nat)
    (s : DijkstraState) : Prop where
  basic : Basic g W frm s
  ord : ∀ u < g.vertices.length, ∀ v < g.vertices.length,
    s.vis u = true → s.vis v = false → s.wp u ≤ s.wp v
  closed : ∀ u < g.vertices.length, s.vis u = true →
    ∀ v, Allowed g W u v → s.wp v ≤ s.wp u + (slot g u v).weight
  queue : (s.pqueue = [] ∧ ∀ i < g.vertices.length, s.vis i = true) ∨
    ∃ cur < g.vertices.length, s.pqueue = [cur] ∧ s.vis cur = false ∧
      ∀ v < g.vertices.length, s.vis v = false → s.wp cur ≤ s.wp v

/-- Every `removeVertex` of the sequence names a key that is in the graph when
the call is made. -/
def PresentKeys : List (VertexCall V) → AdjacencyMatrixGraph V → Prop
  | [], _ => True
  | VertexCall.add value :: rest, g => PresentKeys rest (addVertex g value).2
  | VertexCall.remove v :: rest, g =>
    v.title ∈ g.vertices.map (fun x => x.title) ∧
      PresentKeys rest ((removeVertex g v).getD g)

/-- The state `s'` follows the state `s` by one round of the `while` loop of
`dijkstra`: the top of the queue is popped and its round is run. -/
def dijkstraStep (g : AdjacencyMatrixGraph V) (W : Int) (s s' : DijkstraState) : Prop :=
  ∃ currentVertex, pqueueTop s.pqueue = some currentVertex ∧
    dijkstraRound g W currentVertex { s with pqueue := s.pqueue.erase currentVertex } = some s'

/-- The vertex `cur` is unvisited in `s`, no unvisited vertex has a smaller
`weightPath`, and every unvisited vertex of lower index has a larger one. -/
def SelectedMin (g : AdjacencyMatrixGraph V) (s : DijkstraState) (cur : Nat) : Prop :=
  cur < g.vertices.length ∧ s.vis cur = false ∧
    (∀ v < g.vertices.length, s.vis v = false → s.wp cur ≤ s.wp v) ∧
    ∀ v < cur, s.vis v = false → s.wp cur < s.wp v

/-- What holds of the queue of `dijkstra` between two rounds, whatever the
weights are: it is empty or holds the one vertex that the scan selected. -/
structure QueueInv (g : AdjacencyMatrixGraph V) (s : DijkstraState) : Prop where
  len_v : s.visited.length = g.vertices.length
  len_w : s.weightPath.length = g.vertices.length
  bound : ∀ i < g.vertices.length, s.wp i ≤ MAX
  queue : s.pqueue = [] ∨ ∃ cur, s.pqueue = [cur] ∧ SelectedMin g s cur

/-- The graph with the single edge `C -> B` (2000, 5): no vertex can be
reached from `A`. -/
def graphIsland : AdjacencyMatrixGraph String :=
  withEdge graphABC "C" "B" 2000 5

/-- The sum of the weights of the present edges of row `i`. -/
def rowWeight (g : AdjacencyMatrixGraph V) (i : Nat) : Int :=
  ((List.range g.vertices.length).map (fun j =>
    if (slot g i j).isEmpty = true then 0 else (slot g i j).weight)).sum

/-- The graph with the single edge `C -> A` (2000, 5): `A` reaches no vertex,
and the only edge into `A` leaves a vertex that cannot be reached from it. -/
def graphBack : AdjacencyMatrixGraph String :=
  withEdge graphABC "C" "A" 2000 5

/-- The scenario graph with the self-loop `A -> A` (4, 9) and the edge
`C -> A` (3, 9) added: `A` has a present self-loop and lies on the cycles
`A -> B -> C -> A` and `A -> C -> A`. -/
def graphLoops : AdjacencyMatrixGraph String :=
  withEdge (withEdge graphScenario "A" "A" 4 9) "C" "A" 3 9

/-- What a part of `cycleDFS` that was entered with the visited vertices `vis`
and the stack `st` leaves of the stack: the same stack when no vertex is
returned, a stack without repeated vertices when one is; no visited vertex is
forgotten. -/
structure StackPost (vis st : List (Vertex V)) (r : DfsResult V) : Prop where
  same : r.result = none → r.stack = st
  mono : ∀ v ∈ vis, v ∈ r.visited
  nodup : ∀ res, r.result = some res → r.stack.Nodup

/-- The graph with the edges `A -> B` (1, 5) and `B -> A` (-5, 5). -/
def graphNegative : AdjacencyMatrixGraph String :=
  withEdge (withEdge graphABC "A" "B" 1 5) "B" "A" (-5) 5

/-- No sum `weightPath[cur] + weight` that the round of `cur` forms in the
state `s`, one for each present edge from `cur` of bandwidth at least `W`,
leaves the range of `int`. -/
def NoOverflow (g : AdjacencyMatrixGraph V) (W : Int) (s : DijkstraState) (cur : Nat) : Prop :=
  ∀ i < g.vertices.length, Allowed g W cur i →
    -2147483648 ≤ s.wp cur + (slot g cur i).weight ∧
      s.wp cur + (slot g cur i).weight ≤ INT_MAX

instance instDecidableNoOverflow (g : AdjacencyMatrixGraph V) (W : Int) (s : DijkstraState)
    (cur : Nat) : Decidable (NoOverflow g W s cur) := by
  unfold NoOverflow; infer_instance

/-- What holds of the vectors of `dijkstra` when the weights are at least 0
and no sum has left the range of `int`: no `weightPath` is negative, that of
the source is 0, and only the source has an empty `vertexPath`. -/
structure Safe (g : AdjacencyMatrixGraph V) (frm : Nat) (s : DijkstraState) : Prop where
  len_w : s.weightPath.length = g.vertices.length
  len_p : s.vertexPath.length = g.vertices.length
  nonneg : ∀ i < g.vertices.length, 0 ≤ s.wp i
  wp_frm : s.wp frm = 0
  paths : ∀ i < g.vertices.length, i ≠ frm → s.vp i ≠ []

/-! ## Theorems -/

/-! ### getIndex -/

theorem getIndexIn_some {t : V} : ∀ {vs : List (Vertex V)} {i : Nat},
    getIndexIn t vs = some i →
      ∃ h : i < vs.length, (vs[i]).title = t ∧ ∀ j (hj : j < i), (vs[j]).title ≠ t
  | [], i, h => by simp [getIndexIn] at h
  | v :: rest, i, h => by
    unfold getIndexIn at h
    by_cases hv : v.title = t
    · simp [hv] at h
      subst h
      exact ⟨by simp, by simpa using hv, by intro j hj; omega⟩
    · simp [hv] at h
      obtain ⟨k, hk, rfl⟩ := h
      obtain ⟨hlt, htitle, hmin⟩ := getIndexIn_some hk
      refine ⟨by simpa using hlt, by simpa using htitle, ?_⟩
      intro j hj
      cases j with
      | zero => simpa using hv
      | succ j => simpa using hmin j (by omega)

theorem getIndexIn_none {t : V} : ∀ {vs : List (Vertex V)},
    getIndexIn t vs = none ↔ ∀ v ∈ vs, v.title ≠ t
  | [] => by simp [getIndexIn]
  | v :: rest => by
    unfold getIndexIn
    by_cases hv : v.title = t
    · simp [hv]
    · have ih : getIndexIn t rest = none ↔ ∀ v ∈ rest, v.title ≠ t := getIndexIn_none
      simp [hv, ih]

theorem getIndexIn_of_mem {t : V} {vs : List (Vertex V)}
    (h : t ∈ vs.map (fun v => v.title)) : ∃ i, getIndexIn t vs = some i := by
  cases hg : getIndexIn t vs with
  | some i => exact ⟨i, rfl⟩
  | none =>
    rw [getIndexIn_none] at hg
    simp only [List.mem_map] at h
    obtain ⟨v, hv, hvt⟩ := h
    exact absurd hvt (hg v hv)

theorem getIndexIn_append_new {t : V} {vs : List (Vertex V)} (w : Vertex V)
    (h : getIndexIn t vs = none) (hw : w.title = t) :
    getIndexIn t (vs ++ [w]) = some vs.length := by
  induction vs with
  | nil => simp [getIndexIn, hw]
  | cons v rest ih =>
    unfold getIndexIn at h
    by_cases hv : v.title = t
    · simp [hv] at h
    · simp [hv] at h
      simp [getIndexIn, hv, ih h]

theorem getIndexIn_unique {t : V} : ∀ {vs : List (Vertex V)} {i : Nat}
    (_ : (vs.map (fun v => v.title)).Nodup) (h : i < vs.length),
    (vs[i]).title = t → getIndexIn t vs = some i
  | [], i, _, h, _ => by simp at h
  | v :: rest, 0, _, _, ht => by simp at ht; simp [getIndexIn, ht]
  | v :: rest, i + 1, hnd, h, ht => by
    simp only [List.map_cons, List.nodup_cons] at hnd
    simp only [List.getElem_cons_succ] at ht
    have hlt : i < rest.length := by simpa using h
    have hv : v.title ≠ t := by
      intro hv
      apply hnd.1
      rw [hv, ← ht]
      exact List.mem_map.2 ⟨rest[i], List.getElem_mem _, rfl⟩
    simp [getIndexIn, hv, getIndexIn_unique hnd.2 hlt ht]

/-! ### Shape of the matrix under `addVertex` and `removeVertex` -/

theorem newRow_length : ∀ (count : Nat) (heap : List Edge),
    (newRow count heap).1.length = count
  | 0, _ => rfl
  | count + 1, heap => by simp [newRow, newRow_length count]

theorem pushColumn_length : ∀ (count : Nat) (rows : List (List Nat)) (heap : List Edge),
    (pushColumn count rows heap).1.length = rows.length
  | 0, _, _ => rfl
  | _ + 1, [], _ => rfl
  | count + 1, _ :: rows, heap => by simp [pushColumn, pushColumn_length count rows]

theorem pushColumn_row_length (m : Nat) : ∀ (count : Nat) (xs ys : List (List Nat))
    (heap : List Edge), xs.length = count → (∀ r ∈ xs, r.length = m) →
    (∀ r ∈ ys, r.length = m + 1) →
    ∀ r ∈ (pushColumn count (xs ++ ys) heap).1, r.length = m + 1
  | 0, xs, ys, heap, hlen, _, hys => by
    have : xs = [] := List.length_eq_zero.1 hlen
    subst this
    simpa [pushColumn] using hys
  | count + 1, [], _, _, hlen, _, _ => by simp at hlen
  | count + 1, x :: xs, ys, heap, hlen, hxs, hys => by
    intro r hr
    simp only [List.cons_append, pushColumn, List.mem_cons] at hr
    rcases hr with rfl | hr
    · simp [hxs x (List.mem_cons_self _ _)]
    · exact pushColumn_row_length m count xs ys _ (by simpa using hlen)
        (fun r hr => hxs r (List.mem_cons_of_mem _ hr)) hys r hr

theorem eraseColumn_length (index : Nat) : ∀ (count : Nat) (rows : List (List Nat)),
    rows.length ≤ count → (eraseColumn index count rows).length = rows.length
  | 0, rows, h => by
    have : rows = [] := List.length_eq_zero.1 (Nat.le_zero.1 h)
    subst this; rfl
  | _ + 1, [], _ => rfl
  | count + 1, _ :: rows, h => by
    simp [eraseColumn, eraseColumn_length index count rows (by simpa using h)]

theorem eraseColumn_row_length (index m : Nat) (hi : index < m + 1) :
    ∀ (count : Nat) (rows : List (List Nat)), rows.length ≤ count →
    (∀ r ∈ rows, r.length = m + 1) →
    ∀ r ∈ eraseColumn index count rows, r.length = m
  | 0, rows, h, _ => by
    have : rows = [] := List.length_eq_zero.1 (Nat.le_zero.1 h)
    subst this; simp [eraseColumn]
  | _ + 1, [], _, _ => by simp [eraseColumn]
  | count + 1, x :: rows, h, hrows => by
    intro r hr
    simp only [eraseColumn, List.mem_cons] at hr
    rcases hr with rfl | hr
    · rw [List.length_eraseIdx, if_pos (by rw [hrows x (List.mem_cons_self _ _)]; exact hi),
        hrows x (List.mem_cons_self _ _)]
      rfl
    · exact eraseColumn_row_length index m hi count rows (by simpa using h)
        (fun r hr => hrows r (List.mem_cons_of_mem _ hr)) r hr

theorem addVertex_square (g : AdjacencyMatrixGraph V) (value : V) (h : Square g) :
    Square (addVertex g value).2 := by
  unfold addVertex
  simp only [getIndex]
  cases hidx : getIndexIn value g.vertices with
  | some index => exact h
  | none =>
    obtain ⟨hrows, hcols⟩ := h
    refine ⟨?_, ?_⟩
    · simp [pushColumn_length, hrows]
    · simp only [List.length_append, List.length_singleton, Nat.add_sub_cancel]
      apply pushColumn_row_length g.vertices.length g.vertices.length g.edges _ _ hrows hcols
      intro r hr
      simp only [List.mem_singleton] at hr
      subst hr
      simp [newRow_length]

theorem removeVertex_square (g g' : AdjacencyMatrixGraph V) (v : Vertex V) (h : Square g)
    (hr : removeVertex g v = some g') : Square g' := by
  unfold removeVertex at hr
  simp only [getIndex] at hr
  cases hidx : getIndexIn v.title g.vertices with
  | none => simp [hidx] at hr
  | some index =>
    simp only [hidx, Option.some.injEq] at hr
    subst hr
    obtain ⟨hlt, -, -⟩ := getIndexIn_some hidx
    obtain ⟨hrows, hcols⟩ := h
    obtain ⟨m, hm⟩ : ∃ m, g.vertices.length = m + 1 := ⟨g.vertices.length - 1, by omega⟩
    have hlenV : (g.vertices.eraseIdx index).length = m := by
      rw [List.length_eraseIdx, if_pos hlt, hm]; rfl
    have hlenE : (g.edges.eraseIdx index).length = m := by
      rw [List.length_eraseIdx, if_pos (by omega), hrows, hm]; rfl
    refine ⟨?_, ?_⟩
    · simp only [hlenV]
      rw [eraseColumn_length _ _ _ (by omega), hlenE]
    · simp only [hlenV]
      apply eraseColumn_row_length index m (by omega) m _ (by omega)
      intro r hr
      rw [← hm]
      exact hcols r (List.mem_of_mem_eraseIdx hr)

theorem runVertexCalls_square : ∀ (calls : List (VertexCall V))
    (g g' : AdjacencyMatrixGraph V), Square g → runVertexCalls calls g = some g' → Square g'
  | [], g, g', h, hr => by
    simp only [runVertexCalls, Option.some.injEq] at hr
    exact hr ▸ h
  | VertexCall.add value :: rest, g, g', h, hr =>
    runVertexCalls_square rest _ g' (addVertex_square g value h) hr
  | VertexCall.remove v :: rest, g, g', h, hr => by
    simp only [runVertexCalls] at hr
    cases hrem : removeVertex g v with
    | none => simp [hrem] at hr
    | some g1 =>
      rw [hrem] at hr
      exact runVertexCalls_square rest g1 g' (removeVertex_square g g1 v h hrem) hr

theorem findVertex_eq_getD {k : V} : ∀ {vs : List (Vertex V)} {i : Nat} (d : Vertex V),
    getIndexIn k vs = some i →
    vs.find? (fun vertex => decide (vertex.title = k)) = some (vs.getD i d)
  | [], i, _, h => by simp [getIndexIn] at h
  | v :: rest, i, d, h => by
    unfold getIndexIn at h
    by_cases hv : v.title = k
    · simp [hv] at h
      subst h
      simp [List.find?, hv]
    · simp [hv] at h
      obtain ⟨j, hj, rfl⟩ := h
      have := findVertex_eq_getD d hj
      simp [List.find?, hv, this]

/-- C2: `addVertex(k)` on a graph that already holds the key `k` returns the
vertex of the list that holds `k` and leaves the vertex list, the matrix and
the edge objects as they were; and for every graph a second `addVertex(k)`
returns the vertex the first call returned and changes nothing. -/
theorem addVertex_idempotent (g : AdjacencyMatrixGraph V) (k : V) :
    (k ∈ g.vertices.map (fun v => v.title) →
      findVertex g k = some (addVertex g k).1 ∧
      (addVertex g k).1 ∈ g.vertices ∧
      (addVertex g k).2.vertices = g.vertices ∧
      (addVertex g k).2.edges = g.edges ∧
      (addVertex g k).2.heap = g.heap) ∧
    ((addVertex (addVertex g k).2 k).1 = (addVertex g k).1 ∧
      (addVertex (addVertex g k).2 k).2.vertices = (addVertex g k).2.vertices ∧
      (addVertex (addVertex g k).2 k).2.edges = (addVertex g k).2.edges ∧
      (addVertex (addVertex g k).2 k).2.heap = (addVertex g k).2.heap) := by
  have present : ∀ (g : AdjacencyMatrixGraph V) (i : Nat),
      getIndexIn k g.vertices = some i →
      addVertex g k = (g.vertices.getD i { addr := g.allocated, title := k },
        { g with allocated := g.allocated + 1 }) := by
    intro g i hi
    simp [addVertex, getIndex, hi]
  constructor
  · intro hk
    obtain ⟨i, hi⟩ := getIndexIn_of_mem hk
    rw [present g i hi]
    obtain ⟨hlt, -, -⟩ := getIndexIn_some hi
    refine ⟨findVertex_eq_getD _ hi, ?_, rfl, rfl, rfl⟩
    simp only [List.getD_eq_getElem?_getD, List.getElem?_eq_getElem hlt, Option.getD_some]
    exact List.getElem_mem _
  · cases hidx : getIndexIn k g.vertices with
    | some i =>
      rw [present g i hidx]
      dsimp only
      rw [present { g with allocated := g.allocated + 1 } i hidx]
      obtain ⟨hlt, -, -⟩ := getIndexIn_some hidx
      simp [List.getElem?_eq_getElem hlt]
    | none =>
      have hfirst : ∃ e h, addVertex g k =
          ({ addr := g.allocated + 1, title := k },
            { vertices := g.vertices ++ [{ addr := g.allocated + 1, title := k }]
              edges := e, heap := h, allocated := g.allocated + 1 + 1 }) := by
        simp [addVertex, getIndex, hidx]
      obtain ⟨e, h, hfirst⟩ := hfirst
      rw [hfirst]
      dsimp only
      have hnew := @getIndexIn_append_new V _ k g.vertices
        ({ addr := g.allocated + 1, title := k } : Vertex V) hidx rfl
      rw [present { vertices := g.vertices ++ [{ addr := g.allocated + 1, title := k }]
                    edges := e, heap := h, allocated := g.allocated + 1 + 1 } _ hnew]
      simp

/-- C2 (witness): `graphABC` holds the key `B`. -/
theorem addVertex_idempotent_witness :
    "B" ∈ graphABC.vertices.map (fun v => v.title) ∧
      (findVertex graphABC "B" = some (addVertex graphABC "B").1 ∧
      (addVertex graphABC "B").1 ∈ graphABC.vertices ∧
      (addVertex graphABC "B").2.vertices = graphABC.vertices ∧
      (addVertex graphABC "B").2.edges = graphABC.edges ∧
      (addVertex graphABC "B").2.heap = graphABC.heap) :=
  ⟨by decide, (addVertex_idempotent graphABC "B").1 (by decide)⟩

/-- C5: on a well-formed graph that holds the keys `a` and `b`,
`removeEdge(findEdge(a, b))` makes `hasEdge(a, b)` false, keeps the removed
edge out of `edgesFrom(a)` and `edgesTo(b)`, leaves weight 0 in it, and keeps
the vertex list and the matrix of slots (hence its dimensions) as they were. -/
theorem removeEdge_tombstone (g : AdjacencyMatrixGraph V) (a b : V)
    (hwf : WellFormed g) (ha : a ∈ g.vertices.map (fun v => v.title))
    (hb : b ∈ g.vertices.map (fun v => v.title)) :
    ∃ e, findEdge g a b = some e ∧
      (∀ va vb : Vertex V, va.title = a → vb.title = b →
        hasEdge (removeEdge g e) va vb = false ∧
        (∃ out, edgesFrom (removeEdge g e) va = some out ∧ e ∉ out) ∧
        (∃ inc, edgesTo (removeEdge g e) vb = some inc ∧ e ∉ inc)) ∧
      (deref (removeEdge g e) e).weight = 0 ∧
      (deref (removeEdge g e) e).isEmpty = true ∧
      (removeEdge g e).edges = g.edges ∧
      (removeEdge g e).vertices = g.vertices ∧
      Square (removeEdge g e) := by
  obtain ⟨x, hx⟩ := getIndexIn_of_mem ha
  obtain ⟨y, hy⟩ := getIndexIn_of_mem hb
  obtain ⟨hxlt, -, -⟩ := getIndexIn_some hx
  obtain ⟨hylt, -, -⟩ := getIndexIn_some hy
  obtain ⟨⟨hrows, hcols⟩, -, hvalid, -⟩ := hwf
  have hxr : x < g.edges.length := by omega
  have hrow : (g.edges[x]).length = g.vertices.length := hcols _ (List.getElem_mem _)
  have hyr : y < (g.edges[x]).length := by omega
  have hedge : edgeAt g x y = (g.edges[x])[y] := by
    simp [edgeAt, List.getElem?_eq_getElem hxr, List.getElem?_eq_getElem hyr]
  have hptr : edgeAt g x y < g.heap.length :=
    hedge ▸ hvalid _ (List.getElem_mem _) _ (List.getElem_mem _)
  have hderef : deref (removeEdge g (edgeAt g x y)) (edgeAt g x y) =
      { deref g (edgeAt g x y) with isEmpty := true, weight := 0 } := by
    simp [deref, removeEdge, hptr]
  refine ⟨edgeAt g x y, by simp [findEdge, getIndex, hx, hy], ?_, ?_, ?_, rfl, rfl,
    ⟨hrows, hcols⟩⟩
  · intro va vb hva hvb
    have hout : ∀ l : List Nat, edgeAt g x y ∉
        l.filter (fun e => !(deref (removeEdge g (edgeAt g x y)) e).isEmpty) := by
      intro l hmem
      have := (List.mem_filter.1 hmem).2
      simp [hderef] at this
    refine ⟨?_, ?_, ?_⟩
    · have h1 : getIndex (removeEdge g (edgeAt g x y)) va = some x := by
        simp [getIndex, removeEdge, hva, hx]
      have h2 : getIndex (removeEdge g (edgeAt g x y)) vb = some y := by
        simp [getIndex, removeEdge, hvb, hy]
      have h3 : edgeAt (removeEdge g (edgeAt g x y)) x y = edgeAt g x y := rfl
      simp [hasEdge, h1, h2, slot, h3, hderef]
    · have h1 : getIndex (removeEdge g (edgeAt g x y)) va = some x := by
        simp [getIndex, removeEdge, hva, hx]
      simp only [edgesFrom, h1]
      exact ⟨_, rfl, hout _⟩
    · have h2 : getIndex (removeEdge g (edgeAt g x y)) vb = some y := by
        simp [getIndex, removeEdge, hvb, hy]
      simp only [edgesTo, h2]
      exact ⟨_, rfl, hout _⟩
  · rw [hderef]
  · rw [hderef]

/-- C5 (witness): the edge `A -> C` of the scenario graph. -/
theorem removeEdge_tombstone_witness :
    WellFormed graphScenario ∧ "A" ∈ graphScenario.vertices.map (fun v => v.title) ∧
      "C" ∈ graphScenario.vertices.map (fun v => v.title) ∧
      ∃ e, findEdge graphScenario "A" "C" = some e ∧
        (∀ va vb : Vertex String, va.title = "A" → vb.title = "C" →
          hasEdge (removeEdge graphScenario e) va vb = false ∧
          (∃ out, edgesFrom (removeEdge graphScenario e) va = some out ∧ e ∉ out) ∧
          (∃ inc, edgesTo (removeEdge graphScenario e) vb = some inc ∧ e ∉ inc)) ∧
        (deref (removeEdge graphScenario e) e).weight = 0 ∧
        (deref (removeEdge graphScenario e) e).isEmpty = true ∧
        (removeEdge graphScenario e).edges = graphScenario.edges ∧
        (removeEdge graphScenario e).vertices = graphScenario.vertices ∧
        Square (removeEdge graphScenario e) :=
  ⟨by decide, by decide, by decide,
    removeEdge_tombstone graphScenario "A" "C" (by decide) (by decide) (by decide)⟩

/-! ### Machine integers on values that fit -/

theorem toSize_natCast (k : Nat) (hk : (k : Int) ≤ INT_MAX) : toSize (k : Int) = k := by
  unfold INT_MAX at hk
  unfold toSize
  omega

theorem succInt_natCast (k : Nat) (hk : ((k + 1 : Nat) : Int) ≤ INT_MAX) :
    succInt (k : Int) = some ((k + 1 : Nat) : Int) := by
  unfold succInt
  rw [if_pos (by omega)]
  rfl

theorem sizeSub_one (n : Nat) (h1 : 1 ≤ n) (hn : (n : Int) ≤ INT_MAX) :
    sizeSub n 1 = n - 1 := by
  unfold INT_MAX at hn
  unfold sizeSub
  omega

/-! ### Matrices of addresses -/

theorem entry_eq_getElem {e : List (List Nat)} {n a b : Nat} (h : IsSq e n)
    (ha : a < n) (hb : b < n) :
    ∃ (h1 : a < e.length) (h2 : b < (e[a]).length), entry e a b = (e[a])[b] := by
  have h1 : a < e.length := by rw [h.1]; exact ha
  have h2 : b < (e[a]).length := by rw [h.2 _ (List.getElem_mem _)]; exact hb
  exact ⟨h1, h2, by simp [entry, List.getElem?_eq_getElem h1, List.getElem?_eq_getElem h2]⟩

theorem matrix_ext {e e' : List (List Nat)} {n : Nat} (h : IsSq e n) (h' : IsSq e' n)
    (hent : ∀ a b, a < n → b < n → entry e a b = entry e' a b) : e = e' := by
  apply List.ext_getElem (by rw [h.1, h'.1])
  intro a h1 h2
  have ha : a < n := by rw [← h.1]; exact h1
  apply List.ext_getElem
    (by rw [h.2 _ (List.getElem_mem _), h'.2 _ (List.getElem_mem _)])
  intro b h3 h4
  have hb : b < n := by rw [← h.2 _ (List.getElem_mem h1)]; exact h3
  obtain ⟨_, _, e1⟩ := entry_eq_getElem h ha hb
  obtain ⟨_, _, e2⟩ := entry_eq_getElem h' ha hb
  rw [← e1, ← e2]
  exact hent a b ha hb

theorem isSq_set {e : List (List Nat)} {n : Nat} (h : IsSq e n) (i : Nat) (r : List Nat)
    (hr : r.length = n) : IsSq (e.set i r) n := by
  refine ⟨by simp [h.1], ?_⟩
  intro x hx
  rcases List.mem_or_eq_of_mem_set hx with hx | rfl
  · exact h.2 x hx
  · exact hr

theorem getD_row_length {e : List (List Nat)} {n : Nat} (h : IsSq e n) (i : Nat)
    (hi : i < n) : (e.getD i []).length = n := by
  have h1 : i < e.length := by rw [h.1]; exact hi
  simp only [List.getD_eq_getElem?_getD, List.getElem?_eq_getElem h1, Option.getD_some]
  exact h.2 _ (List.getElem_mem _)

theorem entry_set_row {e : List (List Nat)} {n : Nat} (h : IsSq e n) (i j p a b : Nat)
    (hi : i < n) (hj : j < n) :
    entry (e.set i ((e.getD i []).set j p)) a b =
      if a = i ∧ b = j then p else entry e a b := by
  have h1 : i < e.length := by rw [h.1]; exact hi
  have h2 : j < (e[i]).length := by rw [h.2 _ (List.getElem_mem _)]; exact hj
  unfold entry
  by_cases hai : a = i
  · subst hai
    by_cases hbj : b = j
    · subst hbj
      simp [List.getElem?_eq_getElem h1, h1, h2]
    · have : ¬ j = b := fun hh => hbj hh.symm
      simp [List.getElem?_eq_getElem h1, h1, List.getElem?_set, hbj, this]
  · have : ¬ i = a := fun hh => hai hh.symm
    simp [List.getElem?_set, hai, this]

theorem swapSlots_isSq {e : List (List Nat)} {n : Nat} (h : IsSq e n) (i j : Nat)
    (hi : i < n) (hj : j < n) : IsSq (swapSlots e i j) n := by
  unfold swapSlots
  have h1 : IsSq (e.set i ((e.getD i []).set j ((e.getD j []).getD i 0))) n :=
    isSq_set h i _ (by rw [List.length_set]; exact getD_row_length h i hi)
  exact isSq_set h1 j _ (by rw [List.length_set]; exact getD_row_length h1 j hj)

theorem swapSlots_entry {e : List (List Nat)} {n : Nat} (h : IsSq e n) (i j a b : Nat)
    (hi : i < n) (hj : j < n) :
    entry (swapSlots e i j) a b =
      if a = j ∧ b = i then entry e i j
      else if a = i ∧ b = j then entry e j i else entry e a b := by
  have h1 : IsSq (e.set i ((e.getD i []).set j ((e.getD j []).getD i 0))) n :=
    isSq_set h i _ (by rw [List.length_set]; exact getD_row_length h i hi)
  unfold swapSlots
  rw [entry_set_row h1 j i _ a b hj hi, entry_set_row h i j _ a b hi hj]
  rfl

/-! ### The loops of `transpose` -/

theorem transposeInner_round (n i j f : Nat) (e : List (List Nat)) (hjlt : j < n)
    (hiI : (i : Int) ≤ INT_MAX) (hj1 : ((j + 1 : Nat) : Int) ≤ INT_MAX) :
    transposeInner n (i : Int) (f + 1) (j : Int) e =
      transposeInner n (i : Int) f ((j + 1 : Nat) : Int) (swapSlots e i j) := by
  have hjI : (j : Int) ≤ INT_MAX := by omega
  rw [transposeInner, toSize_natCast j hjI, if_pos hjlt, succInt_natCast j hj1,
    toSize_natCast i hiI]

theorem transposeInner_spec (n i : Nat) (hi : i < n) (hn : (n : Int) ≤ INT_MAX) :
    ∀ (d j fuel : Nat) (e : List (List Nat)), i < j → j ≤ n → n - j = d → d < fuel →
    IsSq e n →
    ∃ e', transposeInner n (i : Int) fuel (j : Int) e = some e' ∧ IsSq e' n ∧
      ∀ a b, a < n → b < n → entry e' a b =
        if a = i ∧ j ≤ b then entry e b i
        else if b = i ∧ j ≤ a then entry e i a else entry e a b := by
  intro d
  induction d with
  | zero =>
    intro j fuel e hij hjn hd hfuel hsq
    obtain ⟨f, rfl⟩ : ∃ f, fuel = f + 1 := ⟨fuel - 1, by omega⟩
    have hj : j = n := by omega
    subst hj
    refine ⟨e, ?_, hsq, ?_⟩
    · rw [transposeInner, toSize_natCast j hn, if_neg (by omega)]
    · intro a b ha hb
      rw [if_neg (by omega), if_neg (by omega)]
  | succ d ih =>
    intro j fuel e hij hjn hd hfuel hsq
    obtain ⟨f, rfl⟩ : ∃ f, fuel = f + 1 := ⟨fuel - 1, by omega⟩
    have hjlt : j < n := by omega
    have hjI : (j : Int) ≤ INT_MAX := by have : (j : Int) ≤ (n : Int) := by omega
                                         omega
    have hiI : (i : Int) ≤ INT_MAX := by have : (i : Int) ≤ (n : Int) := by omega
                                         omega
    have hj1 : ((j + 1 : Nat) : Int) ≤ INT_MAX := by
      have : ((j + 1 : Nat) : Int) ≤ (n : Int) := by omega
      omega
    obtain ⟨e', he', hsq', hent⟩ := ih (j + 1) f (swapSlots e i j) (by omega) (by omega)
      (by omega) (by omega) (swapSlots_isSq hsq i j hi hjlt)
    refine ⟨e', ?_, hsq', ?_⟩
    · rw [transposeInner_round n i j f e hjlt hiI hj1]
      exact he'
    · intro a b ha hb
      rw [hent a b ha hb]
      simp only [swapSlots_entry hsq i j _ _ hi hjlt]
      split_ifs <;> first | rfl | (exfalso; omega) | (congr 1; omega)

theorem transposeOuter_spec (n : Nat) (h1 : 1 ≤ n) (hn : (n : Int) ≤ INT_MAX) :
    ∀ (d i fuel : Nat) (e : List (List Nat)), i ≤ n - 1 → n - 1 - i = d → d < fuel →
    IsSq e n →
    ∃ e', transposeOuter n fuel (i : Int) e = some e' ∧ IsSq e' n ∧
      ∀ a b, a < n → b < n → entry e' a b =
        if i ≤ a ∧ i ≤ b ∧ a ≠ b then entry e b a else entry e a b := by
  intro d
  induction d with
  | zero =>
    intro i fuel e hin hd hfuel hsq
    obtain ⟨f, rfl⟩ : ∃ f, fuel = f + 1 := ⟨fuel - 1, by omega⟩
    have hiI : (i : Int) ≤ INT_MAX := by have : (i : Int) ≤ (n : Int) := by omega
                                         omega
    refine ⟨e, ?_, hsq, ?_⟩
    · rw [transposeOuter, toSize_natCast i hiI, sizeSub_one n h1 hn, if_neg (by omega)]
    · intro a b ha hb
      rw [if_neg (by omega)]
  | succ d ih =>
    intro i fuel e hin hd hfuel hsq
    obtain ⟨f, rfl⟩ : ∃ f, fuel = f + 1 := ⟨fuel - 1, by omega⟩
    have hiI : (i : Int) ≤ INT_MAX := by have : (i : Int) ≤ (n : Int) := by omega
                                         omega
    have hi1 : ((i + 1 : Nat) : Int) ≤ INT_MAX := by
      have : ((i + 1 : Nat) : Int) ≤ (n : Int) := by omega
      omega
    obtain ⟨e1, he1, hsq1, hent1⟩ := transposeInner_spec n i (by omega) hn (n - (i + 1))
      (i + 1) 4294967296 e (by omega) (by omega) rfl
      (by unfold INT_MAX at hn; omega) hsq
    obtain ⟨e', he', hsq', hent⟩ := ih (i + 1) f e1 (by omega) (by omega) (by omega) hsq1
    refine ⟨e', ?_, hsq', ?_⟩
    · rw [transposeOuter, toSize_natCast i hiI, sizeSub_one n h1 hn, if_pos (by omega),
        succInt_natCast i hi1]
      simp only
      rw [he1]
      exact he'
    · intro a b ha hb
      rw [hent a b ha hb]
      by_cases h2 : i + 1 ≤ a ∧ i + 1 ≤ b ∧ a ≠ b
      · rw [if_pos h2, hent1 b a hb ha]
        split_ifs <;> first | rfl | (exfalso; omega)
      · rw [if_neg h2, hent1 a b ha hb]
        split_ifs <;> first | rfl | (exfalso; omega) | (congr 1; omega)

theorem transposeInner_empty (i j : Int) (e : List (List Nat)) (fuel : Nat)
    (h : 0 < fuel) : transposeInner 0 i fuel j e = some e := by
  obtain ⟨f, rfl⟩ : ∃ f, fuel = f + 1 := ⟨fuel - 1, by omega⟩
  rw [transposeInner, if_neg (by omega)]

theorem transposeOuter_empty_none (e : List (List Nat)) :
    ∀ (fuel : Nat) (i : Int), 0 ≤ i → i ≤ INT_MAX → transposeOuter 0 fuel i e = none
  | 0, _, _, _ => rfl
  | fuel + 1, i, h0, h1 => by
    have hc : toSize i < sizeSub 0 1 := by
      unfold INT_MAX at h1
      unfold toSize sizeSub
      omega
    rw [transposeOuter, if_pos hc]
    by_cases hlast : i < INT_MAX
    · have hs : succInt i = some (i + 1) := by
        unfold succInt
        rw [if_pos hlast]
      rw [hs]
      simp only
      rw [transposeInner_empty _ _ _ _ (by omega), Option.some_bind]
      exact transposeOuter_empty_none e fuel (i + 1) (by omega) (by omega)
    · have hs : succInt i = none := by
        unfold succInt
        rw [if_neg hlast]
      rw [hs]

theorem transpose_spec (g : AdjacencyMatrixGraph V) (hsq : Square g)
    (h1 : 0 < g.vertices.length) (hn : (g.vertices.length : Int) ≤ INT_MAX) :
    ∃ e', transpose g = some { g with edges := e' } ∧ IsSq e' g.vertices.length ∧
      ∀ a b, a < g.vertices.length → b < g.vertices.length →
        entry e' a b = entry g.edges b a := by
  have hsq0 : IsSq g.edges g.vertices.length := hsq
  obtain ⟨e', he', hsq', hent⟩ := transposeOuter_spec g.vertices.length (by omega) hn
    (g.vertices.length - 1) 0 4294967296 g.edges (by omega) (by omega)
    (by unfold INT_MAX at hn; omega) hsq0
  refine ⟨e', ?_, hsq', ?_⟩
  · unfold transpose
    have hc : ((0 : Nat) : Int) = 0 := rfl
    rw [hc] at he'
    rw [he']
    rfl
  · intro a b ha hb
    rw [hent a b ha hb]
    split_ifs with h
    · rfl
    · have : a = b := by omega
      rw [this]

/-- On a well-formed graph with at least one vertex `transpose(); transpose();`
ends in the graph it started from: the same vertex list and, at every pair of
indices, the same slot (presence flag, weight and bandwidth). -/
theorem transpose_involution (g : AdjacencyMatrixGraph V) (hwf : WellFormed g)
    (hpos : 0 < g.vertices.length) :
    (transpose g).bind transpose = some g := by
  obtain ⟨hsq, hn, -⟩ := hwf
  obtain ⟨e1, h1, hsq1, hent1⟩ := transpose_spec g hsq hpos hn
  have hsqg1 : Square ({ g with edges := e1 } : AdjacencyMatrixGraph V) := hsq1
  obtain ⟨e2, h2, hsq2, hent2⟩ := transpose_spec { g with edges := e1 } hsqg1 hpos hn
  rw [h1, Option.some_bind, h2]
  have hsq0 : IsSq g.edges g.vertices.length := hsq
  have : e2 = g.edges := by
    apply matrix_ext hsq2 hsq0
    intro a b ha hb
    rw [hent2 a b ha hb]
    exact hent1 b a hb ha
  rw [this]

/-- The scenario graph is well-formed and has three vertices, so transposing
it twice restores it. -/
theorem transpose_involution_witness :
    WellFormed graphScenario ∧ 0 < graphScenario.vertices.length ∧
      (transpose graphScenario).bind transpose = some graphScenario :=
  ⟨by decide, by decide, transpose_involution graphScenario (by decide) (by decide)⟩

/-- C4: on a well-formed graph that holds the keys `a` and `b` (so it has at
least one vertex), after `transpose` the slot of `(a, b)` is the slot `(b, a)`
held before, `hasEdge(a, b)` is what `hasEdge(b, a)` was, every diagonal slot
is unchanged, and so are the vertex list and the edge objects. -/
theorem transpose_reverses (g : AdjacencyMatrixGraph V) (a b : V) (hwf : WellFormed g)
    (ha : a ∈ g.vertices.map (fun v => v.title))
    (hb : b ∈ g.vertices.map (fun v => v.title)) :
    ∃ g', transpose g = some g' ∧ g'.vertices = g.vertices ∧ g'.heap = g.heap ∧
      (∃ x y, getIndexIn a g.vertices = some x ∧ getIndexIn b g.vertices = some y ∧
        edgeAt g' x y = edgeAt g y x ∧ slot g' x y = slot g y x) ∧
      (∀ va vb : Vertex V, va.title = a → vb.title = b →
        hasEdge g' va vb = hasEdge g vb va) ∧
      (∀ i, i < g.vertices.length →
        edgeAt g' i i = edgeAt g i i ∧ slot g' i i = slot g i i) := by
  obtain ⟨hsq, hn, -⟩ := hwf
  obtain ⟨x, hx⟩ := getIndexIn_of_mem ha
  obtain ⟨y, hy⟩ := getIndexIn_of_mem hb
  obtain ⟨hxlt, -, -⟩ := getIndexIn_some hx
  obtain ⟨hylt, -, -⟩ := getIndexIn_some hy
  obtain ⟨e1, h1, hsq1, hent1⟩ := transpose_spec g hsq (by omega) hn
  have hxy : edgeAt ({ g with edges := e1 } : AdjacencyMatrixGraph V) x y = edgeAt g y x :=
    hent1 x y hxlt hylt
  refine ⟨_, h1, rfl, rfl, ⟨x, y, hx, hy, hxy, ?_⟩, ?_, ?_⟩
  · simp only [slot, hxy]
    rfl
  · intro va vb hva hvb
    simp only [hasEdge, getIndex, hva, hvb, hx, hy, slot, hxy]
    rfl
  · intro i hi
    have hii : edgeAt ({ g with edges := e1 } : AdjacencyMatrixGraph V) i i = edgeAt g i i :=
      hent1 i i hi hi
    refine ⟨hii, ?_⟩
    simp only [slot, hii]
    rfl

/-- C4 (witness): the keys `A` and `C` of the scenario graph. -/
theorem transpose_reverses_witness :
    WellFormed graphScenario ∧ "A" ∈ graphScenario.vertices.map (fun v => v.title) ∧
      "C" ∈ graphScenario.vertices.map (fun v => v.title) ∧
      ∃ g', transpose graphScenario = some g' ∧ g'.vertices = graphScenario.vertices ∧
        g'.heap = graphScenario.heap ∧
        (∃ x y, getIndexIn "A" graphScenario.vertices = some x ∧
          getIndexIn "C" graphScenario.vertices = some y ∧
          edgeAt g' x y = edgeAt graphScenario y x ∧ slot g' x y = slot graphScenario y x) ∧
        (∀ va vb : Vertex String, va.title = "A" → vb.title = "C" →
          hasEdge g' va vb = hasEdge graphScenario vb va) ∧
        (∀ i, i < graphScenario.vertices.length →
          edgeAt g' i i = edgeAt graphScenario i i ∧ slot g' i i = slot graphScenario i i) :=
  ⟨by decide, by decide, by decide,
    transpose_reverses graphScenario "A" "C" (by decide) (by decide) (by decide)⟩

/-! ### From edge pointers to columns -/

theorem edgeAt_eq_getElem (g : AdjacencyMatrixGraph V) (hsq : Square g) {i j : Nat}
    (hi : i < g.vertices.length) (hj : j < g.vertices.length) :
    ∃ (h1 : i < g.edges.length) (h2 : j < (g.edges[i]).length),
      edgeAt g i j = (g.edges[i])[j] :=
  entry_eq_getElem (e := g.edges) hsq hi hj

theorem edgeAt_inj (g : AdjacencyMatrixGraph V) (hwf : WellFormed g) {i j i' j' : Nat}
    (hi : i < g.vertices.length) (hj : j < g.vertices.length)
    (hi' : i' < g.vertices.length) (hj' : j' < g.vertices.length)
    (h : edgeAt g i j = edgeAt g i' j') : i = i' ∧ j = j' := by
  obtain ⟨hsq, -, -, hnd⟩ := hwf
  obtain ⟨h1, h2, e1⟩ := edgeAt_eq_getElem g hsq hi hj
  obtain ⟨h1', h2', e2⟩ := edgeAt_eq_getElem g hsq hi' hj'
  rw [e1, e2] at h
  rw [List.nodup_flatten] at hnd
  by_cases hii : i = i'
  · subst hii
    refine ⟨rfl, ?_⟩
    exact (List.Nodup.getElem_inj_iff (hnd.1 _ (List.getElem_mem h1))).1 h
  · exfalso
    have hdis : List.Disjoint (g.edges[i]) (g.edges[i']) := by
      rcases Nat.lt_or_gt_of_ne hii with hlt | hgt
      · exact (List.pairwise_iff_getElem.1 hnd.2) i i' h1 h1' hlt
      · exact ((List.pairwise_iff_getElem.1 hnd.2) i' i h1' h1 hgt).symm
    exact hdis (List.getElem_mem h2) (h ▸ List.getElem_mem h2')

theorem mem_allPairs {n : Nat} {p : Nat × Nat} : p ∈ allPairs n ↔ p.1 < n ∧ p.2 < n := by
  obtain ⟨a, b⟩ := p
  simp only [allPairs, List.mem_flatMap, List.mem_range, List.mem_map, Prod.mk.injEq]
  constructor
  · rintro ⟨i, hi, j, hj, rfl, rfl⟩
    exact ⟨hi, hj⟩
  · rintro ⟨ha, hb⟩
    exact ⟨a, ha, b, hb, rfl, rfl⟩

theorem nodup_allPairs (n : Nat) : (allPairs n).Nodup := by
  unfold allPairs
  rw [List.nodup_flatMap]
  refine ⟨?_, ?_⟩
  · intro i _
    exact List.Nodup.map (fun a b h => (Prod.mk.inj h).2) (List.nodup_range n)
  · apply List.Pairwise.imp _ (List.nodup_range n)
    intro a b hab
    simp only [Function.onFun]
    intro p hp1 hp2
    simp only [List.mem_map] at hp1 hp2
    obtain ⟨_, _, rfl⟩ := hp1
    obtain ⟨_, _, h⟩ := hp2
    exact hab (Prod.mk.inj h).1.symm

theorem scanPairs_skip (g : AdjacencyMatrixGraph V)
    (rec : Vertex V → List (Vertex V) → List (Vertex V) → Option (DfsResult V))
    (edge : Nat) : ∀ (ps : List (Nat × Nat)) (visited stack : List (Vertex V)),
    (∀ p ∈ ps, edge ≠ edgeAt g p.1 p.2) →
    scanPairs g rec edge ps visited stack =
      some { result := none, visited := visited, stack := stack }
  | [], _, _, _ => rfl
  | (i, j) :: rest, visited, stack, h => by
    rw [scanPairs, if_neg (h (i, j) (List.mem_cons_self _ _))]
    exact scanPairs_skip g rec edge rest visited stack
      (fun p hp => h p (List.mem_cons_of_mem _ hp))

theorem scanPairs_append (g : AdjacencyMatrixGraph V)
    (rec : Vertex V → List (Vertex V) → List (Vertex V) → Option (DfsResult V))
    (edge : Nat) : ∀ (ps qs : List (Nat × Nat)) (visited stack : List (Vertex V)),
    (∀ p ∈ ps, edge ≠ edgeAt g p.1 p.2) →
    scanPairs g rec edge (ps ++ qs) visited stack = scanPairs g rec edge qs visited stack
  | [], _, _, _, _ => rfl
  | (i, j) :: rest, qs, visited, stack, h => by
    rw [List.cons_append, scanPairs, if_neg (h (i, j) (List.mem_cons_self _ _))]
    exact scanPairs_append g rec edge rest qs visited stack
      (fun p hp => h p (List.mem_cons_of_mem _ hp))

theorem scanPairs_hit (g : AdjacencyMatrixGraph V) (hwf : WellFormed g)
    (rec : Vertex V → List (Vertex V) → List (Vertex V) → Option (DfsResult V))
    {i j : Nat} (hi : i < g.vertices.length) (hj : j < g.vertices.length)
    (visited stack : List (Vertex V)) :
    scanPairs g rec (edgeAt g i j) (allPairs g.vertices.length) visited stack =
      visitTarget g rec j visited stack := by
  have hmem : (i, j) ∈ allPairs g.vertices.length := mem_allPairs.2 ⟨hi, hj⟩
  obtain ⟨ps, qs, hsplit⟩ := List.append_of_mem hmem
  have hnd := nodup_allPairs g.vertices.length
  rw [hsplit] at hnd
  have hother : ∀ p ∈ ps ++ qs, edgeAt g i j ≠ edgeAt g p.1 p.2 := by
    intro p hp heq
    have hp' : p ∈ allPairs g.vertices.length := by
      rw [hsplit]
      rcases List.mem_append.1 hp with h | h
      · exact List.mem_append_left _ h
      · exact List.mem_append_right _ (List.mem_cons_of_mem _ h)
    obtain ⟨hp1, hp2⟩ := mem_allPairs.1 hp'
    obtain ⟨e1, e2⟩ := edgeAt_inj g hwf hi hj hp1 hp2 heq
    have hpe : p = (i, j) := by
      obtain ⟨a, b⟩ := p
      simp only at e1 e2
      rw [e1, e2]
    subst hpe
    rw [List.nodup_append] at hnd
    rcases List.mem_append.1 hp with h | h
    · exact hnd.2.2 h (List.mem_cons_self _ _)
    · exact (List.nodup_cons.1 hnd.2.1).1 h
  rw [hsplit, scanPairs_append g rec _ ps _ visited stack
    (fun p hp => hother p (List.mem_append_left _ hp)), scanPairs, if_pos rfl]
  cases hv : visitTarget g rec j visited stack with
  | none => rfl
  | some r =>
    cases hres : r.result with
    | some res => simp [hres]
    | none =>
      simp only [hres]
      rw [scanPairs_skip g rec _ qs _ _ (fun p hp => hother p (List.mem_append_right _ hp))]
      obtain ⟨res, vis, st⟩ := r
      simp only at hres
      subst hres
      rfl

theorem scanEdges_eq_scanTargets (g : AdjacencyMatrixGraph V) (hwf : WellFormed g)
    (rec : Vertex V → List (Vertex V) → List (Vertex V) → Option (DfsResult V))
    {i : Nat} (hi : i < g.vertices.length) :
    ∀ (js : List Nat) (visited stack : List (Vertex V)), (∀ j ∈ js, j < g.vertices.length) →
    scanEdges g rec (js.map (edgeAt g i)) visited stack = scanTargets g rec js visited stack
  | [], _, _, _ => rfl
  | j :: rest, visited, stack, h => by
    rw [List.map_cons, scanEdges, scanTargets,
      scanPairs_hit g hwf rec hi (h j (List.mem_cons_self _ _))]
    cases hv : visitTarget g rec j visited stack with
    | none => rfl
    | some r =>
      cases hres : r.result with
      | some res => simp only [hres]
      | none =>
        simp only [hres]
        exact scanEdges_eq_scanTargets g hwf rec hi rest _ _
          (fun j hj => h j (List.mem_cons_of_mem _ hj))

theorem row_eq_map (g : AdjacencyMatrixGraph V) (hsq : Square g) {i : Nat}
    (hi : i < g.vertices.length) :
    g.edges.getD i [] = (List.range g.vertices.length).map (edgeAt g i) := by
  have h1 : i < g.edges.length := by rw [hsq.1]; exact hi
  have hlen : (g.edges[i]).length = g.vertices.length := hsq.2 _ (List.getElem_mem _)
  simp only [List.getD_eq_getElem?_getD, List.getElem?_eq_getElem h1, Option.getD_some]
  apply List.ext_getElem (by simp [hlen])
  intro j h2 h3
  have hj : j < g.vertices.length := by rw [← hlen]; exact h2
  obtain ⟨_, _, e⟩ := edgeAt_eq_getElem g hsq hi hj
  simp [e]

theorem edgesFrom_eq (g : AdjacencyMatrixGraph V) (hsq : Square g) (v : Vertex V) {i : Nat}
    (hidx : getIndex g v = some i) :
    edgesFrom g v = some ((targets g i).map (edgeAt g i)) := by
  have hi : i < g.vertices.length := (getIndexIn_some hidx).1
  simp only [edgesFrom, hidx, row_eq_map g hsq hi, targets, List.filter_map]
  rfl

/-! ### Vertices and titles under unique keys -/

theorem title_inj (g : AdjacencyMatrixGraph V) (huk : UniqueKeys g) {v w : Vertex V}
    (hv : v ∈ g.vertices) (hw : w ∈ g.vertices) (h : v.title = w.title) : v = w :=
  List.inj_on_of_nodup_map huk hv hw h

theorem seen_iff_mem (g : AdjacencyMatrixGraph V) (huk : UniqueKeys g) {w : Vertex V}
    (hw : w ∈ g.vertices) (l : List (Vertex V)) (hl : ∀ v ∈ l, v ∈ g.vertices) :
    l.any (fun vertex => decide (w.title = vertex.title)) = true ↔ w ∈ l := by
  rw [List.any_eq_true]
  constructor
  · rintro ⟨v, hv, hd⟩
    have : w = v := title_inj g huk hw (hl v hv) (of_decide_eq_true hd)
    exact this ▸ hv
  · intro h
    exact ⟨w, h, decide_eq_true rfl⟩

theorem getIndex_getElem (g : AdjacencyMatrixGraph V) (huk : UniqueKeys g) {j : Nat}
    {w : Vertex V} (h : g.vertices[j]? = some w) : getIndex g w = some j := by
  obtain ⟨hj, rfl⟩ := List.getElem?_eq_some_iff.1 h
  exact getIndexIn_unique huk hj rfl

theorem getIndex_of_mem (g : AdjacencyMatrixGraph V) (huk : UniqueKeys g) {w : Vertex V}
    (hw : w ∈ g.vertices) : ∃ j, g.vertices[j]? = some w ∧ getIndex g w = some j := by
  obtain ⟨j, hj, rfl⟩ := List.getElem_of_mem hw
  have h : g.vertices[j]? = some (g.vertices[j]) := List.getElem?_eq_getElem hj
  exact ⟨j, h, getIndex_getElem g huk h⟩

theorem mem_targets (g : AdjacencyMatrixGraph V) (huk : UniqueKeys g) {i j : Nat}
    {u w : Vertex V} (hu : g.vertices[i]? = some u) (hw : g.vertices[j]? = some w) :
    j ∈ targets g i ↔ EdgeRel g u w := by
  have hi := getIndex_getElem g huk hu
  have hj := getIndex_getElem g huk hw
  obtain ⟨hjn, -⟩ := List.getElem?_eq_some_iff.1 hw
  simp only [targets, List.mem_filter, List.mem_range, EdgeRel, hasEdge, hi, hj]
  constructor
  · rintro ⟨-, h⟩
    refine ⟨List.mem_iff_getElem?.2 ⟨_, hu⟩, List.mem_iff_getElem?.2 ⟨_, hw⟩, ?_⟩
    simpa using h
  · rintro ⟨-, -, h⟩
    exact ⟨hjn, by simpa using h⟩

/-! ### The measure of `cycleDFS` -/

theorem filter_length_le {α : Type} (p q : α → Bool) : ∀ (l : List α),
    (∀ x ∈ l, q x = true → p x = true) → (l.filter q).length ≤ (l.filter p).length
  | [], _ => Nat.le_refl _
  | x :: l, h => by
    have ih := filter_length_le p q l (fun y hy => h y (List.mem_cons_of_mem _ hy))
    have hx := h x (List.mem_cons_self _ _)
    simp only [List.filter_cons]
    cases hq : q x with
    | false =>
      cases hp : p x with
      | false => simpa using ih
      | true => simp only [if_true, List.length_cons]; simp; omega
    | true =>
      rw [hx hq]
      simpa using ih

theorem filter_length_lt {α : Type} (p q : α → Bool) : ∀ (l : List α),
    (∀ x ∈ l, q x = true → p x = true) → (∃ x ∈ l, p x = true ∧ q x = false) →
    (l.filter q).length < (l.filter p).length
  | [], _, ⟨_, hx, _⟩ => by simp at hx
  | x :: l, h, ⟨y, hy, hpy, hqy⟩ => by
    have hle := filter_length_le p q l (fun z hz => h z (List.mem_cons_of_mem _ hz))
    have hx := h x (List.mem_cons_self _ _)
    simp only [List.filter_cons]
    rcases List.mem_cons.1 hy with rfl | hyl
    · rw [hpy, hqy]
      simp only [if_true, List.length_cons]
      simp
      omega
    · have ih := filter_length_lt p q l (fun z hz => h z (List.mem_cons_of_mem _ hz))
        ⟨y, hyl, hpy, hqy⟩
      cases hq : q x with
      | false =>
        cases hp : p x with
        | false => simpa using ih
        | true => simp only [if_true, List.length_cons]; simp; omega
      | true =>
        rw [hx hq]
        simpa using ih

theorem unvisited_mono (g : AdjacencyMatrixGraph V) {vis vis' : List (Vertex V)}
    (h : ∀ v ∈ vis, v ∈ vis') : unvisited g vis' ≤ unvisited g vis := by
  apply filter_length_le
  intro x _ hx
  simp only [decide_eq_true_eq] at hx ⊢
  exact fun hmem => hx (h x hmem)

theorem unvisited_push (g : AdjacencyMatrixGraph V) {vis : List (Vertex V)} {frm : Vertex V}
    (hmem : frm ∈ g.vertices) (hnew : frm ∉ vis) :
    unvisited g (vis ++ [frm]) < unvisited g vis := by
  apply filter_length_lt
  · intro x _ hx
    simp only [decide_eq_true_eq, List.mem_append, List.mem_singleton, not_or] at hx ⊢
    exact hx.1
  · exact ⟨frm, hmem, by simpa using hnew, by simp⟩

/-! ### The depth-first search -/

theorem scanTargets_spec (g : AdjacencyMatrixGraph V) (huk : UniqueKeys g) (fuel : Nat)
    (rec : Vertex V → List (Vertex V) → List (Vertex V) → Option (DfsResult V))
    (hrec : ∀ frm visited stack, DfsPre g frm visited stack → unvisited g visited ≤ fuel →
      ∃ r, rec frm visited stack = some r ∧ DfsPost g frm visited stack r)
    (frm : Vertex V) (stack : List (Vertex V)) (hlast : stack.getLast? = some frm)
    (hchain : List.Chain' (EdgeRel g) stack) :
    ∀ (js : List Nat) (vis : List (Vertex V)),
    (∀ j ∈ js, ∃ w, g.vertices[j]? = some w ∧ EdgeRel g frm w) →
    (∀ v ∈ vis, v ∈ g.vertices) → (∀ v ∈ stack, v ∈ vis) → unvisited g vis ≤ fuel →
    ∃ r, scanTargets g rec js vis stack = some r ∧ LoopPost g js vis stack r
  | [], vis, _, hvis, hstack, _ => by
    refine ⟨_, rfl, ⟨fun v hv => hv, hvis, ?_, ?_⟩⟩
    · intro _
      refine ⟨rfl, ?_, ?_⟩
      · intro j hj
        simp at hj
      · intro u hu hnu
        exact absurd hu hnu
    · intro res hres
      simp at hres
  | j :: rest, vis, hjs, hvis, hstack, hfuel => by
    obtain ⟨w, hw, hedge⟩ := hjs j (List.mem_cons_self _ _)
    have hwmem : w ∈ g.vertices := hedge.2.1
    have hjs' : ∀ j ∈ rest, ∃ w, g.vertices[j]? = some w ∧ EdgeRel g frm w :=
      fun j hj => hjs j (List.mem_cons_of_mem _ hj)
    have hstackG : ∀ v ∈ stack, v ∈ g.vertices := fun v hv => hvis v (hstack v hv)
    rw [scanTargets, visitTarget]
    simp only [hw]
    by_cases hseen : w ∈ vis
    · have h1 : vis.any (fun vertex => decide (w.title = vertex.title)) = true :=
        (seen_iff_mem g huk hwmem vis hvis).2 hseen
      simp only [h1, Bool.not_true, Bool.false_eq_true, if_false]
      by_cases hon : w ∈ stack
      · have h2 : stack.any (fun vertex => decide (w.title = vertex.title)) = true :=
          (seen_iff_mem g huk hwmem stack hstackG).2 hon
        simp only [h2, if_true]
        refine ⟨_, rfl, ⟨fun v hv => hv, hvis, ?_, ?_⟩⟩
        · intro h
          simp at h
        · intro res hres
          simp only [Option.some.injEq] at hres
          subst hres
          exact ⟨hon, hchain, hstack, frm, hlast, hedge⟩
      · have h2 : stack.any (fun vertex => decide (w.title = vertex.title)) = false := by
          rw [← Bool.not_eq_true, seen_iff_mem g huk hwmem stack hstackG]
          exact hon
        simp only [h2, Bool.false_eq_true, if_false]
        obtain ⟨r, hr, hpost⟩ := scanTargets_spec g huk fuel rec hrec frm stack hlast hchain
          rest vis hjs' hvis hstack hfuel
        refine ⟨r, hr, ⟨hpost.mono, hpost.visited_sub, ?_, hpost.found⟩⟩
        intro hnull
        obtain ⟨hst, hdone, hclosed⟩ := hpost.null hnull
        refine ⟨hst, ?_, hclosed⟩
        intro j' hj' w' hw'
        rcases List.mem_cons.1 hj' with rfl | hj'
        · rw [hw] at hw'
          simp only [Option.some.injEq] at hw'
          subst hw'
          exact ⟨hpost.mono _ hseen, hon⟩
        · exact hdone j' hj' w' hw'
    · have h1 : vis.any (fun vertex => decide (w.title = vertex.title)) = false := by
        rw [← Bool.not_eq_true, seen_iff_mem g huk hwmem vis hvis]
        exact hseen
      simp only [h1, Bool.not_false, if_true]
      have hpre : DfsPre g w vis stack := by
        refine ⟨hwmem, hseen, hvis, hstack, ?_⟩
        rw [List.chain'_append]
        refine ⟨hchain, List.chain'_singleton _, ?_⟩
        intro x hx y hy
        rw [hlast] at hx
        simp only [Option.mem_def, Option.some.injEq, List.head?_cons] at hx hy
        subst hx
        subst hy
        exact hedge
      obtain ⟨r1, hr1, hpost1⟩ := hrec w vis stack hpre hfuel
      simp only [hr1]
      cases hres1 : r1.result with
      | some res =>
        simp only [hres1]
        refine ⟨r1, rfl, ⟨fun v hv => hpost1.mono v (Or.inl hv), hpost1.visited_sub, ?_,
          hpost1.found⟩⟩
        intro h
        rw [hres1] at h
        simp at h
      | none =>
        simp only [hres1]
        obtain ⟨hst1, hclosed1⟩ := hpost1.null hres1
        have hvis1 : ∀ v ∈ vis, v ∈ r1.visited := fun v hv => hpost1.mono v (Or.inl hv)
        obtain ⟨r, hr, hpost⟩ := scanTargets_spec g huk fuel rec hrec frm stack hlast hchain
          rest r1.visited hjs' hpost1.visited_sub (fun v hv => hvis1 v (hstack v hv))
          (Nat.le_trans (unvisited_mono g hvis1) hfuel)
        rw [hst1]
        refine ⟨r, hr, ⟨fun v hv => hpost.mono v (hvis1 v hv), hpost.visited_sub, ?_,
          hpost.found⟩⟩
        intro hnull
        obtain ⟨hst, hdone, hclosed⟩ := hpost.null hnull
        refine ⟨hst, ?_, ?_⟩
        · intro j' hj' w' hw'
          rcases List.mem_cons.1 hj' with rfl | hj'
          · rw [hw] at hw'
            simp only [Option.some.injEq] at hw'
            subst hw'
            exact ⟨hpost.mono _ (hpost1.mono _ (Or.inr rfl)), fun h => hseen (hstack _ h)⟩
          · exact hdone j' hj' w' hw'
        · intro u hu hnu w' hw'
          by_cases hu1 : u ∈ r1.visited
          · obtain ⟨h1, h2, -⟩ := hclosed1 u hu1 hnu w' hw'
            exact ⟨hpost.mono _ h1, h2⟩
          · exact hclosed u hu hu1 w' hw'

theorem cycleDFS_spec (g : AdjacencyMatrixGraph V) (hwf : WellFormed g) (huk : UniqueKeys g) :
    ∀ (fuel : Nat) (frm : Vertex V) (visited stack : List (Vertex V)),
    DfsPre g frm visited stack → unvisited g visited ≤ fuel →
    ∃ r, cycleDFS g fuel frm visited stack = some r ∧ DfsPost g frm visited stack r
  | 0, frm, visited, stack, hpre, hfuel => by
    exfalso
    have hpos : 0 < unvisited g visited := by
      apply List.length_pos_of_mem (a := frm)
      exact List.mem_filter.2 ⟨hpre.frm_mem, by simpa using hpre.frm_new⟩
    omega
  | fuel + 1, frm, visited, stack, hpre, hfuel => by
    obtain ⟨i, hi, hidx⟩ := getIndex_of_mem g huk hpre.frm_mem
    have hilt : i < g.vertices.length := (List.getElem?_eq_some_iff.1 hi).1
    have hvis1 : ∀ v ∈ visited ++ [frm], v ∈ g.vertices := by
      intro v hv
      rcases List.mem_append.1 hv with h | h
      · exact hpre.visited_sub v h
      · rw [List.mem_singleton.1 h]
        exact hpre.frm_mem
    have hstack1 : ∀ v ∈ stack ++ [frm], v ∈ visited ++ [frm] := by
      intro v hv
      rcases List.mem_append.1 hv with h | h
      · exact List.mem_append_left _ (hpre.stack_sub v h)
      · exact List.mem_append_right _ h
    have hjs : ∀ j ∈ targets g i, ∃ w, g.vertices[j]? = some w ∧ EdgeRel g frm w := by
      intro j hj
      have hjlt : j < g.vertices.length := by
        simpa using (List.mem_filter.1 hj).1
      exact ⟨_, List.getElem?_eq_getElem hjlt,
        (mem_targets g huk hi (List.getElem?_eq_getElem hjlt)).1 hj⟩
    obtain ⟨r, hr, hpost⟩ := scanTargets_spec g huk fuel (cycleDFS g fuel)
      (cycleDFS_spec g hwf huk fuel) frm (stack ++ [frm]) (by simp) hpre.chain
      (targets g i) (visited ++ [frm]) hjs hvis1 hstack1
      (by have := unvisited_push g hpre.frm_mem hpre.frm_new; omega)
    rw [cycleDFS, edgesFrom_eq g hwf.1 frm hidx]
    simp only
    rw [scanEdges_eq_scanTargets g hwf _ hilt _ _ _
      (fun j hj => by simpa using (List.mem_filter.1 hj).1), hr]
    simp only
    have hmono : ∀ v, v ∈ visited ∨ v = frm → v ∈ r.visited := by
      intro v hv
      apply hpost.mono
      rcases hv with h | h
      · exact List.mem_append_left _ h
      · exact List.mem_append_right _ (List.mem_singleton.2 h)
    cases hres : r.result with
    | some res =>
      simp only [hres]
      refine ⟨r, rfl, ⟨hmono, hpost.visited_sub, ?_, hpost.found⟩⟩
      intro h
      rw [hres] at h
      simp at h
    | none =>
      simp only [hres]
      obtain ⟨hst, hdone, hclosed⟩ := hpost.null hres
      refine ⟨_, rfl, ⟨hmono, hpost.visited_sub, ?_, ?_⟩⟩
      · intro _
        refine ⟨by simp [hst], ?_⟩
        intro u hu hnu w hw
        have hsplit : ∀ x, x ∉ stack ++ [frm] → x ∉ stack ∧ x ≠ frm := by
          intro x hx
          simp only [List.mem_append, List.mem_singleton, not_or] at hx
          exact hx
        by_cases huf : u = frm
        · subst huf
          obtain ⟨j, hj, -⟩ := getIndex_of_mem g huk hw.2.1
          have hjt : j ∈ targets g i := (mem_targets g huk hi hj).2 hw
          obtain ⟨h1, h2⟩ := hdone j hjt w hj
          exact ⟨h1, hsplit w h2⟩
        · have hnu1 : u ∉ visited ++ [frm] := by
            simp only [List.mem_append, List.mem_singleton, not_or]
            exact ⟨hnu, huf⟩
          obtain ⟨h1, h2⟩ := hclosed u hu hnu1 w hw
          exact ⟨h1, hsplit w h2⟩
      · intro res h
        simp at h

/-! ### The driver `isAcyclic` -/

theorem trimStack_of_mem (res : Vertex V) : ∀ (st : List (Vertex V)), res ∈ st →
    ∃ pre suf, st = pre ++ res :: suf ∧ trimStack res st = some (res :: suf)
  | [], h => by simp at h
  | front :: rest, h => by
    by_cases hf : front = res
    · subst hf
      exact ⟨[], rest, rfl, by simp [trimStack]⟩
    · have hr : res ∈ rest := by
        rcases List.mem_cons.1 h with h | h
        · exact absurd h.symm hf
        · exact h
      obtain ⟨pre, suf, hsplit, htrim⟩ := trimStack_of_mem res rest hr
      exact ⟨front :: pre, suf, by rw [hsplit]; rfl, by simp [trimStack, hf, htrim]⟩

theorem isCycle_of_chain (g : AdjacencyMatrixGraph V) (cyc : List (Vertex V)) (x res : Vertex V)
    (hhead : cyc.head? = some res) (hlast : cyc.getLast? = some x)
    (hchain : List.Chain' (EdgeRel g) cyc) (hclose : EdgeRel g x res)
    (hmem : ∀ v ∈ cyc, v ∈ g.vertices) : IsCycle g cyc := by
  have hne : cyc ≠ [] := by
    intro h
    rw [h] at hhead
    simp at hhead
  refine ⟨hne, hmem, ?_⟩
  intro i hi
  by_cases hnext : i + 1 < cyc.length
  · have hmod : (i + 1) % cyc.length = i + 1 := Nat.mod_eq_of_lt hnext
    have h := (List.chain'_iff_get.1 hchain) i (by omega)
    simp only [hmod]
    exact h.2.2
  · have hi1 : i + 1 = cyc.length := by omega
    have hmod : (i + 1) % cyc.length = 0 := by rw [hi1]; exact Nat.mod_self _
    simp only [hmod]
    have hx : cyc.get ⟨i, hi⟩ = x := by
      rw [List.getLast?_eq_getElem?] at hlast
      have : cyc.length - 1 = i := by omega
      rw [this, List.getElem?_eq_getElem hi] at hlast
      simpa using hlast
    have hr : cyc.get ⟨0, by omega⟩ = res := by
      cases cyc with
      | nil => exact absurd rfl hne
      | cons a l => simpa using hhead
    rw [hx, hr]
    exact hclose.2.2

theorem isCycle_edge (g : AdjacencyMatrixGraph V) (cyc : List (Vertex V)) (hc : IsCycle g cyc)
    (i j : Nat) (hi : i < cyc.length) (hj : j = (i + 1) % cyc.length) (u w : Vertex V)
    (hu : cyc[i]? = some u) (hw : cyc[j]? = some w) : EdgeRel g u w := by
  obtain ⟨hne, hmem, hedge⟩ := hc
  have h := hedge i hi
  subst hj
  have hjlt : (i + 1) % cyc.length < cyc.length := Nat.mod_lt _ (by omega)
  rw [List.getElem?_eq_getElem hi] at hu
  rw [List.getElem?_eq_getElem hjlt] at hw
  simp only [Option.some.injEq] at hu hw
  simp only [List.get_eq_getElem, hu, hw] at h
  exact ⟨hmem u (hu ▸ List.getElem_mem _), hmem w (hw ▸ List.getElem_mem _), h⟩

theorem root_not_on_cycle (g : AdjacencyMatrixGraph V) (root : Vertex V)
    (visited : List (Vertex V)) (hroot : root ∈ visited)
    (hclosed : ∀ u ∈ visited, ∀ w, EdgeRel g u w → w ∈ visited ∧ w ≠ root)
    (cyc : List (Vertex V)) (hc : IsCycle g cyc) : root ∉ cyc := by
  intro hmem
  obtain ⟨k, hk, hkroot⟩ := List.getElem_of_mem hmem
  have hlen : 0 < cyc.length := by omega
  have step : ∀ i, i + 1 < cyc.length → (∀ u, cyc[i]? = some u → u ∈ visited) →
      ∀ w, cyc[i + 1]? = some w → w ∈ visited := by
    intro i hi hu w hw
    have hui : cyc[i]? = some (cyc[i]) := List.getElem?_eq_getElem (by omega)
    have he := isCycle_edge g cyc hc i (i + 1) (by omega) (Nat.mod_eq_of_lt hi).symm _ w hui hw
    exact (hclosed _ (hu _ hui) w he).1
  have upward : ∀ a, (∀ u, cyc[a]? = some u → u ∈ visited) →
      ∀ d i, i = a + d → i < cyc.length → ∀ u, cyc[i]? = some u → u ∈ visited := by
    intro a ha d
    induction d with
    | zero =>
      intro i hi _ u hu
      rw [hi] at hu
      exact ha u hu
    | succ d ih =>
      intro i hi hlt u hu
      have := ih (a + d) rfl (by omega)
      rw [hi] at hu
      exact step (a + d) (by omega) this u hu
  have hk0 : ∀ u, cyc[k]? = some u → u ∈ visited := by
    intro u hu
    rw [List.getElem?_eq_getElem hk, hkroot] at hu
    simp only [Option.some.injEq] at hu
    exact hu ▸ hroot
  have hlastv : ∀ u, cyc[cyc.length - 1]? = some u → u ∈ visited :=
    upward k hk0 (cyc.length - 1 - k) (cyc.length - 1) (by omega) (by omega)
  have h0 : ∀ u, cyc[0]? = some u → u ∈ visited := by
    intro u hu
    have hul : cyc[cyc.length - 1]? = some (cyc[cyc.length - 1]) :=
      List.getElem?_eq_getElem (by omega)
    have he := isCycle_edge g cyc hc (cyc.length - 1) 0 (by omega)
      (by rw [Nat.sub_add_cancel hlen, Nat.mod_self]) _ u hul hu
    exact (hclosed _ (hlastv _ hul) u he).1
  have hall : ∀ i, i < cyc.length → ∀ u, cyc[i]? = some u → u ∈ visited :=
    fun i hi => upward 0 h0 i i (by omega) hi
  obtain ⟨p, hp, hpk⟩ : ∃ p, p < cyc.length ∧ k = (p + 1) % cyc.length := by
    by_cases hk0 : k = 0
    · exact ⟨cyc.length - 1, by omega, by rw [Nat.sub_add_cancel hlen, Nat.mod_self, hk0]⟩
    · exact ⟨k - 1, by omega, by rw [Nat.sub_add_cancel (by omega), Nat.mod_eq_of_lt hk]⟩
  have hup : cyc[p]? = some (cyc[p]) := List.getElem?_eq_getElem hp
  have huk : cyc[k]? = some root := by rw [List.getElem?_eq_getElem hk, hkroot]
  have he := isCycle_edge g cyc hc p k hp hpk _ root hup huk
  exact (hclosed _ (hall p hp _ hup) root he).2 rfl

theorem isAcyclicFrom_spec (g : AdjacencyMatrixGraph V) (hwf : WellFormed g)
    (huk : UniqueKeys g) : ∀ (roots : List (Vertex V)), (∀ v ∈ roots, v ∈ g.vertices) →
    ∃ res, isAcyclicFrom g roots = some res ∧ (res.1 = false → IsCycle g res.2) ∧
      (res.1 = true → ∀ root ∈ roots, ∀ cyc, IsCycle g cyc → root ∉ cyc)
  | [], _ => by
    refine ⟨(true, []), rfl, ?_, ?_⟩
    · intro h
      simp at h
    · intro _ root hroot
      simp at hroot
  | vertex :: rest, hroots => by
    have hv : vertex ∈ g.vertices := hroots vertex (List.mem_cons_self _ _)
    have hpre : DfsPre g vertex [] [] :=
      ⟨hv, by simp, by simp, by simp, by simp⟩
    have hfuel : unvisited g [] ≤ g.vertices.length := by
      unfold unvisited
      exact List.length_filter_le _ _
    obtain ⟨r, hr, hpost⟩ := cycleDFS_spec g hwf huk g.vertices.length vertex [] [] hpre hfuel
    rw [isAcyclicFrom, hr]
    cases hres : r.result with
    | some result =>
      simp only [hres]
      obtain ⟨hon, hchain, hsub, x, hlast, hedge⟩ := hpost.found result hres
      obtain ⟨pre, suf, hsplit, htrim⟩ := trimStack_of_mem result r.stack hon
      rw [htrim]
      refine ⟨(false, result :: suf), rfl, ?_, ?_⟩
      · intro _
        apply isCycle_of_chain g (result :: suf) x result rfl
        · rw [hsplit, List.getLast?_append_of_ne_nil _ (by simp)] at hlast
          exact hlast
        · exact hchain.suffix ⟨pre, hsplit.symm⟩
        · exact hedge
        · intro v hvm
          apply hpost.visited_sub
          apply hsub
          rw [hsplit]
          exact List.mem_append_right _ hvm
      · intro h
        simp at h
    | none =>
      simp only [hres]
      obtain ⟨res, hrest, hfalse, htrue⟩ := isAcyclicFrom_spec g hwf huk rest
        (fun v hvm => hroots v (List.mem_cons_of_mem _ hvm))
      refine ⟨res, hrest, hfalse, ?_⟩
      intro ht root hroot cyc hc
      rcases List.mem_cons.1 hroot with rfl | hroot
      · obtain ⟨-, hclosed⟩ := hpost.null hres
        apply root_not_on_cycle g root r.visited (hpost.mono root (Or.inr rfl)) _ cyc hc
        intro u hu w hw
        obtain ⟨h1, -, h3⟩ := hclosed u hu (by simp) w hw
        exact ⟨h1, h3⟩
      · exact htrue ht root hroot cyc hc

/-- C6: on a well-formed graph with unique keys, when `isAcyclic` returns
false the `stack` it leaves is a non-empty list `[v0, ..., vn-1]` of vertices
of the graph with a present edge from each `vi` to `v((i+1) mod n)`. -/
theorem isAcyclic_witness_cycle (g : AdjacencyMatrixGraph V) (hwf : WellFormed g)
    (huk : UniqueKeys g) (stack : List (Vertex V))
    (h : isAcyclic g = some (false, stack)) : IsCycle g stack := by
  obtain ⟨res, hres, hfalse, -⟩ := isAcyclicFrom_spec g hwf huk g.vertices (fun _ hv => hv)
  unfold isAcyclic at h
  rw [h] at hres
  have hr : res = (false, stack) := (Option.some.inj hres).symm
  subst hr
  exact hfalse rfl

/-- C6 (witness): on the 3-cycle `A -> B -> C -> A` the call returns false and
leaves the three vertices in the order `A, B, C`. -/
theorem isAcyclic_witness_cycle_witness :
    WellFormed graphCycle ∧ UniqueKeys graphCycle ∧
      isAcyclic graphCycle = some (false, graphCycle.vertices) ∧
      IsCycle graphCycle graphCycle.vertices :=
  ⟨by decide, by decide, by decide,
    isAcyclic_witness_cycle graphCycle (by decide) (by decide) graphCycle.vertices (by decide)⟩

/-- C7: on a well-formed graph with unique keys `isAcyclic` returns, and it
returns true exactly when the graph has no directed cycle of present edges
(a self-loop is a cycle of length 1). -/
theorem isAcyclic_iff_no_cycle (g : AdjacencyMatrixGraph V) (hwf : WellFormed g)
    (huk : UniqueKeys g) :
    ∃ res, isAcyclic g = some res ∧ (res.1 = true ↔ ¬ HasCycle g) := by
  obtain ⟨res, hres, hfalse, htrue⟩ :=
    isAcyclicFrom_spec g hwf huk g.vertices (fun _ hv => hv)
  refine ⟨res, hres, ?_, ?_⟩
  · rintro ht ⟨cyc, hc⟩
    obtain ⟨v, hv⟩ := List.exists_mem_of_ne_nil cyc hc.1
    exact htrue ht v (hc.2.1 v hv) cyc hc hv
  · intro hno
    cases hb : res.1 with
    | true => rfl
    | false => exact absurd ⟨res.2, hfalse hb⟩ hno

/-- C7 (witness): the path `A -> B -> C` is reported acyclic and has no cycle;
the 3-cycle `A -> B -> C -> A` is reported cyclic and has one. -/
theorem isAcyclic_iff_no_cycle_witness :
    (WellFormed graphPath ∧ UniqueKeys graphPath ∧
      isAcyclic graphPath = some (true, []) ∧ ¬ HasCycle graphPath) ∧
    (WellFormed graphCycle ∧ UniqueKeys graphCycle ∧
      isAcyclic graphCycle = some (false, graphCycle.vertices) ∧ HasCycle graphCycle) := by
  have hpath : isAcyclic graphPath = some (true, []) := by decide
  have hcycle : isAcyclic graphCycle = some (false, graphCycle.vertices) := by decide
  refine ⟨⟨by decide, by decide, hpath, ?_⟩, ⟨by decide, by decide, hcycle, ?_⟩⟩
  · obtain ⟨res, hres, hiff⟩ := isAcyclic_iff_no_cycle graphPath (by decide) (by decide)
    rw [hpath] at hres
    have hr : res = (true, []) := (Option.some.inj hres).symm
    subst hr
    exact hiff.1 rfl
  · obtain ⟨res, hres, hiff⟩ := isAcyclic_iff_no_cycle graphCycle (by decide) (by decide)
    rw [hcycle] at hres
    have hr : res = (false, graphCycle.vertices) := (Option.some.inj hres).symm
    subst hr
    by_contra hno
    have := hiff.2 hno
    simp at this

/-! ### The sentinel and weights above 1000 -/

theorem pathWeight_nonneg (g : AdjacencyMatrixGraph V) (W : Int) (hnn : NonNegWeights g) :
    ∀ (p : List Nat), List.Chain' (Allowed g W) p → 0 ≤ pathWeight g p
  | [], _ => Int.le_refl _
  | [_], _ => Int.le_refl _
  | u :: v :: rest, h => by
    rw [List.chain'_cons] at h
    have h1 := hnn u h.1.1 v h.1.2.1 h.1.2.2.1
    have h2 := pathWeight_nonneg g W hnn (v :: rest) h.2
    simp only [pathWeight]
    omega

/-- C8 (counterexample): `graphFar` is well-formed, its weights 1, 2000, 1 are
at least 0 and sum to 2002, below the sentinel; `dijkstra(0, 1, 3)` reports
the weight -2147482649, which is not the least weight of a path from 0 to 1:
no path has that weight, and the path `0 -> 1` has weight 1. -/
theorem dijkstra_weight_overflow :
    WellFormed graphFar ∧ NonNegWeights graphFar ∧ totalWeight graphFar < MAX ∧
      dijkstra graphFar 0 1 3 = some (DijkstraOutput.report 3 (-2147482649) 5 [0, 2, 1]) ∧
      IsPath graphFar 3 [0, 1] 0 1 ∧ pathWeight graphFar [0, 1] = 1 ∧
      ¬ IsMinWeight graphFar 3 0 1 (-2147482649) := by
  refine ⟨by decide, by decide, by decide, by decide,
    ⟨rfl, rfl, by decide, List.chain'_pair.2 (by decide)⟩, by decide, ?_⟩
  rintro ⟨⟨p, hp, hw⟩, -⟩
  have := pathWeight_nonneg graphFar 3 (by decide) p hp.2.2.2
  omega

/-- C9 (counterexample): on `graphFar`, `dijkstra(0, 1, 3)` reports the
sequence `0, 2, 1` with total weight -2147482649; the edge `0 -> 2` has
bandwidth 1, below the threshold 3, so the sequence is not joined by allowed
edges, and the weights along the sequence sum to 2001. -/
theorem dijkstra_path_overflow :
    WellFormed graphFar ∧ NonNegWeights graphFar ∧ totalWeight graphFar < MAX ∧
      dijkstra graphFar 0 1 3 = some (DijkstraOutput.report 3 (-2147482649) 5 [0, 2, 1]) ∧
      ¬ List.Chain' (Allowed graphFar 3) [0, 2, 1] ∧ (slot graphFar 0 2).bandwidth = 1 ∧
      pathWeight graphFar [0, 2, 1] ≠ -2147482649 := by
  refine ⟨by decide, by decide, by decide, by decide, ?_, by decide, by decide⟩
  intro h
  rw [List.chain'_cons] at h
  exact absurd h.1 (by decide)

/-- C10 (counterexample): on `graphFar`, whose bandwidths 5, 5, 1 are below the
sentinel, `dijkstra(0, 1, 3)` reports the bandwidth 5 for the sequence
`0, 2, 1`, whose edges have the bandwidths 1 and 5: 5 is not their minimum. -/
theorem dijkstra_bandwidth_overflow :
    WellFormed graphFar ∧ NonNegWeights graphFar ∧ totalWeight graphFar < MAX ∧
      BandwidthsBelow graphFar MAX ∧
      dijkstra graphFar 0 1 3 = some (DijkstraOutput.report 3 (-2147482649) 5 [0, 2, 1]) ∧
      pathBandwidths graphFar [0, 2, 1] = [1, 5] ∧
      ¬ ∀ x ∈ pathBandwidths graphFar [0, 2, 1], (5 : Int) ≤ x := by
  refine ⟨by decide, by decide, by decide, by decide, by decide, by decide, ?_⟩
  intro h
  have := h 1 (by decide)
  omega

/-! ### Vectors and paths -/

theorem getD_set {α : Type} (l : List α) (i j : Nat) (a d : α) :
    (l.set i a).getD j d = if i = j ∧ i < l.length then a else l.getD j d := by
  simp only [List.getD_eq_getElem?_getD, List.getElem?_set]
  by_cases hij : i = j
  · subst hij
    by_cases hi : i < l.length
    · simp [hi]
    · simp [hi, List.getElem?_eq_none (Nat.le_of_not_lt hi)]
  · simp [hij]

theorem wrapInt_id (x : Int) (h1 : -2147483648 ≤ x) (h2 : x ≤ 2147483647) :
    wrapInt x = x := by
  unfold wrapInt
  omega

theorem pathWeight_snoc (g : AdjacencyMatrixGraph V) : ∀ (p : List Nat) (c i : Nat),
    p.getLast? = some c →
    pathWeight g (p ++ [i]) = pathWeight g p + (slot g c i).weight
  | [], _, _, h => by simp at h
  | [a], c, i, h => by
    simp only [List.getLast?_singleton, Option.some.injEq] at h
    subst h
    simp [pathWeight]
  | a :: b :: rest, c, i, h => by
    have h' : (b :: rest).getLast? = some c := by
      rw [List.getLast?_cons_cons] at h
      exact h
    have ih : pathWeight g (b :: (rest ++ [i])) =
        pathWeight g (b :: rest) + (slot g c i).weight := pathWeight_snoc g (b :: rest) c i h'
    show (slot g a b).weight + pathWeight g (b :: (rest ++ [i])) =
      (slot g a b).weight + pathWeight g (b :: rest) + (slot g c i).weight
    rw [ih]
    omega

theorem pathBandwidths_snoc (g : AdjacencyMatrixGraph V) : ∀ (p : List Nat) (c i : Nat),
    p.getLast? = some c →
    pathBandwidths g (p ++ [i]) = pathBandwidths g p ++ [(slot g c i).bandwidth]
  | [], _, _, h => by simp at h
  | [a], c, i, h => by
    simp only [List.getLast?_singleton, Option.some.injEq] at h
    subst h
    simp [pathBandwidths]
  | a :: b :: rest, c, i, h => by
    have h' : (b :: rest).getLast? = some c := by
      rw [List.getLast?_cons_cons] at h
      exact h
    have ih : pathBandwidths g (b :: (rest ++ [i])) =
        pathBandwidths g (b :: rest) ++ [(slot g c i).bandwidth] :=
      pathBandwidths_snoc g (b :: rest) c i h'
    show (slot g a b).bandwidth :: pathBandwidths g (b :: (rest ++ [i])) =
      (slot g a b).bandwidth :: pathBandwidths g (b :: rest) ++ [(slot g c i).bandwidth]
    rw [ih]
    rfl

theorem bottleneck_snoc (g : AdjacencyMatrixGraph V) (p : List Nat) (c i : Nat)
    (h : p.getLast? = some c) :
    bottleneck g (p ++ [i]) = min (bottleneck g p) (slot g c i).bandwidth := by
  unfold bottleneck
  rw [pathBandwidths_snoc g p c i h, List.foldl_append]
  rfl

theorem isPath_snoc (g : AdjacencyMatrixGraph V) (W : Int) (p : List Nat) (a c i : Nat)
    (hp : IsPath g W p a c) (he : Allowed g W c i) : IsPath g W (p ++ [i]) a i := by
  obtain ⟨hh, hl, ha, hc⟩ := hp
  have hne : p ≠ [] := by
    intro h
    rw [h] at hh
    simp at hh
  refine ⟨?_, by simp, ha, ?_⟩
  · cases p with
    | nil => exact absurd rfl hne
    | cons x xs => simpa using hh
  · rw [List.chain'_append]
    refine ⟨hc, List.chain'_singleton _, ?_⟩
    intro x hx y hy
    rw [hl] at hx
    simp only [Option.mem_def, Option.some.injEq, List.head?_cons] at hx hy
    subst hx
    subst hy
    exact he

theorem isPath_single (g : AdjacencyMatrixGraph V) (W : Int) (a : Nat)
    (ha : a < g.vertices.length) : IsPath g W [a] a a :=
  ⟨rfl, rfl, ha, List.chain'_singleton _⟩

theorem path_lower_bound (g : AdjacencyMatrixGraph V) (W : Int) (d : Nat → Int)
    (hd : ∀ u v, Allowed g W u v → d v ≤ d u + (slot g u v).weight) :
    ∀ (p : List Nat) (a b : Nat), p.head? = some a → p.getLast? = some b →
    List.Chain' (Allowed g W) p → d b ≤ d a + pathWeight g p
  | [], _, _, h, _, _ => by simp at h
  | [x], a, b, hh, hl, _ => by
    simp only [List.head?_cons, Option.some.injEq, List.getLast?_singleton] at hh hl
    subst hh
    subst hl
    simp [pathWeight]
  | x :: y :: rest, a, b, hh, hl, hc => by
    simp only [List.head?_cons, Option.some.injEq] at hh
    subst hh
    rw [List.chain'_cons] at hc
    have hl' : (y :: rest).getLast? = some b := by
      rw [List.getLast?_cons_cons] at hl
      exact hl
    have ih := path_lower_bound g W d hd (y :: rest) y b rfl hl' hc.2
    have h1 := hd x y hc.1
    simp only [pathWeight]
    omega

theorem foldl_min_le (l : List Int) : ∀ (a : Int), l.foldl min a ≤ a ∧
    (∀ b ∈ l, l.foldl min a ≤ b) ∧ (l.foldl min a = a ∨ l.foldl min a ∈ l) := by
  induction l with
  | nil =>
    intro a
    simp
  | cons x xs ih =>
    intro a
    obtain ⟨h1, h2, h3⟩ := ih (min a x)
    simp only [List.foldl_cons, List.mem_cons]
    refine ⟨le_trans h1 (min_le_left _ _), ?_, ?_⟩
    · intro b hb
      rcases hb with rfl | hb
      · exact le_trans h1 (min_le_right _ _)
      · exact h2 b hb
    · rcases h3 with h3 | h3
      · rcases min_choice a x with hm | hm
        · left
          rw [h3, hm]
        · right
          left
          rw [h3, hm]
      · right
        right
        exact h3

/-! ### One relaxation -/

theorem relaxEdge_fire (g : AdjacencyMatrixGraph V) (W : Int) (frm cur k : Nat)
    (s : DijkstraState) (hk : k < g.vertices.length)
    (hb : Basic g W frm s) (hkf : k ≠ frm)
    (hE : ¬ (slot g cur k).isEmpty = true) (hB : ¬ (slot g cur k).bandwidth < W)
    (hwrap : wrapInt (s.wp cur + (slot g cur k).weight) = s.wp cur + (slot g cur k).weight)
    (hwrap' : wrapInt ((slot g cur k).weight + s.wp cur) = s.wp cur + (slot g cur k).weight)
    (hF : s.wp cur + (slot g cur k).weight < s.wp k) :
    ∃ s', relaxEdge g W cur s k = some s' ∧ s'.visited = s.visited ∧ s'.pqueue = s.pqueue ∧
      s'.weightPath.length = g.vertices.length ∧
      s'.bandwidthPath.length = g.vertices.length ∧
      s'.vertexPath.length = g.vertices.length ∧
      (∀ j, s'.wp j = if j = k then s.wp cur + (slot g cur k).weight else s.wp j) ∧
      (∀ j, s'.bp j = if j = k then min (s.bp cur) (slot g cur k).bandwidth else s.bp j) ∧
      (∀ j, s'.vp j = if j = k then s.vp cur ++ [cur] else s.vp j) := by
  obtain ⟨back, hback, hsame⟩ : ∃ back, (s.vp k).getLast? = some back ∧
      (back = cur → s.vp k = s.vp cur ++ [cur]) := by
    rcases hb.pred k hk hkf with h | ⟨c, -, -, -, h⟩
    · refine ⟨frm, by rw [h]; rfl, ?_⟩
      intro hc
      rw [h, ← hc, hb.vp_frm]
      rfl
    · refine ⟨c, by rw [h]; simp, ?_⟩
      intro hc
      rw [h, hc]
  have hkw : k < s.weightPath.length := by rw [hb.len_w]; exact hk
  have hkb : k < s.bandwidthPath.length := by rw [hb.len_b]; exact hk
  have hkp : k < s.vertexPath.length := by rw [hb.len_p]; exact hk
  have hF' : wrapInt (s.weightPath.getD cur 0 + (slot g cur k).weight) <
      s.weightPath.getD k 0 := by
    have := hwrap
    simp only [DijkstraState.wp] at this hF
    rw [this]
    exact hF
  have hback' : (s.vertexPath.getD k []).getLast? = some back := hback
  unfold relaxEdge
  rw [if_neg hE, if_neg hB]
  simp only [hF', if_true, hback']
  refine ⟨_, rfl, rfl, rfl, ?_, ?_, ?_, ?_, ?_, ?_⟩
  · simp [hb.len_w]
  · simp [hb.len_b]
  · by_cases hbc : back = cur
    · simp [hbc, hb.len_p]
    · simp [hbc, hb.len_p]
  · intro j
    simp only [DijkstraState.wp, getD_set]
    have := hwrap'
    simp only [DijkstraState.wp] at this
    rw [this]
    by_cases hjk : j = k
    · subst hjk
      simp [hkw]
    · have : ¬ k = j := fun h => hjk h.symm
      simp [hjk, this]
  · intro j
    simp only [DijkstraState.bp, getD_set]
    by_cases hjk : j = k
    · subst hjk
      simp only [hkb, and_self, if_true]
      split_ifs with h1
      · omega
      · omega
    · have : ¬ k = j := fun h => hjk h.symm
      simp [hjk, this]
  · intro j
    by_cases hbc : back = cur
    · simp only [hbc, ne_eq, not_true_eq_false, if_false]
      by_cases hjk : j = k
      · subst hjk
        simp only [if_true]
        exact hsame hbc
      · simp only [hjk, if_false]
        rfl
    · simp only [DijkstraState.vp, ne_eq, hbc, not_false_eq_true, if_true, getD_set]
      by_cases hjk : j = k
      · subst hjk
        simp [hkp]
      · have : ¬ k = j := fun h => hjk h.symm
        simp [hjk, this]

theorem relaxing_next (g : AdjacencyMatrixGraph V) (W : Int) (frm cur k : Nat)
    (s : DijkstraState) (h : Relaxing g W frm cur k s)
    (hk : Allowed g W cur k → s.wp k ≤ s.wp cur + (slot g cur k).weight) :
    Relaxing g W frm cur (k + 1) s := by
  refine { h with closed_cur := ?_ }
  intro v hv ha
  by_cases hvk : v = k
  · subst hvk
    exact hk ha
  · exact h.closed_cur v (by omega) ha

theorem relaxEdge_step (g : AdjacencyMatrixGraph V) (W : Int) (frm cur k : Nat)
    (s : DijkstraState) (hnn : NonNegWeights g) (hmax : WeightsAtMost g 1000)
    (hk : k < g.vertices.length) (h : Relaxing g W frm cur k s) :
    ∃ s', relaxEdge g W cur s k = some s' ∧ Relaxing g W frm cur (k + 1) s' := by
  by_cases hE : (slot g cur k).isEmpty = true
  · refine ⟨s, by rw [relaxEdge, if_pos hE], relaxing_next g W frm cur k s h ?_⟩
    intro ha
    rw [ha.2.2.1] at hE
    exact absurd hE (by decide)
  by_cases hB : (slot g cur k).bandwidth < W
  · refine ⟨s, by rw [relaxEdge, if_neg hE, if_pos hB], relaxing_next g W frm cur k s h ?_⟩
    intro ha
    have := ha.2.2.2
    omega
  have hpresent : (slot g cur k).isEmpty = false := by simpa using hE
  have hw0 := hnn cur h.cur_lt k hk hpresent
  have hw1 := hmax cur h.cur_lt k hk hpresent
  obtain ⟨hc0, hc1⟩ := h.basic.rng cur h.cur_lt
  have hMAX : MAX = 2147482647 := by decide
  rw [hMAX] at hc1
  have hwrap : wrapInt (s.wp cur + (slot g cur k).weight) =
      s.wp cur + (slot g cur k).weight := wrapInt_id _ (by omega) (by omega)
  have hwrap' : wrapInt ((slot g cur k).weight + s.wp cur) =
      s.wp cur + (slot g cur k).weight := by
    rw [Int.add_comm]
    exact hwrap
  by_cases hF : s.wp cur + (slot g cur k).weight < s.wp k
  · have hkf : k ≠ frm := by
      intro hkf
      have h0 : s.wp k = 0 := by rw [hkf]; exact h.basic.wp_frm
      omega
    have hvisk : s.vis k = false := by
      cases hv : s.vis k with
      | false => rfl
      | true =>
        have := h.ordA k hk hv
        omega
    have hkc : k ≠ cur := by
      intro hkc
      rw [hkc, h.vis_cur] at hvisk
      exact absurd hvisk (by decide)
    obtain ⟨s', hs', hvis, hq, hlw, hlb, hlp, hwp, hbp, hvp⟩ :=
      relaxEdge_fire g W frm cur k s hk h.basic hkf hE hB hwrap hwrap' hF
    have hvis' : ∀ j, s'.vis j = s.vis j := by
      intro j
      simp only [DijkstraState.vis, hvis]
    have hwp_le : ∀ j, s'.wp j ≤ s.wp j := by
      intro j
      rw [hwp j]
      split_ifs with hj
      · rw [hj]
        omega
      · exact Int.le_refl _
    have hwp_vis : ∀ j, s.vis j = true → s'.wp j = s.wp j := by
      intro j hj
      rw [hwp j, if_neg]
      intro hjk
      rw [hjk, hvisk] at hj
      exact absurd hj (by decide)
    have hvp_vis : ∀ j, s.vis j = true → s'.vp j = s.vp j := by
      intro j hj
      rw [hvp j, if_neg]
      intro hjk
      rw [hjk, hvisk] at hj
      exact absurd hj (by decide)
    have hk1 := h.basic.rng k hk
    have hcurMAX : s.wp cur < MAX := by omega
    obtain ⟨hgp, hgw, hgb⟩ := h.basic.good cur h.cur_lt hcurMAX
    have hallowed : Allowed g W cur k := ⟨h.cur_lt, hk, hpresent, by omega⟩
    have hlastc : (s.vp cur ++ [cur]).getLast? = some cur := by simp
    refine ⟨s', hs', ⟨⟨?_, hlw, hlb, hlp, h.basic.frm_lt, ?_, ?_, ?_, ?_, ?_, ?_⟩, h.cur_lt, ?_,
      ?_, ?_, ?_, ?_, ?_⟩⟩
    · rw [hvis]
      exact h.basic.len_v
    · rw [hwp, if_neg (Ne.symm hkf), h.basic.wp_frm]
    · rw [hvp, if_neg (Ne.symm hkf), h.basic.vp_frm]
    · rw [hbp, if_neg (Ne.symm hkf), h.basic.bp_frm]
    · intro i hi
      rw [hwp i]
      split_ifs with hik
      · omega
      · exact h.basic.rng i hi
    · intro i hi hlt
      by_cases hik : i = k
      · subst hik
        unfold Good
        rw [hwp i, hbp i, hvp i, if_pos rfl, if_pos rfl, if_pos rfl]
        refine ⟨isPath_snoc g W _ frm cur i hgp hallowed, ?_, ?_⟩
        · rw [pathWeight_snoc g _ cur i hlastc, hgw]
        · rw [bottleneck_snoc g _ cur i hlastc, hgb]
      · have hold : s.wp i < MAX := by
          rw [hwp i, if_neg hik] at hlt
          exact hlt
        have := h.basic.good i hi hold
        unfold Good at this ⊢
        rw [hwp i, hbp i, hvp i, if_neg hik, if_neg hik, if_neg hik]
        exact this
    · intro i hi hif
      by_cases hik : i = k
      · subst hik
        right
        refine ⟨cur, h.cur_lt, Ne.symm hkc, ?_, ?_⟩
        · rw [hvis']
          exact h.vis_cur
        · rw [hvp i, if_pos rfl, hvp_vis cur h.vis_cur]
      · rw [hvp i, if_neg hik]
        rcases h.basic.pred i hi hif with hp | ⟨c, hc, hci, hcv, hp⟩
        · left
          exact hp
        · right
          refine ⟨c, hc, hci, ?_, ?_⟩
          · rw [hvis']
            exact hcv
          · rw [hvp_vis c hcv]
            exact hp
    · rw [hvis']
      exact h.vis_cur
    · intro u hu huv
      rw [hvis'] at huv
      rw [hwp_vis u huv, hwp_vis cur h.vis_cur]
      exact h.ordA u hu huv
    · intro v hv hvv
      rw [hvis'] at hvv
      rw [hwp_vis cur h.vis_cur, hwp v]
      split_ifs with hvk
      · omega
      · exact h.ordB v hv hvv
    · intro u hu huv huc v ha
      rw [hvis'] at huv
      rw [hwp_vis u huv]
      exact Int.le_trans (hwp_le v) (h.closed u hu huv huc v ha)
    · intro v hv ha
      rw [hwp_vis cur h.vis_cur, hwp v]
      split_ifs with hvk
      · rw [hvk]
      · exact h.closed_cur v (by omega) ha
    · rw [hq]
      exact h.queue
  · have hnofire : ¬ wrapInt (s.weightPath.getD cur 0 + (slot g cur k).weight) <
        s.weightPath.getD k 0 := by
      have := hwrap
      simp only [DijkstraState.wp] at this hF
      rw [this]
      exact hF
    refine ⟨s, by rw [relaxEdge, if_neg hE, if_neg hB]; simp only [hnofire, if_false],
      relaxing_next g W frm cur k s h ?_⟩
    intro _
    omega

theorem relaxAll_spec (g : AdjacencyMatrixGraph V) (W : Int) (frm cur : Nat)
    (hnn : NonNegWeights g) (hmax : WeightsAtMost g 1000) :
    ∀ (d k : Nat) (s : DijkstraState), k + d = g.vertices.length →
    Relaxing g W frm cur k s →
    ∃ s', relaxAll g W cur (List.range' k d) s = some s' ∧
      Relaxing g W frm cur g.vertices.length s'
  | 0, k, s, hkd, h => by
    have : k = g.vertices.length := by omega
    subst this
    exact ⟨s, rfl, h⟩
  | d + 1, k, s, hkd, h => by
    obtain ⟨s1, hs1, h1⟩ := relaxEdge_step g W frm cur k s hnn hmax (by omega) h
    obtain ⟨s', hs', h'⟩ := relaxAll_spec g W frm cur hnn hmax d (k + 1) s1 (by omega) h1
    refine ⟨s', ?_, h'⟩
    rw [List.range'_succ, relaxAll, hs1]
    exact hs'

/-! ### One round -/

theorem relaxEdge_visited (g : AdjacencyMatrixGraph V) (W : Int) (cur k : Nat)
    (s s' : DijkstraState) (h : relaxEdge g W cur s k = some s') :
    s'.visited = s.visited ∧ s'.pqueue = s.pqueue := by
  unfold relaxEdge at h
  by_cases hE : (slot g cur k).isEmpty = true
  · rw [if_pos hE] at h
    cases h
    exact ⟨rfl, rfl⟩
  rw [if_neg hE] at h
  by_cases hB : (slot g cur k).bandwidth < W
  · rw [if_pos hB] at h
    cases h
    exact ⟨rfl, rfl⟩
  rw [if_neg hB] at h
  dsimp only at h
  by_cases hF : wrapInt (s.weightPath.getD cur 0 + (slot g cur k).weight) <
      s.weightPath.getD k 0
  · rw [if_pos hF] at h
    cases hl : (s.vertexPath.getD k []).getLast? with
    | none =>
      simp only [hl] at h
      cases h
    | some back =>
      simp only [hl] at h
      cases h
      exact ⟨rfl, rfl⟩
  · rw [if_neg hF] at h
    cases h
    exact ⟨rfl, rfl⟩

theorem relaxAll_visited (g : AdjacencyMatrixGraph V) (W : Int) (cur : Nat) :
    ∀ (l : List Nat) (s s' : DijkstraState), relaxAll g W cur l s = some s' →
    s'.visited = s.visited ∧ s'.pqueue = s.pqueue
  | [], s, s', h => by
    simp only [relaxAll, Option.some.injEq] at h
    subst h
    exact ⟨rfl, rfl⟩
  | i :: rest, s, s', h => by
    rw [relaxAll] at h
    cases h1 : relaxEdge g W cur s i with
    | none => rw [h1] at h; simp at h
    | some s1 =>
      rw [h1, Option.some_bind] at h
      obtain ⟨ha, hb⟩ := relaxEdge_visited g W cur i s s1 h1
      obtain ⟨hc, hd⟩ := relaxAll_visited g W cur rest s1 s' h
      exact ⟨hc.trans ha, hd.trans hb⟩

theorem selectMin_spec (s : DijkstraState) : ∀ (l : List Nat) (acc : Int × Nat),
    (selectMin s l acc).1 ≤ acc.1 ∧
    (∀ i ∈ l, s.vis i = false → (selectMin s l acc).1 ≤ s.wp i) ∧
    (selectMin s l acc = acc ∨
      ((selectMin s l acc).2 ∈ l ∧ s.vis (selectMin s l acc).2 = false ∧
        (selectMin s l acc).1 = s.wp (selectMin s l acc).2))
  | [], acc => by simp [selectMin]
  | i :: rest, acc => by
    rw [selectMin]
    by_cases hc : s.weightPath.getD i 0 < acc.1 ∧ s.visited.getD i false = false
    · rw [if_pos hc]
      obtain ⟨h1, h2, h3⟩ := selectMin_spec s rest (s.weightPath.getD i 0, i)
      have hwi : s.wp i = s.weightPath.getD i 0 := rfl
      refine ⟨by simp only at h1; omega, ?_, ?_⟩
      · intro j hj hv
        rcases List.mem_cons.1 hj with rfl | hj
        · simpa [hwi] using h1
        · exact h2 j hj hv
      · right
        rcases h3 with h3 | ⟨h3, h4, h5⟩
        · rw [h3]
          exact ⟨List.mem_cons_self _ _, hc.2, rfl⟩
        · exact ⟨List.mem_cons_of_mem _ h3, h4, h5⟩
    · rw [if_neg hc]
      obtain ⟨h1, h2, h3⟩ := selectMin_spec s rest acc
      refine ⟨h1, ?_, ?_⟩
      · intro j hj hv
        rcases List.mem_cons.1 hj with rfl | hj
        · have hwi : s.wp j = s.weightPath.getD j 0 := rfl
          have hvj : s.visited.getD j false = false := hv
          have : ¬ s.weightPath.getD j 0 < acc.1 := fun h => hc ⟨h, hvj⟩
          rw [hwi]
          omega
        · exact h2 j hj hv
      · rcases h3 with h3 | ⟨h3, h4, h5⟩
        · left
          exact h3
        · right
          exact ⟨List.mem_cons_of_mem _ h3, h4, h5⟩

theorem count_false_set : ∀ (l : List Bool) (i : Nat), i < l.length →
    l.getD i false = false → (l.set i true).count false + 1 = l.count false
  | [], i, h, _ => by simp at h
  | b :: rest, 0, _, hb => by
    simp only [List.getD_cons_zero] at hb
    subst hb
    simp
  | b :: rest, i + 1, h, hb => by
    have hlt : i < rest.length := by simpa using h
    have hb' : rest.getD i false = false := by simpa using hb
    have ih := count_false_set rest i hlt hb'
    simp only [List.set_cons_succ, List.count_cons]
    omega

theorem count_false_pos (l : List Bool) (i : Nat) (h : i < l.length)
    (hb : l.getD i false = false) : 0 < l.count false := by
  rw [List.count_pos_iff]
  have : l.getD i false = l[i] := by
    simp [List.getElem?_eq_getElem h]
  rw [this] at hb
  exact hb ▸ List.getElem_mem h

theorem dijkstraRound_spec (g : AdjacencyMatrixGraph V) (W : Int) (frm cur : Nat)
    (s : DijkstraState) (hnn : NonNegWeights g) (hmax : WeightsAtMost g 1000)
    (hcur : cur < g.vertices.length) (h : Between g W frm s) (hq : s.pqueue = [cur])
    (hvc : s.vis cur = false)
    (hminc : ∀ v < g.vertices.length, s.vis v = false → s.wp cur ≤ s.wp v) :
    ∃ s', dijkstraRound g W cur { s with pqueue := [] } = some s' ∧ Between g W frm s' ∧
      s'.visited.count false + 1 = s.visited.count false := by
  have hcv : cur < s.visited.length := by rw [h.basic.len_v]; exact hcur
  have hvis1 : ∀ j, ({ s with pqueue := [], visited := s.visited.set cur true } :
      DijkstraState).vis j = if j = cur then true else s.vis j := by
    intro j
    simp only [DijkstraState.vis, getD_set]
    by_cases hj : j = cur
    · subst hj
      simp [hcv]
    · have : ¬ cur = j := fun hh => hj hh.symm
      simp [hj, this]
  have hrel : Relaxing g W frm cur 0
      ({ s with pqueue := [], visited := s.visited.set cur true } : DijkstraState) := by
    refine ⟨⟨by simp [h.basic.len_v], h.basic.len_w, h.basic.len_b, h.basic.len_p,
      h.basic.frm_lt, h.basic.wp_frm, h.basic.vp_frm, h.basic.bp_frm, h.basic.rng,
      h.basic.good, ?_⟩, hcur, ?_, ?_, ?_, ?_, ?_, rfl⟩
    · intro i hi hif
      rcases h.basic.pred i hi hif with hp | ⟨c, hc, hci, hcvis, hp⟩
      · left
        exact hp
      · right
        refine ⟨c, hc, hci, ?_, hp⟩
        rw [hvis1]
        split_ifs
        · rfl
        · exact hcvis
    · rw [hvis1, if_pos rfl]
    · intro u hu huv
      rw [hvis1] at huv
      by_cases huc : u = cur
      · rw [huc]
      · rw [if_neg huc] at huv
        exact h.ord u hu cur hcur huv hvc
    · intro v hv hvv
      rw [hvis1] at hvv
      by_cases hvcur : v = cur
      · rw [if_pos hvcur] at hvv
        exact absurd hvv (by decide)
      · rw [if_neg hvcur] at hvv
        exact hminc v hv hvv
    · intro u hu huv huc v ha
      rw [hvis1, if_neg huc] at huv
      exact h.closed u hu huv v ha
    · intro v hv
      omega
  obtain ⟨s2, hs2, hrel2⟩ := relaxAll_spec g W frm cur hnn hmax g.vertices.length 0 _
    (by omega) hrel
  obtain ⟨hvis2, hq2⟩ := relaxAll_visited g W cur _ _ s2 hs2
  have hrange : List.range g.vertices.length = List.range' 0 g.vertices.length :=
    List.range_eq_range' _
  have hord : ∀ u < g.vertices.length, ∀ v < g.vertices.length,
      s2.vis u = true → s2.vis v = false → s2.wp u ≤ s2.wp v :=
    fun u hu v hv huv hvv => Int.le_trans (hrel2.ordA u hu huv) (hrel2.ordB v hv hvv)
  have hclosed : ∀ u < g.vertices.length, s2.vis u = true →
      ∀ v, Allowed g W u v → s2.wp v ≤ s2.wp u + (slot g u v).weight := by
    intro u hu huv v ha
    by_cases huc : u = cur
    · subst huc
      exact hrel2.closed_cur v ha.2.1 ha
    · exact hrel2.closed u hu huv huc v ha
  have hcount : s2.visited.count false + 1 = s.visited.count false := by
    rw [hvis2]
    exact count_false_set s.visited cur hcv hvc
  obtain ⟨m1, m2, m3⟩ := selectMin_spec s2 (List.range g.vertices.length) (INT_MAX, 0)
  have hs2' : relaxAll g W cur (List.range g.vertices.length)
      ({ s with pqueue := [], visited := s.visited.set cur true } : DijkstraState) =
      some s2 := by
    rw [hrange]
    exact hs2
  have hround : dijkstraRound g W cur { s with pqueue := [] } =
      some (if s2.visited.getD
          (selectMin s2 (List.range g.vertices.length) (INT_MAX, 0)).2 false = false then
        { s2 with pqueue :=
            (selectMin s2 (List.range g.vertices.length) (INT_MAX, 0)).2 :: s2.pqueue }
        else s2) := by
    unfold dijkstraRound
    dsimp only
    rw [hs2']
    rfl
  rw [hround]
  by_cases hpush : s2.visited.getD
      (selectMin s2 (List.range g.vertices.length) (INT_MAX, 0)).2 false = false
  · rw [if_pos hpush]
    refine ⟨_, rfl, ⟨?_, hord, hclosed, ?_⟩, hcount⟩
    · exact ⟨hrel2.basic.len_v, hrel2.basic.len_w, hrel2.basic.len_b, hrel2.basic.len_p,
        hrel2.basic.frm_lt, hrel2.basic.wp_frm, hrel2.basic.vp_frm, hrel2.basic.bp_frm,
        hrel2.basic.rng, hrel2.basic.good, hrel2.basic.pred⟩
    · right
      rcases m3 with m3 | ⟨m3, m4, m5⟩
      · exfalso
        rw [m3] at hpush
        have h0 : s2.vis 0 = false := hpush
        have := m2 0 (List.mem_range.2 (by omega)) h0
        rw [m3] at this
        have hr := (hrel2.basic.rng 0 (by omega)).2
        have hMAX : MAX = 2147482647 := by decide
        have hIM : INT_MAX = 2147483647 := by decide
        simp only [hIM] at this
        omega
      · refine ⟨_, List.mem_range.1 m3, ?_, m4, ?_⟩
        · show _ :: s2.pqueue = _
          rw [hrel2.queue]
        · intro v hv hvv
          have hvv' : s2.vis v = false := hvv
          show s2.wp _ ≤ s2.wp v
          rw [← m5]
          exact m2 v (List.mem_range.2 hv) hvv'
  · rw [if_neg hpush]
    refine ⟨_, rfl, ⟨hrel2.basic, hord, hclosed, ?_⟩, hcount⟩
    left
    refine ⟨hrel2.queue, ?_⟩
    rcases m3 with m3 | ⟨m3, m4, m5⟩
    · intro i hi
      cases hvi : s2.vis i with
      | true => rfl
      | false =>
        exfalso
        have := m2 i (List.mem_range.2 hi) hvi
        rw [m3] at this
        have hr := (hrel2.basic.rng i hi).2
        have hMAX : MAX = 2147482647 := by decide
        have hIM : INT_MAX = 2147483647 := by decide
        simp only [hIM] at this
        omega
    · exact absurd m4 hpush

/-! ### The `while` loop and the output -/

theorem dijkstraLoop_spec (g : AdjacencyMatrixGraph V) (W : Int) (frm : Nat)
    (hnn : NonNegWeights g) (hmax : WeightsAtMost g 1000) :
    ∀ (fuel : Nat) (s : DijkstraState), Between g W frm s →
    s.visited.count false ≤ fuel →
    ∃ s', dijkstraLoop g W fuel s = some s' ∧ Between g W frm s' ∧
      ∀ i < g.vertices.length, s'.vis i = true
  | 0, s, h, hfuel => by
    rcases h.queue with ⟨hq, hall⟩ | ⟨cur, hcur, hq, hvc, -⟩
    · exact ⟨s, by rw [dijkstraLoop, if_pos hq], h, hall⟩
    · exfalso
      have := count_false_pos s.visited cur (by rw [h.basic.len_v]; exact hcur) hvc
      omega
  | fuel + 1, s, h, hfuel => by
    rcases h.queue with ⟨hq, hall⟩ | ⟨cur, hcur, hq, hvc, hminc⟩
    · refine ⟨s, ?_, h, hall⟩
      rw [dijkstraLoop, hq]
      rfl
    · obtain ⟨s1, hs1, hb1, hcount⟩ :=
        dijkstraRound_spec g W frm cur s hnn hmax hcur h hq hvc hminc
      obtain ⟨s', hs', hb', hall⟩ := dijkstraLoop_spec g W frm hnn hmax fuel s1 hb1 (by omega)
      refine ⟨s', ?_, hb', hall⟩
      have htop : pqueueTop s.pqueue = some cur := by
        rw [hq]
        rfl
      have hpop : ({ s with pqueue := s.pqueue.erase cur } : DijkstraState) =
          { s with pqueue := [] } := by
        rw [hq]
        simp
      rw [dijkstraLoop, htop]
      simp only
      rw [hpop, hs1, Option.some_bind]
      exact hs'

theorem dijkstraInit_between (g : AdjacencyMatrixGraph V) (W : Int) (frm : Nat)
    (hfrm : frm < g.vertices.length) : Between g W frm (dijkstraInit g frm) := by
  have hwp : ∀ i < g.vertices.length,
      (dijkstraInit g frm).wp i = if i = frm then 0 else MAX := by
    intro i hi
    simp only [DijkstraState.wp, dijkstraInit, getD_set, List.length_replicate]
    by_cases hif : i = frm
    · subst hif
      simp [hi]
    · have : ¬ frm = i := fun h => hif h.symm
      simp [hif, this, hi]
  have hvp : ∀ i < g.vertices.length,
      (dijkstraInit g frm).vp i = if i ≠ frm then [frm] else [] := by
    intro i hi
    simp [DijkstraState.vp, dijkstraInit, hi]
  have hbp : ∀ i < g.vertices.length, (dijkstraInit g frm).bp i = MAX := by
    intro i hi
    simp [DijkstraState.bp, dijkstraInit, hi]
  have hvis : ∀ i, (dijkstraInit g frm).vis i = false := by
    intro i
    simp only [DijkstraState.vis, dijkstraInit, List.getD_eq_getElem?_getD]
    by_cases hi : i < g.vertices.length
    · simp [hi]
    · simp [hi]
  have hMAX : MAX = 2147482647 := by decide
  refine ⟨⟨?_, ?_, ?_, ?_, hfrm, ?_, ?_, hbp frm hfrm, ?_, ?_, ?_⟩, ?_, ?_, ?_⟩
  · simp [dijkstraInit]
  · simp [dijkstraInit]
  · simp [dijkstraInit]
  · simp [dijkstraInit]
  · rw [hwp frm hfrm, if_pos rfl]
  · rw [hvp frm hfrm]
    simp
  · intro i hi
    rw [hwp i hi]
    split_ifs <;> omega
  · intro i hi hlt
    have hif : i = frm := by
      by_contra hne
      rw [hwp i hi, if_neg hne] at hlt
      omega
    subst hif
    unfold Good
    rw [hwp i hi, hvp i hi, hbp i hi]
    simp only [ne_eq, not_true_eq_false, if_false, if_true, List.nil_append]
    exact ⟨isPath_single g W i hi, rfl, rfl⟩
  · intro i hi hif
    left
    rw [hvp i hi, if_pos hif]
  · intro u _ v _ huv
    rw [hvis u] at huv
    exact absurd huv (by decide)
  · intro u _ huv
    rw [hvis u] at huv
    exact absurd huv (by decide)
  · right
    refine ⟨frm, hfrm, rfl, hvis frm, ?_⟩
    intro v hv _
    rw [hwp frm hfrm, if_pos rfl]
    exact (by rw [hwp v hv]; split_ifs <;> omega)

theorem completePaths_getD : ∀ (l : List (List Nat)) (k j : Nat), j < l.length →
    (completePaths l k).getD j [] =
      if (l.getD j []).getLast? = some (k + j) then l.getD j []
      else l.getD j [] ++ [k + j]
  | [], _, _, h => by simp at h
  | p :: rest, k, 0, _ => by simp [completePaths]
  | p :: rest, k, j + 1, h => by
    have ih := completePaths_getD rest (k + 1) j (by simpa using h)
    simp only [completePaths, List.getD_cons_succ]
    rw [ih]
    have : k + 1 + j = k + (j + 1) := by omega
    rw [this]

/-- The run of `dijkstra` when every present edge has a weight between 0 and
1000: the loop ends with every vertex visited, and the vectors describe, for
every vertex whose `weightPath` is below the sentinel, a path of least
weight. -/
theorem dijkstra_run (g : AdjacencyMatrixGraph V) (W : Int) (frm : Nat)
    (hnn : NonNegWeights g) (hmax : WeightsAtMost g 1000) (hfrm : frm < g.vertices.length) :
    ∃ s, dijkstraLoop g W g.vertices.length (dijkstraInit g frm) = some s ∧
      Between g W frm s ∧ (∀ i < g.vertices.length, s.vis i = true) ∧
      ∀ t < g.vertices.length, ∀ p, IsPath g W p frm t → s.wp t ≤ pathWeight g p := by
  have hinit := dijkstraInit_between g W frm hfrm
  have hcount : (dijkstraInit g frm).visited.count false ≤ g.vertices.length := by
    simp [dijkstraInit]
  obtain ⟨s, hs, hb, hall⟩ := dijkstraLoop_spec g W frm hnn hmax _ _ hinit hcount
  refine ⟨s, hs, hb, hall, ?_⟩
  intro t _ p hp
  have := path_lower_bound g W s.wp
    (fun u v ha => hb.closed u ha.1 (hall u ha.1) v ha) p frm t hp.1 hp.2.1 hp.2.2.2
  rw [hb.basic.wp_frm] at this
  omega

theorem dijkstra_output (g : AdjacencyMatrixGraph V) (W : Int) (frm toIndex : Nat)
    (hnn : NonNegWeights g) (hmax : WeightsAtMost g 1000) (hfrm : frm < g.vertices.length)
    (hto : toIndex < g.vertices.length) (hne : frm ≠ toIndex) :
    ∃ s, Between g W frm s ∧
      (∀ p, IsPath g W p frm toIndex → s.wp toIndex ≤ pathWeight g p) ∧
      dijkstra g frm toIndex W = some
        (if s.wp toIndex = MAX then DijkstraOutput.impossible
         else DijkstraOutput.report (s.vp toIndex ++ [toIndex]).length (s.wp toIndex)
           (s.bp toIndex) (s.vp toIndex ++ [toIndex])) := by
  obtain ⟨s, hs, hb, -, hmin⟩ := dijkstra_run g W frm hnn hmax hfrm
  refine ⟨s, hb, hmin toIndex hto, ?_⟩
  have hlast : ¬ (s.vp toIndex).getLast? = some toIndex := by
    rcases hb.basic.pred toIndex hto (Ne.symm hne) with hp | ⟨c, -, hc, -, hp⟩
    · rw [hp]
      simp only [List.getLast?_singleton, Option.some.injEq]
      exact hne
    · rw [hp]
      simp only [List.getLast?_append, List.getLast?_singleton, Option.or,
        Option.some.injEq]
      exact hc
  have hpath : (completePaths s.vertexPath 0).getD toIndex [] = s.vp toIndex ++ [toIndex] := by
    rw [completePaths_getD _ _ _ (by rw [hb.basic.len_p]; exact hto)]
    simp only [Nat.zero_add]
    exact if_neg hlast
  unfold dijkstra
  rw [hs, Option.map_some']
  simp only [hpath]
  have hcond : ((s.vp toIndex ++ [toIndex]).length = 1 ∧ toIndex = frm) ↔ False := by
    constructor
    · rintro ⟨-, h⟩
      exact hne h.symm
    · exact False.elim
  simp only [hcond, false_or]
  rfl

/-! ### Sequences of `addVertex` and `removeVertex` calls -/

/-- C1 (failing input): the call sequence `removeVertex(X)` on the empty
graph.  `getIndex` finds no vertex, `removeVertex` erases at
`vertices.begin() - 1` without a test, and the sequence has no defined
result: after it there is no graph with a square matrix. -/
theorem runVertexCalls_absent_key :
    getIndex (AdjacencyMatrixGraph.init String) { addr := 0, title := "X" } = none ∧
      runVertexCalls [VertexCall.remove { addr := 0, title := "X" }]
        (AdjacencyMatrixGraph.init String) = none ∧
      ¬ ∃ g', runVertexCalls [VertexCall.remove { addr := 0, title := "X" }]
        (AdjacencyMatrixGraph.init String) = some g' ∧ Square g' := by
  have hnone : runVertexCalls [VertexCall.remove { addr := 0, title := "X" }]
      (AdjacencyMatrixGraph.init String) = none := by decide
  refine ⟨by decide, hnone, ?_⟩
  rintro ⟨g', h, -⟩
  rw [hnone] at h
  cases h

/-- Starting from a graph with a square matrix, in particular the empty
graph, every sequence of `addVertex` and `removeVertex` calls whose
`removeVertex` calls name keys that are present runs to a graph whose matrix
has `vertices.size()` rows of `vertices.size()` slots. -/
theorem runVertexCalls_present_square : ∀ (calls : List (VertexCall V))
    (g : AdjacencyMatrixGraph V), Square g → PresentKeys calls g →
    ∃ g', runVertexCalls calls g = some g' ∧
      g'.edges.length = g'.vertices.length ∧
      ∀ row ∈ g'.edges, row.length = g'.vertices.length
  | [], g, h, _ => ⟨g, rfl, h⟩
  | VertexCall.add value :: rest, g, h, hp =>
    runVertexCalls_present_square rest _ (addVertex_square g value h) hp
  | VertexCall.remove v :: rest, g, h, hp => by
    obtain ⟨hkey, hrest⟩ := hp
    obtain ⟨i, hi⟩ := getIndexIn_of_mem hkey
    have hdef : ∃ g1, removeVertex g v = some g1 := by
      simp [removeVertex, getIndex, hi]
    obtain ⟨g1, hg1⟩ := hdef
    rw [hg1] at hrest
    obtain ⟨g', hg', hsq⟩ := runVertexCalls_present_square rest g1
      (removeVertex_square g g1 v h hg1) hrest
    refine ⟨g', ?_, hsq⟩
    rw [runVertexCalls, hg1]
    exact hg'

/-- The sequence `ADD_VERTEX A`, `ADD_VERTEX B`, `REMOVE_VERTEX A`,
`ADD_VERTEX C` from the empty graph leaves a square matrix. -/
theorem runVertexCalls_present_square_witness :
    Square (AdjacencyMatrixGraph.init String) ∧
      PresentKeys [VertexCall.add "A", VertexCall.add "B", VertexCall.remove (key "A"),
        VertexCall.add "C"] (AdjacencyMatrixGraph.init String) ∧
      ∃ g', runVertexCalls [VertexCall.add "A", VertexCall.add "B",
          VertexCall.remove (key "A"), VertexCall.add "C"]
          (AdjacencyMatrixGraph.init String) = some g' ∧
        g'.edges.length = g'.vertices.length ∧
        ∀ row ∈ g'.edges, row.length = g'.vertices.length :=
  ⟨by decide, ⟨by decide, trivial⟩,
    runVertexCalls_present_square _ _ (by decide) ⟨by decide, trivial⟩⟩

/-! ### What `dijkstra` reports when the weights are between 0 and 1000 -/

/-- C8 (amended): on a well-formed graph whose present edges have weights
between 0 and 1000 (summing below the sentinel), for valid indices
`frm ≠ toIndex` and every `W`, `dijkstra` returns, and a reported total weight
is the least weight of a path from `frm` to `toIndex` over present edges of
bandwidth at least `W`. -/
theorem dijkstra_weight_minimal (g : AdjacencyMatrixGraph V) (W : Int) (frm toIndex : Nat)
    (_hwf : WellFormed g) (hnn : NonNegWeights g) (hmax : WeightsAtMost g 1000)
    (_htotal : totalWeight g < MAX) (hfrm : frm < g.vertices.length)
    (hto : toIndex < g.vertices.length) (hne : frm ≠ toIndex) :
    ∃ out, dijkstra g frm toIndex W = some out ∧
      ∀ len w b path, out = DijkstraOutput.report len w b path →
        IsMinWeight g W frm toIndex w := by
  obtain ⟨s, hb, hmin, hout⟩ := dijkstra_output g W frm toIndex hnn hmax hfrm hto hne
  refine ⟨_, hout, ?_⟩
  intro len w b path hrep
  by_cases hM : s.wp toIndex = MAX
  · rw [if_pos hM] at hrep
    cases hrep
  · rw [if_neg hM] at hrep
    cases hrep
    have hlt : s.wp toIndex < MAX := by
      have := (hb.basic.rng toIndex hto).2
      omega
    obtain ⟨hp, hw, -⟩ := hb.basic.good toIndex hto hlt
    exact ⟨⟨_, hp, hw⟩, hmin⟩

/-- C8 (witness): the scenario `A -> B` (1, 5), `B -> C` (1, 5), `A -> C` (5, 1)
with `W = 3`: the reported weight 2 is the least. -/
theorem dijkstra_weight_minimal_witness :
    WellFormed graphScenario ∧ NonNegWeights graphScenario ∧
      WeightsAtMost graphScenario 1000 ∧ totalWeight graphScenario < MAX ∧
      dijkstra graphScenario 0 2 3 = some (DijkstraOutput.report 3 2 5 [0, 1, 2]) ∧
      IsMinWeight graphScenario 3 0 2 2 := by
  have hrun : dijkstra graphScenario 0 2 3 = some (DijkstraOutput.report 3 2 5 [0, 1, 2]) := by
    decide
  refine ⟨by decide, by decide, by decide, by decide, hrun, ?_⟩
  obtain ⟨out, hout, hmin⟩ := dijkstra_weight_minimal graphScenario 3 0 2 (by decide)
    (by decide) (by decide) (by decide) (by decide) (by decide) (by decide)
  rw [hrun] at hout
  exact hmin 3 2 5 [0, 1, 2] (Option.some.inj hout).symm

/-- C9 (amended): under the same conditions with weights between 0 and 1000,
`dijkstra` returns, and a reported vertex sequence starts at `frm`, ends at
`toIndex`, joins consecutive vertices by present edges of bandwidth at least
`W`, has the reported total weight as the sum of its edge weights and the
reported length as its number of vertices. -/
theorem dijkstra_path_valid (g : AdjacencyMatrixGraph V) (W : Int) (frm toIndex : Nat)
    (_hwf : WellFormed g) (hnn : NonNegWeights g) (hmax : WeightsAtMost g 1000)
    (_htotal : totalWeight g < MAX) (hfrm : frm < g.vertices.length)
    (hto : toIndex < g.vertices.length) (hne : frm ≠ toIndex) :
    ∃ out, dijkstra g frm toIndex W = some out ∧
      ∀ len w b path, out = DijkstraOutput.report len w b path →
        path.head? = some frm ∧ path.getLast? = some toIndex ∧
        List.Chain' (Allowed g W) path ∧ pathWeight g path = w ∧ len = path.length := by
  obtain ⟨s, hb, -, hout⟩ := dijkstra_output g W frm toIndex hnn hmax hfrm hto hne
  refine ⟨_, hout, ?_⟩
  intro len w b path hrep
  by_cases hM : s.wp toIndex = MAX
  · rw [if_pos hM] at hrep
    cases hrep
  · rw [if_neg hM] at hrep
    cases hrep
    have hlt : s.wp toIndex < MAX := by
      have := (hb.basic.rng toIndex hto).2
      omega
    obtain ⟨hp, hw, -⟩ := hb.basic.good toIndex hto hlt
    exact ⟨hp.1, hp.2.1, hp.2.2.2, hw, rfl⟩

/-- C9 (witness): the scenario graph with `W = 3` reports `0, 1, 2`. -/
theorem dijkstra_path_valid_witness :
    WellFormed graphScenario ∧ NonNegWeights graphScenario ∧
      WeightsAtMost graphScenario 1000 ∧ totalWeight graphScenario < MAX ∧
      ∃ out, dijkstra graphScenario 0 2 3 = some out ∧
        ∀ len w b path, out = DijkstraOutput.report len w b path →
          path.head? = some 0 ∧ path.getLast? = some 2 ∧
          List.Chain' (Allowed graphScenario 3) path ∧ pathWeight graphScenario path = w ∧
          len = path.length :=
  ⟨by decide, by decide, by decide, by decide,
    dijkstra_path_valid graphScenario 3 0 2 (by decide) (by decide) (by decide) (by decide)
      (by decide) (by decide) (by decide)⟩

/-- C10 (amended): under the same conditions with weights between 0 and 1000
and every edge bandwidth below the sentinel, `dijkstra` returns, and a
reported bottleneck bandwidth is the least of the bandwidths of the edges
along the reported vertex sequence, hence at least `W`. -/
theorem dijkstra_bottleneck (g : AdjacencyMatrixGraph V) (W : Int) (frm toIndex : Nat)
    (_hwf : WellFormed g) (hnn : NonNegWeights g) (hmax : WeightsAtMost g 1000)
    (_htotal : totalWeight g < MAX) (hbw : BandwidthsBelow g MAX)
    (hfrm : frm < g.vertices.length) (hto : toIndex < g.vertices.length)
    (hne : frm ≠ toIndex) :
    ∃ out, dijkstra g frm toIndex W = some out ∧
      ∀ len w b path, out = DijkstraOutput.report len w b path →
        b ∈ pathBandwidths g path ∧ (∀ x ∈ pathBandwidths g path, b ≤ x) ∧ W ≤ b := by
  obtain ⟨s, hb, -, hout⟩ := dijkstra_output g W frm toIndex hnn hmax hfrm hto hne
  refine ⟨_, hout, ?_⟩
  intro len w b path hrep
  by_cases hM : s.wp toIndex = MAX
  · rw [if_pos hM] at hrep
    cases hrep
  · rw [if_neg hM] at hrep
    cases hrep
    have hlt : s.wp toIndex < MAX := by
      have := (hb.basic.rng toIndex hto).2
      omega
    obtain ⟨hp, -, hbn⟩ := hb.basic.good toIndex hto hlt
    have hedges : ∀ (p : List Nat), List.Chain' (Allowed g W) p →
        ∀ x ∈ pathBandwidths g p, W ≤ x ∧ x < MAX := by
      intro p
      induction p with
      | nil => intro _ x hx; simp [pathBandwidths] at hx
      | cons u rest ih =>
        cases rest with
        | nil => intro _ x hx; simp [pathBandwidths] at hx
        | cons v rest =>
          intro hc x hx
          rw [List.chain'_cons] at hc
          simp only [pathBandwidths, List.mem_cons] at hx
          rcases hx with rfl | hx
          · exact ⟨hc.1.2.2.2, hbw u hc.1.1 v hc.1.2.1 hc.1.2.2.1⟩
          · exact ih hc.2 x hx
    obtain ⟨-, hle, hmem⟩ := foldl_min_le (pathBandwidths g (s.vp toIndex ++ [toIndex])) MAX
    have hbn' : (pathBandwidths g (s.vp toIndex ++ [toIndex])).foldl min MAX =
        s.bp toIndex := hbn
    rw [hbn'] at hle hmem
    have hnonempty : ∃ x, x ∈ pathBandwidths g (s.vp toIndex ++ [toIndex]) := by
      rcases hb.basic.pred toIndex hto (Ne.symm hne) with hq | ⟨c, -, -, -, hq⟩
      · rw [hq]
        exact ⟨_, List.mem_cons_self _ _⟩
      · rw [hq, pathBandwidths_snoc g (s.vp c ++ [c]) c toIndex (by simp)]
        exact ⟨_, List.mem_append_right _ (List.mem_singleton.2 rfl)⟩
    obtain ⟨x, hx⟩ := hnonempty
    have hin : s.bp toIndex ∈ pathBandwidths g (s.vp toIndex ++ [toIndex]) := by
      rcases hmem with hmem | hmem
      · exfalso
        have h1 := hle x hx
        have h2 := (hedges _ hp.2.2.2 x hx).2
        omega
      · exact hmem
    exact ⟨hin, hle, (hedges _ hp.2.2.2 _ hin).1⟩

/-- C10 (witness): the scenario graph with `W = 3` reports the bandwidth 5. -/
theorem dijkstra_bottleneck_witness :
    WellFormed graphScenario ∧ NonNegWeights graphScenario ∧
      WeightsAtMost graphScenario 1000 ∧ totalWeight graphScenario < MAX ∧
      BandwidthsBelow graphScenario MAX ∧
      ∃ out, dijkstra graphScenario 0 2 3 = some out ∧
        ∀ len w b path, out = DijkstraOutput.report len w b path →
          b ∈ pathBandwidths graphScenario path ∧
          (∀ x ∈ pathBandwidths graphScenario path, b ≤ x) ∧ 3 ≤ b :=
  ⟨by decide, by decide, by decide, by decide, by decide,
    dijkstra_bottleneck graphScenario 3 0 2 (by decide) (by decide) (by decide) (by decide)
      (by decide) (by decide) (by decide) (by decide)⟩

/-! ### The queries `hasEdge`, `edgesFrom` and `edgesTo` -/

theorem column_eq_map (g : AdjacencyMatrixGraph V) (hsq : Square g) (p : Nat) :
    g.edges.map (fun edge => edge.getD p 0) =
      (List.range g.vertices.length).map (fun i => edgeAt g i p) := by
  apply List.ext_getElem (by simp [hsq.1])
  intro i h1 h2
  have hi : i < g.edges.length := by simpa using h1
  simp [edgeAt, hi]

/-- C14: on a well-formed graph `hasEdge(v, u)` returns `false` when the key
of `v` or the key of `u` matches no vertex, and otherwise both keys have an
index inside the matrix and `hasEdge(v, u)` is `true` exactly when the slot
at these indices is not empty. -/
theorem hasEdge_spec (g : AdjacencyMatrixGraph V) (_hwf : WellFormed g) (v u : Vertex V) :
    ((v.title ∉ g.vertices.map (fun x => x.title) ∨
        u.title ∉ g.vertices.map (fun x => x.title)) → hasEdge g v u = false) ∧
      (v.title ∈ g.vertices.map (fun x => x.title) →
        u.title ∈ g.vertices.map (fun x => x.title) →
        ∃ x y, getIndex g v = some x ∧ getIndex g u = some y ∧
          x < g.vertices.length ∧ y < g.vertices.length ∧
          (hasEdge g v u = true ↔ (slot g x y).isEmpty = false)) := by
  constructor
  · rintro (h | h)
    · have hn : getIndex g v = none := by
        rw [getIndex, getIndexIn_none]
        intro w hw hwt
        exact h (List.mem_map.2 ⟨w, hw, hwt⟩)
      simp [hasEdge, hn]
    · have hn : getIndex g u = none := by
        rw [getIndex, getIndexIn_none]
        intro w hw hwt
        exact h (List.mem_map.2 ⟨w, hw, hwt⟩)
      cases hv : getIndex g v <;> simp [hasEdge, hn, hv]
  · intro hv hu
    obtain ⟨x, hx⟩ := getIndexIn_of_mem hv
    obtain ⟨y, hy⟩ := getIndexIn_of_mem hu
    refine ⟨x, y, hx, hy, (getIndexIn_some hx).1, (getIndexIn_some hy).1, ?_⟩
    have hx' : getIndex g v = some x := hx
    have hy' : getIndex g u = some y := hy
    simp [hasEdge, hx', hy']

/-- C14 (witness): in the path graph `A -> B -> C`, `hasEdge(A, B)` is `true`,
`hasEdge(B, A)` is `false`, and `hasEdge(A, X)` is `false` for the absent key
`X`. -/
theorem hasEdge_spec_witness :
    WellFormed graphPath ∧ hasEdge graphPath (key "A") (key "X") = false ∧
      hasEdge graphPath (key "A") (key "B") = true ∧
      hasEdge graphPath (key "B") (key "A") = false :=
  ⟨by decide,
    (hasEdge_spec graphPath (by decide) (key "A") (key "X")).1 (Or.inr (by decide)),
    by decide, by decide⟩

/-- C18: on a well-formed graph, for a vertex `v` found at index `p`,
`edgesFrom(v)` is the list of the addresses of the non-empty slots of row `p`
by increasing column, `edgesTo(v)` the list of the addresses of the non-empty
slots of column `p` by increasing row, and no returned address points to an
empty edge. -/
theorem edgesFrom_edgesTo_spec (g : AdjacencyMatrixGraph V) (hwf : WellFormed g)
    (v : Vertex V) (p : Nat) (hidx : getIndex g v = some p) :
    edgesFrom g v = some (((List.range g.vertices.length).filter
        (fun j => !(slot g p j).isEmpty)).map (fun j => edgeAt g p j)) ∧
      edgesTo g v = some (((List.range g.vertices.length).filter
        (fun i => !(slot g i p).isEmpty)).map (fun i => edgeAt g i p)) ∧
      (∀ es, edgesFrom g v = some es → ∀ e ∈ es, (deref g e).isEmpty = false) ∧
      (∀ es, edgesTo g v = some es → ∀ e ∈ es, (deref g e).isEmpty = false) := by
  have hp : p < g.vertices.length := (getIndexIn_some hidx).1
  have hfrom : edgesFrom g v = some (((List.range g.vertices.length).filter
      (fun j => !(slot g p j).isEmpty)).map (fun j => edgeAt g p j)) := by
    simp only [edgesFrom, hidx, row_eq_map g hwf.1 hp, List.filter_map]
    rfl
  have hto : edgesTo g v = some (((List.range g.vertices.length).filter
      (fun i => !(slot g i p).isEmpty)).map (fun i => edgeAt g i p)) := by
    simp only [edgesTo, hidx, column_eq_map g hwf.1 p, List.filter_map]
    rfl
  refine ⟨hfrom, hto, ?_, ?_⟩
  · intro es hes e he
    rw [hfrom] at hes
    cases hes
    simp only [List.mem_map, List.mem_filter] at he
    obtain ⟨j, ⟨-, hj⟩, rfl⟩ := he
    simpa [slot] using hj
  · intro es hes e he
    rw [hto] at hes
    cases hes
    simp only [List.mem_map, List.mem_filter] at he
    obtain ⟨j, ⟨-, hj⟩, rfl⟩ := he
    simpa [slot] using hj

/-- C18 (witness): in the scenario graph `A -> B`, `B -> C`, `A -> C`, the
vertex `C` at index 2 has no outgoing edge and the incoming edges of the
slots (0, 2) and (1, 2), in this order. -/
theorem edgesFrom_edgesTo_spec_witness :
    WellFormed graphScenario ∧ getIndex graphScenario (key "C") = some 2 ∧
      edgesFrom graphScenario (key "C") = some [] ∧
      edgesTo graphScenario (key "C") =
        some [edgeAt graphScenario 0 2, edgeAt graphScenario 1 2] := by
  obtain ⟨h1, h2, -, -⟩ := edgesFrom_edgesTo_spec graphScenario (by decide) (key "C") 2
    (by decide)
  refine ⟨by decide, by decide, ?_, ?_⟩
  · rw [h1]
    decide
  · rw [h2]
    decide

/-! ### Calls that name an absent key -/

/-- C12 (failing input): `removeVertex(X)` on the graph with the vertices `A`,
`B`, `C`: `getIndex` finds no vertex and the call has no defined result (it
erases at `vertices.begin() - 1`); nothing reports an error and nothing
returns the graph as it was. -/
theorem removeVertex_absent_key :
    getIndex graphABC (key "X") = none ∧ removeVertex graphABC (key "X") = none := by
  decide

/-- C13 (failing input): `addEdge(X, B, 7)` on the graph with the vertices `A`,
`B`, `C` and no edge: the key `X` matches no vertex, the call returns an edge
all the same, and afterwards the slot of row 0, `A -> B`, holds it. -/
theorem addEdge_absent_key :
    getIndex graphABC (key "X") = none ∧ hasEdge graphABC (key "A") (key "B") = false ∧
      (addEdge graphABC (key "X") (key "B") 7 0).map
          (fun r => (r.2.vertices, hasEdge r.2 (key "A") (key "B"), (slot r.2 0 1).weight)) =
        some (graphABC.vertices, true, 7) := by
  decide

/-! ### The scan of `addEdge` -/

theorem addEdgeScan_to (a b : V) : ∀ (vs : List (Vertex V)) (i f t y : Nat),
    (∀ v ∈ vs, v.title ≠ a) → getIndexIn b vs = some y →
    addEdgeScan a b vs i f t 1 = (f, i + y, 2)
  | [], _, _, _, _, _, h => by simp [getIndexIn] at h
  | v :: rest, i, f, t, y, ha, h => by
    have hva : v.title ≠ a := ha v (List.mem_cons_self _ _)
    unfold getIndexIn at h
    by_cases hvb : v.title = b
    · simp only [hvb, if_true, Option.some.injEq] at h
      subst h
      have hba : ¬ b = a := fun hh => hva (hvb.trans hh)
      simp [addEdgeScan, hvb, hba]
    · simp only [hvb, if_false, Option.map_eq_some'] at h
      obtain ⟨k, hk, rfl⟩ := h
      have ih := addEdgeScan_to a b rest (i + 1) f t k
        (fun w hw => ha w (List.mem_cons_of_mem _ hw)) hk
      simp only [addEdgeScan, hva, hvb, if_false]
      rw [if_neg (by decide), ih]
      simp only [Prod.mk.injEq, true_and, and_true]
      omega

theorem addEdgeScan_from (a b : V) : ∀ (vs : List (Vertex V)) (i f t x : Nat),
    (∀ v ∈ vs, v.title ≠ b) → getIndexIn a vs = some x →
    addEdgeScan a b vs i f t 1 = (i + x, t, 2)
  | [], _, _, _, _, _, h => by simp [getIndexIn] at h
  | v :: rest, i, f, t, x, hb, h => by
    have hvb : v.title ≠ b := hb v (List.mem_cons_self _ _)
    unfold getIndexIn at h
    by_cases hva : v.title = a
    · simp only [hva, if_true, Option.some.injEq] at h
      subst h
      have hab : ¬ a = b := fun hh => hvb (hva.trans hh)
      simp [addEdgeScan, hva, hab]
    · simp only [hva, if_false, Option.map_eq_some'] at h
      obtain ⟨k, hk, rfl⟩ := h
      have ih := addEdgeScan_from a b rest (i + 1) f t k
        (fun w hw => hb w (List.mem_cons_of_mem _ hw)) hk
      simp only [addEdgeScan, hva, hvb, if_false]
      rw [if_neg (by decide), ih]
      simp only [Prod.mk.injEq, true_and, and_true]
      omega

theorem addEdgeScan_both (a b : V) : ∀ (vs : List (Vertex V)) (i f t x y : Nat),
    (vs.map (fun v => v.title)).Nodup → getIndexIn a vs = some x →
    getIndexIn b vs = some y → addEdgeScan a b vs i f t 0 = (i + x, i + y, 2)
  | [], _, _, _, _, _, _, h, _ => by simp [getIndexIn] at h
  | v :: rest, i, f, t, x, y, hnd, hx, hy => by
    simp only [List.map_cons, List.nodup_cons, List.mem_map, not_exists, not_and] at hnd
    obtain ⟨hv, hnd⟩ := hnd
    unfold getIndexIn at hx hy
    by_cases hva : v.title = a
    · simp only [hva, if_true, Option.some.injEq] at hx
      subst hx
      by_cases hvb : v.title = b
      · have hab : a = b := hva.symm.trans hvb
        simp only [hvb, if_true, Option.some.injEq] at hy
        subst hy
        simp [addEdgeScan, hva, hab]
      · simp only [hvb, if_false, Option.map_eq_some'] at hy
        obtain ⟨k, hk, rfl⟩ := hy
        have hab : ¬ a = b := fun hh => hvb (hva.trans hh)
        have ih := addEdgeScan_to a b rest (i + 1) i t k
          (fun w hw hwa => hv w hw (hwa.trans hva.symm)) hk
        simp only [addEdgeScan, hva, hab, if_true, if_false]
        rw [if_neg (by decide), ih]
        simp only [Prod.mk.injEq, true_and, and_true]
        omega
    · simp only [hva, if_false, Option.map_eq_some'] at hx
      obtain ⟨kx, hkx, rfl⟩ := hx
      by_cases hvb : v.title = b
      · simp only [hvb, if_true, Option.some.injEq] at hy
        subst hy
        have hba : ¬ b = a := fun hh => hva (hvb.trans hh)
        have ih := addEdgeScan_from a b rest (i + 1) f i kx
          (fun w hw hwb => hv w hw (hwb.trans hvb.symm)) hkx
        simp only [addEdgeScan, hvb, hba, if_true, if_false]
        rw [if_neg (by decide), ih]
        simp only [Prod.mk.injEq, true_and, and_true]
        omega
      · simp only [hvb, if_false, Option.map_eq_some'] at hy
        obtain ⟨ky, hky, rfl⟩ := hy
        have ih := addEdgeScan_both a b rest (i + 1) f t kx ky hnd hkx hky
        simp only [addEdgeScan, hva, hvb, if_false]
        rw [if_neg (by decide), ih]
        simp only [Prod.mk.injEq, true_and, and_true]
        omega

/-! ### The effect of `addEdge` -/

theorem addEdge_eq (g : AdjacencyMatrixGraph V) (hsq : Square g) (huk : UniqueKeys g)
    (a b : Vertex V) (w bw : Int) (x y : Nat)
    (hx : getIndex g a = some x) (hy : getIndex g b = some y) :
    addEdge g a b w bw = some (g.heap.length, { g with
      heap := g.heap ++ [Edge.make w bw]
      edges := g.edges.set x ((g.edges.getD x []).set y g.heap.length) }) := by
  have hxn : x < g.vertices.length := (getIndexIn_some hx).1
  have hyn : y < g.vertices.length := (getIndexIn_some hy).1
  have hscan := addEdgeScan_both a.title b.title g.vertices 0 0 0 x y huk hx hy
  simp only [Nat.zero_add] at hscan
  have hrow : (g.edges.getD x []).length = g.vertices.length :=
    getD_row_length (e := g.edges) hsq x hxn
  unfold addEdge
  simp only [hscan]
  rw [if_pos ⟨by rw [hsq.1]; exact hxn, by rw [hrow]; exact hyn⟩]

theorem deref_append (g : AdjacencyMatrixGraph V) (e : Edge) (edges : List (List Nat))
    (p : Nat) (hp : p < g.heap.length) :
    deref { g with heap := g.heap ++ [e], edges := edges } p = deref g p := by
  simp [deref, List.getD_eq_getElem?_getD, List.getElem?_append_left hp]

theorem edgeAt_valid (g : AdjacencyMatrixGraph V) (hwf : WellFormed g) {i j : Nat}
    (hi : i < g.vertices.length) (hj : j < g.vertices.length) :
    edgeAt g i j < g.heap.length := by
  obtain ⟨h1, h2, e⟩ := edgeAt_eq_getElem g hwf.1 hi hj
  rw [e]
  exact hwf.2.2.1 _ (List.getElem_mem h1) _ (List.getElem_mem h2)

/-- C15: on a well-formed graph with unique keys, for keys `a` and `b` found
at the indices `x` and `y` (equal or not), `addEdge(a, b, w, bw)` returns an
edge; afterwards `hasEdge(a, b)` is `true`, `findEdge(a, b)` is the returned
edge, whose weight is `w` and whose bandwidth is `bw`, every slot of the
matrix other than `(x, y)` holds what it held, and the vertex list is the
same. -/
theorem addEdge_spec (g : AdjacencyMatrixGraph V) (hwf : WellFormed g) (huk : UniqueKeys g)
    (a b : Vertex V) (w bw : Int) (x y : Nat)
    (hx : getIndex g a = some x) (hy : getIndex g b = some y) :
    ∃ p g', addEdge g a b w bw = some (p, g') ∧ hasEdge g' a b = true ∧
      findEdge g' a.title b.title = some p ∧
      (deref g' p).weight = w ∧ (deref g' p).bandwidth = bw ∧
      (∀ i j, i < g.vertices.length → j < g.vertices.length → (i, j) ≠ (x, y) →
        slot g' i j = slot g i j) ∧
      g'.vertices = g.vertices := by
  have hxn : x < g.vertices.length := (getIndexIn_some hx).1
  have hyn : y < g.vertices.length := (getIndexIn_some hy).1
  have hsq : IsSq g.edges g.vertices.length := hwf.1
  refine ⟨_, _, addEdge_eq g hwf.1 huk a b w bw x y hx hy, ?_, ?_, ?_, ?_, ?_, rfl⟩
  · have hent := entry_set_row hsq x y g.heap.length x y hxn hyn
    rw [if_pos ⟨rfl, rfl⟩] at hent
    have hx' : getIndexIn a.title g.vertices = some x := hx
    have hy' : getIndexIn b.title g.vertices = some y := hy
    simp only [hasEdge, getIndex, hx', hy', slot, edgeAt]
    unfold entry at hent
    rw [hent]
    simp [deref, Edge.make]
  · have hent := entry_set_row hsq x y g.heap.length x y hxn hyn
    rw [if_pos ⟨rfl, rfl⟩] at hent
    have hx' : getIndexIn a.title g.vertices = some x := hx
    have hy' : getIndexIn b.title g.vertices = some y := hy
    simp only [findEdge, getIndex, hx', hy', edgeAt]
    unfold entry at hent
    rw [hent]
  · simp [deref, Edge.make]
  · simp [deref, Edge.make]
  · intro i j hi hj hij
    have hent := entry_set_row hsq x y g.heap.length i j hxn hyn
    rw [if_neg (fun h => hij (by rw [h.1, h.2]))] at hent
    have hp := edgeAt_valid g hwf hi hj
    show deref _ (entry (g.edges.set x ((g.edges.getD x []).set y g.heap.length)) i j) =
      deref g (edgeAt g i j)
    rw [hent]
    exact deref_append g _ _ _ hp

/-- C15 (witness): in the path graph `A -> B -> C`, `addEdge(A, B, 9, 4)`
replaces the edge of weight 1 in the slot `(0, 1)`. -/
theorem addEdge_spec_witness :
    WellFormed graphPath ∧ UniqueKeys graphPath ∧
      getIndex graphPath (key "A") = some 0 ∧ getIndex graphPath (key "B") = some 1 ∧
      (slot graphPath 0 1).weight = 1 ∧
      ∃ p g', addEdge graphPath (key "A") (key "B") 9 4 = some (p, g') ∧
        hasEdge g' (key "A") (key "B") = true ∧
        findEdge g' (key "A").title (key "B").title = some p ∧
        (deref g' p).weight = 9 ∧ (deref g' p).bandwidth = 4 ∧
        (∀ i j, i < graphPath.vertices.length → j < graphPath.vertices.length →
          (i, j) ≠ (0, 1) → slot g' i j = slot graphPath i j) ∧
        g'.vertices = graphPath.vertices :=
  ⟨by decide, by decide, by decide, by decide, by decide,
    addEdge_spec graphPath (by decide) (by decide) (key "A") (key "B") 9 4 0 1
      (by decide) (by decide)⟩

/-! ### The effect of `addVertex` -/

theorem newRow_eq : ∀ (count : Nat) (heap : List Edge),
    newRow count heap =
      (List.range' heap.length count, heap ++ List.replicate count Edge.empty)
  | 0, heap => by simp [newRow]
  | count + 1, heap => by
    simp only [newRow, newRow_eq count, List.length_append, List.length_singleton,
      List.range'_succ, List.replicate_succ, List.append_assoc, List.singleton_append]

theorem pushColumn_heap : ∀ (xs ys : List (List Nat)) (heap : List Edge),
    (pushColumn xs.length (xs ++ ys) heap).2 = heap ++ List.replicate xs.length Edge.empty
  | [], ys, heap => by simp [pushColumn]
  | x :: xs, ys, heap => by
    have ih := pushColumn_heap xs ys (heap ++ [Edge.empty])
    show (pushColumn xs.length (xs ++ ys) (heap ++ [Edge.empty])).2 = _
    rw [ih]
    simp [List.replicate_succ]

theorem pushColumn_getD : ∀ (xs ys : List (List Nat)) (heap : List Edge) (i : Nat),
    (pushColumn xs.length (xs ++ ys) heap).1.getD i [] =
      if i < xs.length then xs.getD i [] ++ [heap.length + i] else (xs ++ ys).getD i []
  | [], ys, heap, i => by simp [pushColumn]
  | x :: xs, ys, heap, 0 => by simp [pushColumn]
  | x :: xs, ys, heap, i + 1 => by
    have ih := pushColumn_getD xs ys (heap ++ [Edge.empty]) i
    show ((x ++ [heap.length]) ::
      (pushColumn xs.length (xs ++ ys) (heap ++ [Edge.empty])).1).getD (i + 1) [] = _
    rw [List.getD_cons_succ, ih]
    have : heap.length + 1 + i = heap.length + (i + 1) := by omega
    simp only [List.length_cons, List.cons_append, List.getD_cons_succ,
      List.length_append, List.length_singleton, List.length_nil, Nat.zero_add,
      Nat.add_lt_add_iff_right, this]

theorem addVertex_absent (g : AdjacencyMatrixGraph V) (k : V)
    (hsq : g.edges.length = g.vertices.length) (hk : getIndexIn k g.vertices = none) :
    (addVertex g k).1 = { addr := g.allocated + 1, title := k } ∧
      (addVertex g k).2.vertices = g.vertices ++ [{ addr := g.allocated + 1, title := k }] ∧
      (addVertex g k).2.heap =
        g.heap ++ List.replicate (g.vertices.length + 1 + g.vertices.length) Edge.empty ∧
      ∀ i, (addVertex g k).2.edges.getD i [] =
        if i < g.vertices.length then
          g.edges.getD i [] ++ [g.heap.length + (g.vertices.length + 1) + i]
        else if i = g.vertices.length then
          List.range' g.heap.length (g.vertices.length + 1)
        else [] := by
  have hcount : (g.vertices ++ [({ addr := g.allocated + 1, title := k } : Vertex V)]).length - 1 =
      g.edges.length := by
    simp [hsq]
  unfold addVertex
  simp only [getIndex, hk, newRow_eq]
  rw [hcount]
  refine ⟨trivial, trivial, ?_, ?_⟩
  · rw [pushColumn_heap]
    simp only [List.length_append, List.length_singleton, hsq, List.append_assoc,
      List.append_replicate_replicate]
  · intro i
    rw [pushColumn_getD]
    simp only [List.length_append, List.length_replicate, List.length_singleton, hsq]
    by_cases hi : i < g.vertices.length
    · simp only [if_pos hi]
    · simp only [if_neg hi]
      by_cases hin : i = g.vertices.length
      · subst hin
        rw [if_pos rfl, List.getD_eq_getElem?_getD,
          List.getElem?_append_right (by rw [hsq]), hsq]
        simp
      · rw [if_neg hin, List.getD_eq_getElem?_getD, List.getElem?_eq_none]
        · rfl
        · simp only [List.length_append, List.length_singleton, hsq]
          omega

theorem deref_fresh (g g' : AdjacencyMatrixGraph V) (m : Nat)
    (h : g'.heap = g.heap ++ List.replicate m Edge.empty) (p : Nat) :
    deref g' p = if p < g.heap.length then deref g p else Edge.empty := by
  unfold deref
  rw [h, List.getD_eq_getElem?_getD, List.getD_eq_getElem?_getD]
  by_cases hp : p < g.heap.length
  · rw [if_pos hp, List.getElem?_append_left hp]
  · rw [if_neg hp, List.getElem?_append_right (Nat.le_of_not_lt hp), List.getElem?_replicate]
    split_ifs <;> rfl

theorem getIndexIn_append_left {t : V} : ∀ {vs : List (Vertex V)} (ws : List (Vertex V))
    {i : Nat}, getIndexIn t vs = some i → getIndexIn t (vs ++ ws) = some i
  | [], _, _, h => by simp [getIndexIn] at h
  | v :: rest, ws, i, h => by
    unfold getIndexIn at h
    by_cases hv : v.title = t
    · simp only [hv, if_true] at h
      simp [getIndexIn, hv, h]
    · simp only [hv, if_false, Option.map_eq_some'] at h
      obtain ⟨k, hk, rfl⟩ := h
      have ih : getIndexIn t (rest ++ ws) = some k := getIndexIn_append_left ws hk
      simp [getIndexIn, hv, ih]

theorem getD_append_left {α : Type} (l l' : List α) (j : Nat) (d : α) (h : j < l.length) :
    (l ++ l').getD j d = l.getD j d := by
  simp only [List.getD_eq_getElem?_getD, List.getElem?_append_left h]

theorem getD_append_last {α : Type} (l : List α) (a d : α) :
    (l ++ [a]).getD l.length d = a := by
  simp [List.getD_eq_getElem?_getD]

theorem addVertex_slot_old (g : AdjacencyMatrixGraph V) (hwf : WellFormed g) (k : V)
    (hk : getIndexIn k g.vertices = none) {i j : Nat} (hi : i < g.vertices.length)
    (hj : j < g.vertices.length) : slot (addVertex g k).2 i j = slot g i j := by
  obtain ⟨-, -, hheap, hrows⟩ := addVertex_absent g k hwf.1.1 hk
  have hrow : (g.edges.getD i []).length = g.vertices.length :=
    getD_row_length (e := g.edges) hwf.1 i hi
  have he : edgeAt (addVertex g k).2 i j = edgeAt g i j := by
    unfold edgeAt
    rw [hrows i, if_pos hi, getD_append_left _ _ _ _ (by rw [hrow]; exact hj)]
  unfold slot
  rw [he, deref_fresh g _ _ hheap, if_pos (edgeAt_valid g hwf hi hj)]

theorem addVertex_slot_new (g : AdjacencyMatrixGraph V) (hwf : WellFormed g) (k : V)
    (hk : getIndexIn k g.vertices = none) {i j : Nat} (hi : i ≤ g.vertices.length)
    (hj : j ≤ g.vertices.length) (hij : i = g.vertices.length ∨ j = g.vertices.length) :
    slot (addVertex g k).2 i j = Edge.empty := by
  obtain ⟨-, -, hheap, hrows⟩ := addVertex_absent g k hwf.1.1 hk
  have he : g.heap.length ≤ edgeAt (addVertex g k).2 i j := by
    unfold edgeAt
    rw [hrows i]
    by_cases hin : i < g.vertices.length
    · have hjn : j = g.vertices.length := by omega
      have hrow : (g.edges.getD i []).length = g.vertices.length :=
        getD_row_length (e := g.edges) hwf.1 i hin
      have hlast := getD_append_last (g.edges.getD i [])
        (g.heap.length + (g.vertices.length + 1) + i) 0
      rw [hrow] at hlast
      rw [if_pos hin, hjn, hlast]
      omega
    · have hin' : i = g.vertices.length := by omega
      rw [if_neg hin, if_pos hin', List.getD_eq_getElem?_getD,
        List.getElem?_range' _ _ (by omega)]
      simp
  unfold slot
  rw [deref_fresh g _ _ hheap, if_neg (by omega)]

/-- C17: on a well-formed graph with `n` vertices, for a key `k` that no
vertex has, `addVertex(k)` appends the new vertex, so that it is found at
index `n`; every slot of row `n` and of column `n` is empty, `edgesFrom` and
`edgesTo` of the new vertex are empty and `hasEdge` is `false` for every pair
in which one key is `k`; every key that was present keeps its index and every
slot `(i, j)` with `i, j < n` holds what it held. -/
theorem addVertex_spec (g : AdjacencyMatrixGraph V) (hwf : WellFormed g) (k : V)
    (hk : k ∉ g.vertices.map (fun v => v.title)) :
    (addVertex g k).1.title = k ∧
      (addVertex g k).2.vertices = g.vertices ++ [(addVertex g k).1] ∧
      getIndex (addVertex g k).2 (addVertex g k).1 = some g.vertices.length ∧
      (∀ j, j ≤ g.vertices.length →
        (slot (addVertex g k).2 g.vertices.length j).isEmpty = true ∧
        (slot (addVertex g k).2 j g.vertices.length).isEmpty = true) ∧
      edgesFrom (addVertex g k).2 (addVertex g k).1 = some [] ∧
      edgesTo (addVertex g k).2 (addVertex g k).1 = some [] ∧
      (∀ v u : Vertex V, v.title = k ∨ u.title = k → hasEdge (addVertex g k).2 v u = false) ∧
      (∀ v : Vertex V, v.title ∈ g.vertices.map (fun x => x.title) →
        getIndex (addVertex g k).2 v = getIndex g v) ∧
      ∀ i j, i < g.vertices.length → j < g.vertices.length →
        slot (addVertex g k).2 i j = slot g i j := by
  have hnone : getIndexIn k g.vertices = none := by
    rw [getIndexIn_none]
    intro w hw hwt
    exact hk (List.mem_map.2 ⟨w, hw, hwt⟩)
  obtain ⟨hv, hvs, -, -⟩ := addVertex_absent g k hwf.1.1 hnone
  have hlen : (addVertex g k).2.vertices.length = g.vertices.length + 1 := by
    rw [hvs]
    simp
  have hkey : ∀ v : Vertex V, v.title = k →
      getIndex (addVertex g k).2 v = some g.vertices.length := by
    intro v hvk
    unfold getIndex
    rw [hvs, hvk]
    exact getIndexIn_append_new _ hnone rfl
  have hnew : ∀ i j, i ≤ g.vertices.length → j ≤ g.vertices.length →
      i = g.vertices.length ∨ j = g.vertices.length →
      (slot (addVertex g k).2 i j).isEmpty = true := by
    intro i j hi hj hij
    rw [addVertex_slot_new g hwf k hnone hi hj hij]
    rfl
  have hself : getIndex (addVertex g k).2 (addVertex g k).1 = some g.vertices.length :=
    hkey _ (by rw [hv])
  have hsq := addVertex_square g k hwf.1
  refine ⟨by rw [hv], by rw [hvs, hv], hself, ?_, ?_, ?_, ?_, ?_, ?_⟩
  · intro j hj
    exact ⟨hnew _ j (Nat.le_refl _) hj (Or.inl rfl), hnew j _ hj (Nat.le_refl _) (Or.inr rfl)⟩
  · rw [edgesFrom_eq _ hsq _ hself]
    have : targets (addVertex g k).2 g.vertices.length = [] := by
      unfold targets
      rw [List.filter_eq_nil_iff]
      intro j hj
      rw [List.mem_range, hlen] at hj
      simp [hnew _ j (Nat.le_refl _) (by omega) (Or.inl rfl)]
    rw [this]
    rfl
  · unfold edgesTo
    simp only [hself, column_eq_map _ hsq, List.filter_map, Option.some.injEq,
      List.map_eq_nil_iff, List.filter_eq_nil_iff, List.mem_range, Function.comp]
    intro i hi
    rw [hlen] at hi
    have := hnew i _ (by omega) (Nat.le_refl _) (Or.inr rfl)
    unfold slot at this
    simp [this]
  · intro v u hvu
    unfold hasEdge
    cases hx : getIndex (addVertex g k).2 v with
    | none => rfl
    | some x =>
      cases hy : getIndex (addVertex g k).2 u with
      | none => rfl
      | some y =>
        have hxn : x < g.vertices.length + 1 := by
          rw [← hlen]
          exact (getIndexIn_some hx).1
        have hyn : y < g.vertices.length + 1 := by
          rw [← hlen]
          exact (getIndexIn_some hy).1
        have hxy : x = g.vertices.length ∨ y = g.vertices.length := by
          rcases hvu with h | h
          · left
            rw [hkey v h] at hx
            exact (Option.some.inj hx).symm
          · right
            rw [hkey u h] at hy
            exact (Option.some.inj hy).symm
        simp [hnew x y (by omega) (by omega) hxy]
  · intro v hvm
    obtain ⟨i, hi⟩ := getIndexIn_of_mem hvm
    unfold getIndex
    rw [hvs, hi]
    exact getIndexIn_append_left _ hi
  · intro i j hi hj
    exact addVertex_slot_old g hwf k hnone hi hj

/-- C17 (witness): `addVertex(D)` on the path graph `A -> B -> C`: `D` is found
at index 3, its row and column are empty and the edge `A -> B` is kept. -/
theorem addVertex_spec_witness :
    WellFormed graphPath ∧ "D" ∉ graphPath.vertices.map (fun v => v.title) ∧
      getIndex (addVertex graphPath "D").2 (addVertex graphPath "D").1 = some 3 ∧
      edgesFrom (addVertex graphPath "D").2 (addVertex graphPath "D").1 = some [] ∧
      edgesTo (addVertex graphPath "D").2 (addVertex graphPath "D").1 = some [] ∧
      hasEdge (addVertex graphPath "D").2 (key "A") (key "D") = false ∧
      slot (addVertex graphPath "D").2 0 1 = slot graphPath 0 1 := by
  obtain ⟨-, -, h1, -, h2, h3, h4, -, h5⟩ := addVertex_spec graphPath (by decide) "D" (by decide)
  exact ⟨by decide, by decide, h1, h2, h3, h4 _ _ (Or.inr rfl),
    h5 0 1 (by decide) (by decide)⟩

/-! ### The effect of `removeVertex` -/

theorem eraseColumn_eq_map (index : Nat) : ∀ (count : Nat) (rows : List (List Nat)),
    rows.length ≤ count → eraseColumn index count rows = rows.map (fun r => r.eraseIdx index)
  | 0, rows, h => by
    have : rows = [] := List.length_eq_zero.1 (Nat.le_zero.1 h)
    subst this
    rfl
  | _ + 1, [], _ => rfl
  | count + 1, x :: rows, h => by
    simp only [eraseColumn, List.map_cons,
      eraseColumn_eq_map index count rows (by simpa using h)]

theorem getD_eraseIdx {α : Type} (l : List α) (p i : Nat) (d : α) :
    (l.eraseIdx p).getD i d = l.getD (if i < p then i else i + 1) d := by
  simp only [List.getD_eq_getElem?_getD, List.getElem?_eraseIdx]
  split_ifs <;> rfl

theorem entry_erase (e : List (List Nat)) (p i j : Nat) :
    entry ((e.eraseIdx p).map (fun r => r.eraseIdx p)) i j =
      entry e (if i < p then i else i + 1) (if j < p then j else j + 1) := by
  unfold entry
  have hmap : ((e.eraseIdx p).map (fun r => r.eraseIdx p)).getD i [] =
      ((e.eraseIdx p).getD i []).eraseIdx p := by
    simp only [List.getD_eq_getElem?_getD, List.getElem?_map]
    cases (e.eraseIdx p)[i]? <;> rfl
  rw [hmap, getD_eraseIdx, getD_eraseIdx]

theorem getIndexIn_eraseIdx (vs : List (Vertex V)) (hnd : (vs.map (fun v => v.title)).Nodup)
    (p j : Nat) (hp : p < vs.length) (hj : j < vs.length) (hjp : j ≠ p) :
    getIndexIn (vs[j]).title (vs.eraseIdx p) = some (if j < p then j else j - 1) := by
  have hnd' : ((vs.eraseIdx p).map (fun v => v.title)).Nodup :=
    List.Nodup.sublist ((List.eraseIdx_sublist vs p).map _) hnd
  have hlen : (vs.eraseIdx p).length = vs.length - 1 := by
    rw [List.length_eraseIdx, if_pos hp]
  by_cases hlt : j < p
  · rw [if_pos hlt]
    have h : j < (vs.eraseIdx p).length := by omega
    apply getIndexIn_unique hnd' h
    rw [List.getElem_eraseIdx_of_lt vs p j h hlt]
  · rw [if_neg hlt]
    have h : j - 1 < (vs.eraseIdx p).length := by omega
    apply getIndexIn_unique hnd' h
    rw [List.getElem_eraseIdx_of_ge vs p (j - 1) h (by omega)]
    have : j - 1 + 1 = j := by omega
    simp only [this]

theorem getIndexIn_eraseIdx_self (vs : List (Vertex V))
    (hnd : (vs.map (fun v => v.title)).Nodup) (p : Nat) (hp : p < vs.length) :
    getIndexIn (vs[p]).title (vs.eraseIdx p) = none := by
  cases h : getIndexIn (vs[p]).title (vs.eraseIdx p) with
  | none => rfl
  | some i =>
    exfalso
    obtain ⟨hi, ht, -⟩ := getIndexIn_some h
    have hlen : (vs.eraseIdx p).length = vs.length - 1 := by
      rw [List.length_eraseIdx, if_pos hp]
    have key : ∀ (a b : Nat) (ha : a < vs.length) (hb : b < vs.length),
        (vs[a]).title = (vs[b]).title → a = b := by
      intro a b ha hb hab
      have h1 : a < (vs.map (fun v => v.title)).length := by simpa using ha
      have h2 : b < (vs.map (fun v => v.title)).length := by simpa using hb
      have hab' : (vs.map (fun v => v.title))[a] = (vs.map (fun v => v.title))[b] := by
        simpa using hab
      exact (List.Nodup.getElem_inj_iff hnd).1 hab'
    by_cases hlt : i < p
    · rw [List.getElem_eraseIdx_of_lt vs p i hi hlt] at ht
      have := key i p (by omega) hp ht
      omega
    · rw [List.getElem_eraseIdx_of_ge vs p i hi (by omega)] at ht
      have := key (i + 1) p (by omega) hp ht
      omega

theorem removeVertex_eq (g : AdjacencyMatrixGraph V) (hsq : Square g) (v : Vertex V) (p : Nat)
    (hp : getIndex g v = some p) :
    removeVertex g v = some { g with
      vertices := g.vertices.eraseIdx p
      edges := (g.edges.eraseIdx p).map (fun r => r.eraseIdx p) } := by
  have hpn : p < g.vertices.length := (getIndexIn_some hp).1
  unfold removeVertex
  simp only [hp]
  rw [eraseColumn_eq_map]
  rw [List.length_eraseIdx, List.length_eraseIdx, if_pos hpn, if_pos (by rw [hsq.1]; exact hpn),
    hsq.1]

/-- C16: on a well-formed graph with unique keys, for a key found at index
`p`, `removeVertex` returns; afterwards the key is not found, the vertex list
is the former one without its element `p`, a key formerly at an index `j < p`
is at `j` and one formerly at `j > p` is at `j - 1`, and for every two
remaining keys the slot at their new indices is the slot that was at their
former indices, with its presence flag, weight and bandwidth. -/
theorem removeVertex_spec (g : AdjacencyMatrixGraph V) (hwf : WellFormed g)
    (huk : UniqueKeys g) (v : Vertex V) (p : Nat) (hp : getIndex g v = some p) :
    ∃ g', removeVertex g v = some g' ∧ getIndex g' v = none ∧
      g'.vertices = g.vertices.eraseIdx p ∧
      (∀ (u : Vertex V) (j : Nat), getIndex g u = some j → j < p → getIndex g' u = some j) ∧
      (∀ (u : Vertex V) (j : Nat), getIndex g u = some j → p < j →
        getIndex g' u = some (j - 1)) ∧
      ∀ (a b : Vertex V) (i j : Nat), getIndex g a = some i → getIndex g b = some j →
        i ≠ p → j ≠ p →
        ∃ i' j', getIndex g' a = some i' ∧ getIndex g' b = some j' ∧
          slot g' i' j' = slot g i j := by
  obtain ⟨hpn, hpt, -⟩ := getIndexIn_some hp
  have hidx : ∀ (u : Vertex V) (j : Nat), getIndex g u = some j → j ≠ p →
      getIndexIn u.title (g.vertices.eraseIdx p) = some (if j < p then j else j - 1) := by
    intro u j hj hjp
    obtain ⟨hjn, hjt, -⟩ := getIndexIn_some hj
    rw [← hjt]
    exact getIndexIn_eraseIdx g.vertices huk p j hpn hjn hjp
  refine ⟨_, removeVertex_eq g hwf.1 v p hp, ?_, rfl, ?_, ?_, ?_⟩
  · show getIndexIn v.title (g.vertices.eraseIdx p) = none
    rw [← hpt]
    exact getIndexIn_eraseIdx_self g.vertices huk p hpn
  · intro u j hj hlt
    have := hidx u j hj (by omega)
    rw [if_pos hlt] at this
    exact this
  · intro u j hj hlt
    have := hidx u j hj (by omega)
    rw [if_neg (by omega)] at this
    exact this
  · intro a b i j hi hj hip hjp
    refine ⟨_, _, hidx a i hi hip, hidx b j hj hjp, ?_⟩
    have hent := entry_erase g.edges p (if i < p then i else i - 1) (if j < p then j else j - 1)
    have hup : ∀ k, k ≠ p →
        (if (if k < p then k else k - 1) < p then (if k < p then k else k - 1)
          else (if k < p then k else k - 1) + 1) = k := by
      intro k hk
      by_cases hlt : k < p
      · rw [if_pos hlt, if_pos hlt]
      · rw [if_neg hlt, if_neg (by omega)]
        omega
    rw [hup i hip, hup j hjp] at hent
    show deref g (entry ((g.edges.eraseIdx p).map (fun r => r.eraseIdx p)) _ _) =
      deref g (entry g.edges i j)
    rw [hent]

/-- C16 (witness): `removeVertex(B)` on the scenario graph `A -> B`, `B -> C`,
`A -> C` (5, 1): `C` moves from index 2 to index 1 and the slot `(0, 1)` then
holds the edge `A -> C`. -/
theorem removeVertex_spec_witness :
    WellFormed graphScenario ∧ UniqueKeys graphScenario ∧
      getIndex graphScenario (key "B") = some 1 ∧
      ∃ g', removeVertex graphScenario (key "B") = some g' ∧ getIndex g' (key "B") = none ∧
        getIndex g' (key "A") = some 0 ∧ getIndex g' (key "C") = some 1 ∧
        ∃ i' j', getIndex g' (key "A") = some i' ∧ getIndex g' (key "C") = some j' ∧
          slot g' i' j' = slot graphScenario 0 2 := by
  obtain ⟨g', h1, h2, -, h3, h4, h5⟩ := removeVertex_spec graphScenario (by decide)
    (by decide) (key "B") 1 (by decide)
  exact ⟨by decide, by decide, by decide, g', h1, h2,
    h3 (key "A") 0 (by decide) (by decide), h4 (key "C") 2 (by decide) (by decide),
    h5 (key "A") (key "C") 0 2 (by decide) (by decide) (by decide) (by decide)⟩

/-! ### Sequences of calls and the keys of the vertex list -/

theorem relaxEdge_bound (g : AdjacencyMatrixGraph V) (W : Int) (cur k : Nat)
    (s s' : DijkstraState) (h : relaxEdge g W cur s k = some s')
    (hlen : s.weightPath.length = g.vertices.length)
    (hb : ∀ i < g.vertices.length, s.wp i ≤ MAX) (hk : k < g.vertices.length) :
    s'.weightPath.length = g.vertices.length ∧ ∀ i < g.vertices.length, s'.wp i ≤ MAX := by
  unfold relaxEdge at h
  by_cases hE : (slot g cur k).isEmpty = true
  · rw [if_pos hE] at h
    cases h
    exact ⟨hlen, hb⟩
  rw [if_neg hE] at h
  by_cases hB : (slot g cur k).bandwidth < W
  · rw [if_pos hB] at h
    cases h
    exact ⟨hlen, hb⟩
  rw [if_neg hB] at h
  dsimp only at h
  by_cases hF : wrapInt (s.weightPath.getD cur 0 + (slot g cur k).weight) <
      s.weightPath.getD k 0
  · rw [if_pos hF] at h
    cases hl : (s.vertexPath.getD k []).getLast? with
    | none =>
      simp only [hl] at h
      cases h
    | some back =>
      simp only [hl, Option.some.injEq] at h
      subst h
      refine ⟨by simp [hlen], ?_⟩
      intro i hi
      simp only [DijkstraState.wp, getD_set]
      by_cases hki : k = i
      · subst hki
        rw [if_pos ⟨rfl, by rw [hlen]; exact hk⟩, Int.add_comm]
        have := hb k hk
        unfold DijkstraState.wp at this
        omega
      · rw [if_neg (fun hh => hki hh.1)]
        exact hb i hi
  · rw [if_neg hF] at h
    cases h
    exact ⟨hlen, hb⟩

theorem relaxAll_bound (g : AdjacencyMatrixGraph V) (W : Int) (cur : Nat) :
    ∀ (l : List Nat) (s s' : DijkstraState), relaxAll g W cur l s = some s' →
    (∀ k ∈ l, k < g.vertices.length) → s.weightPath.length = g.vertices.length →
    (∀ i < g.vertices.length, s.wp i ≤ MAX) →
    s'.weightPath.length = g.vertices.length ∧ ∀ i < g.vertices.length, s'.wp i ≤ MAX
  | [], s, s', h, _, hlen, hb => by
    simp only [relaxAll, Option.some.injEq] at h
    subst h
    exact ⟨hlen, hb⟩
  | k :: rest, s, s', h, hl, hlen, hb => by
    rw [relaxAll] at h
    cases h1 : relaxEdge g W cur s k with
    | none => rw [h1] at h; simp at h
    | some s1 =>
      rw [h1, Option.some_bind] at h
      obtain ⟨ha, hb1⟩ := relaxEdge_bound g W cur k s s1 h1 hlen hb
        (hl k (List.mem_cons_self _ _))
      exact relaxAll_bound g W cur rest s1 s' h
        (fun j hj => hl j (List.mem_cons_of_mem _ hj)) ha hb1

theorem selectMin_lowest (s : DijkstraState) : ∀ (d k : Nat) (acc : Int × Nat),
    selectMin s (List.range' k d) acc = acc ∨
      ((selectMin s (List.range' k d) acc).1 < acc.1 ∧
        k ≤ (selectMin s (List.range' k d) acc).2 ∧
        (selectMin s (List.range' k d) acc).2 < k + d ∧
        s.vis (selectMin s (List.range' k d) acc).2 = false ∧
        (selectMin s (List.range' k d) acc).1 = s.wp (selectMin s (List.range' k d) acc).2 ∧
        ∀ v, k ≤ v → v < (selectMin s (List.range' k d) acc).2 → s.vis v = false →
          (selectMin s (List.range' k d) acc).1 < s.wp v)
  | 0, k, acc => Or.inl rfl
  | d + 1, k, acc => by
    rw [List.range'_succ, selectMin]
    by_cases hc : s.weightPath.getD k 0 < acc.1 ∧ s.visited.getD k false = false
    · rw [if_pos hc]
      right
      rcases selectMin_lowest s d (k + 1) (s.weightPath.getD k 0, k) with h | h
      · rw [h]
        exact ⟨hc.1, Nat.le_refl _, by omega, hc.2, rfl, fun v h1 h2 _ => by
          simp only at h2
          omega⟩
      · obtain ⟨h1, h2, h3, h4, h5, h6⟩ := h
        simp only at h1
        refine ⟨by omega, by omega, by omega, h4, h5, ?_⟩
        intro v hv1 hv2 hv3
        by_cases hvk : v = k
        · subst hvk
          exact h1
        · exact h6 v (by omega) hv2 hv3
    · rw [if_neg hc]
      rcases selectMin_lowest s d (k + 1) acc with h | h
      · exact Or.inl h
      · right
        obtain ⟨h1, h2, h3, h4, h5, h6⟩ := h
        refine ⟨h1, by omega, by omega, h4, h5, ?_⟩
        intro v hv1 hv2 hv3
        by_cases hvk : v = k
        · subst hvk
          have hv3' : s.visited.getD v false = false := hv3
          have : ¬ s.weightPath.getD v 0 < acc.1 := fun hh => hc ⟨hh, hv3'⟩
          unfold DijkstraState.wp
          omega
        · exact h6 v (by omega) hv2 hv3

theorem dijkstraRound_queue (g : AdjacencyMatrixGraph V) (W : Int) (cur : Nat)
    (s s' : DijkstraState) (hn : 0 < g.vertices.length)
    (hlen_v : s.visited.length = g.vertices.length)
    (hlen_w : s.weightPath.length = g.vertices.length)
    (hb : ∀ i < g.vertices.length, s.wp i ≤ MAX)
    (h : dijkstraRound g W cur { s with pqueue := [] } = some s') : QueueInv g s' := by
  unfold dijkstraRound at h
  simp only [Option.map_eq_some'] at h
  obtain ⟨s2, hrel, hs'⟩ := h
  obtain ⟨hvis, hq⟩ := relaxAll_visited g W cur _ _ s2 hrel
  obtain ⟨hlen2, hb2⟩ := relaxAll_bound g W cur _ _ s2 hrel
    (fun k hk => List.mem_range.1 hk) hlen_w hb
  have hlenv2 : s2.visited.length = g.vertices.length := by
    rw [hvis]
    simp [hlen_v]
  have hq2 : s2.pqueue = [] := hq
  have hspec := selectMin_spec s2 (List.range g.vertices.length) (INT_MAX, 0)
  have hlow := selectMin_lowest s2 g.vertices.length 0 (INT_MAX, 0)
  rw [← List.range_eq_range'] at hlow
  have hMAX : MAX < INT_MAX := by decide
  by_cases hpush : s2.visited.getD
      (selectMin s2 (List.range g.vertices.length) (INT_MAX, 0)).2 false = false
  · rw [if_pos hpush] at hs'
    subst hs'
    refine ⟨hlenv2, hlen2, hb2, Or.inr ⟨_, by rw [hq2], ?_⟩⟩
    rcases hlow with heq | ⟨-, -, h3, h4, h5, h6⟩
    · exfalso
      rw [heq] at hpush
      have h0 := hspec.2.1 0 (List.mem_range.2 hn) hpush
      rw [heq] at h0
      have := hb2 0 hn
      simp only at h0
      omega
    · refine ⟨by omega, h4, ?_, ?_⟩
      · intro v hv hvv
        have := hspec.2.1 v (List.mem_range.2 hv) hvv
        rw [h5] at this
        exact this
      · intro v hv hvv
        have := h6 v (Nat.zero_le _) hv hvv
        rw [h5] at this
        exact this
  · rw [if_neg hpush] at hs'
    subst hs'
    exact ⟨hlenv2, hlen2, hb2, Or.inl hq2⟩

theorem dijkstraInit_queue (g : AdjacencyMatrixGraph V) (frm : Nat)
    (hfrm : frm < g.vertices.length) : QueueInv g (dijkstraInit g frm) := by
  have hwp : ∀ i < g.vertices.length,
      (dijkstraInit g frm).wp i = if i = frm then 0 else MAX := by
    intro i hi
    simp only [DijkstraState.wp, dijkstraInit, getD_set, List.length_replicate]
    by_cases hif : i = frm
    · subst hif
      simp [hi]
    · have : ¬ frm = i := fun h => hif h.symm
      simp [hif, this, hi]
  have hvis : ∀ i, (dijkstraInit g frm).vis i = false := by
    intro i
    simp only [DijkstraState.vis, dijkstraInit, List.getD_eq_getElem?_getD]
    by_cases hi : i < g.vertices.length
    · simp [hi]
    · simp [hi]
  have hMAX : MAX = 2147482647 := by decide
  refine ⟨by simp [dijkstraInit], by simp [dijkstraInit], ?_, Or.inr ⟨frm, rfl, hfrm,
    hvis frm, ?_, ?_⟩⟩
  · intro i hi
    rw [hwp i hi]
    split_ifs <;> omega
  · intro v hv _
    rw [hwp frm hfrm, if_pos rfl, hwp v hv]
    split_ifs <;> omega
  · intro v hv _
    rw [hwp frm hfrm, if_pos rfl, hwp v (by omega), if_neg (by omega)]
    omega

theorem dijkstraStep_queue (g : AdjacencyMatrixGraph V) (W : Int) (s s' : DijkstraState)
    (h : QueueInv g s) (hstep : dijkstraStep g W s s') : QueueInv g s' := by
  obtain ⟨cur, htop, hround⟩ := hstep
  rcases h.queue with hq | ⟨c, hq, hc, -⟩
  · rw [hq] at htop
    cases htop
  · rw [hq] at htop
    have hcc : c = cur := by
      have : pqueueTop [c] = some c := rfl
      rw [this] at htop
      exact Option.some.inj htop
    subst hcc
    have hpop : ({ s with pqueue := s.pqueue.erase c } : DijkstraState) =
        { s with pqueue := [] } := by
      rw [hq]
      simp
    rw [hpop] at hround
    exact dijkstraRound_queue g W c s s' (by omega) h.len_v h.len_w h.bound hround

theorem dijkstraLoop_reaches (g : AdjacencyMatrixGraph V) (W : Int) :
    ∀ (fuel : Nat) (s s' : DijkstraState), dijkstraLoop g W fuel s = some s' →
    Relation.ReflTransGen (dijkstraStep g W) s s'
  | 0, s, s', h => by
    rw [dijkstraLoop] at h
    split_ifs at h
    cases h
    exact Relation.ReflTransGen.refl
  | fuel + 1, s, s', h => by
    rw [dijkstraLoop] at h
    cases htop : pqueueTop s.pqueue with
    | none =>
      simp only [htop, Option.some.injEq] at h
      subst h
      exact Relation.ReflTransGen.refl
    | some cur =>
      simp only [htop] at h
      cases hr : dijkstraRound g W cur { s with pqueue := s.pqueue.erase cur } with
      | none => rw [hr] at h; simp at h
      | some s1 =>
        rw [hr, Option.some_bind] at h
        exact Relation.ReflTransGen.head ⟨cur, htop, hr⟩ (dijkstraLoop_reaches g W fuel s1 s' h)

/-- C20: on a well-formed graph with a valid source index, in every state
that the `while` loop of `dijkstra` reaches from its initial state, the queue
holds at most one element, and if it holds one (the vertex that the next
round processes) then that vertex is unvisited, no unvisited vertex has a
smaller `weightPath`, and every unvisited vertex of lower index has a larger
one; the states that the loop of `dijkstra` runs through are such states. -/
theorem dijkstra_selection (g : AdjacencyMatrixGraph V) (W : Int) (frm : Nat)
    (_hwf : WellFormed g) (hfrm : frm < g.vertices.length) :
    (∀ s, Relation.ReflTransGen (dijkstraStep g W) (dijkstraInit g frm) s →
      s.pqueue.length ≤ 1 ∧
      ∀ cur, pqueueTop s.pqueue = some cur → s.pqueue = [cur] ∧ SelectedMin g s cur) ∧
      ∀ s', dijkstraLoop g W g.vertices.length (dijkstraInit g frm) = some s' →
        Relation.ReflTransGen (dijkstraStep g W) (dijkstraInit g frm) s' := by
  refine ⟨?_, fun s' h => dijkstraLoop_reaches g W _ _ s' h⟩
  intro s hs
  have hinv : QueueInv g s := by
    induction hs with
    | refl => exact dijkstraInit_queue g frm hfrm
    | tail _ hstep ih => exact dijkstraStep_queue g W _ _ ih hstep
  rcases hinv.queue with hq | ⟨c, hq, hc⟩
  · rw [hq]
    exact ⟨by simp, fun cur h => by cases h⟩
  · rw [hq]
    refine ⟨by simp, ?_⟩
    intro cur h
    have hcc : c = cur := by
      have : pqueueTop [c] = some c := rfl
      rw [this] at h
      exact Option.some.inj h
    subst hcc
    exact ⟨rfl, hc⟩

/-- C20 (witness): in the scenario graph with source 0 and `W = 3`, the first
round leaves the queue with the single vertex 1, whose `weightPath` 1 is the
least among the unvisited vertices 1 and 2. -/
theorem dijkstra_selection_witness :
    WellFormed graphScenario ∧ 0 < graphScenario.vertices.length ∧
      dijkstraStep graphScenario 3 (dijkstraInit graphScenario 0)
        { visited := [true, false, false], weightPath := [0, 1, 2147482647],
          bandwidthPath := [2147482647, 5, 2147482647], vertexPath := [[], [0], [0]],
          pqueue := [1] } ∧
      SelectedMin graphScenario
        { visited := [true, false, false], weightPath := [0, 1, 2147482647],
          bandwidthPath := [2147482647, 5, 2147482647], vertexPath := [[], [0], [0]],
          pqueue := [1] } 1 := by
  have hstep : dijkstraStep graphScenario 3 (dijkstraInit graphScenario 0)
      { visited := [true, false, false], weightPath := [0, 1, 2147482647],
        bandwidthPath := [2147482647, 5, 2147482647], vertexPath := [[], [0], [0]],
        pqueue := [1] } := ⟨0, by decide, by decide⟩
  have h := (dijkstra_selection graphScenario 3 0 (by decide) (by decide)).1 _
    (Relation.ReflTransGen.single hstep)
  exact ⟨by decide, by decide, hstep, (h.2 1 rfl).2⟩

/-! ### Paths without repeated vertices and the sentinel -/

theorem exists_nodup_path (g : AdjacencyMatrixGraph V) (W : Int) :
    ∀ (p : List Nat) (a b : Nat), IsPath g W p a b → ∃ q, IsPath g W q a b ∧ q.Nodup
  | [], a, b, h => by
    obtain ⟨hh, -⟩ := h
    simp at hh
  | [x], a, b, h => ⟨[x], h, List.nodup_singleton _⟩
  | x :: y :: rest, a, b, h => by
    obtain ⟨hh, hl, ha, hc⟩ := h
    simp only [List.head?_cons, Option.some.injEq] at hh
    subst hh
    rw [List.chain'_cons] at hc
    rw [List.getLast?_cons_cons] at hl
    obtain ⟨q, hq, hnd⟩ := exists_nodup_path g W (y :: rest) y b ⟨rfl, hl, hc.1.2.1, hc.2⟩
    obtain ⟨hqh, hql, -, hqc⟩ := hq
    by_cases hmem : x ∈ q
    · obtain ⟨s, t, hst⟩ := List.append_of_mem hmem
      subst hst
      refine ⟨x :: t, ⟨rfl, ?_, ha, hqc.suffix (List.suffix_append s (x :: t))⟩,
        List.Nodup.sublist (List.suffix_append s (x :: t)).sublist hnd⟩
      rw [← hql, List.getLast?_append_of_ne_nil s (List.cons_ne_nil x t)]
    · cases q with
      | nil => simp at hqh
      | cons z q' =>
        simp only [List.head?_cons, Option.some.injEq] at hqh
        subst hqh
        refine ⟨x :: z :: q', ⟨rfl, ?_, ha, List.chain'_cons.2 ⟨hc.1, hqc⟩⟩,
          List.nodup_cons.2 ⟨hmem, hnd⟩⟩
        rw [List.getLast?_cons_cons]
        exact hql

theorem path_vertices_lt (g : AdjacencyMatrixGraph V) (W : Int) :
    ∀ (p : List Nat), List.Chain' (Allowed g W) p → (∀ x ∈ p.head?, x < g.vertices.length) →
    ∀ x ∈ p, x < g.vertices.length
  | [], _, _ => by simp
  | [x], _, hh => by
    intro y hy
    rw [List.mem_singleton] at hy
    subst hy
    exact hh y rfl
  | x :: y :: rest, hc, hh => by
    rw [List.chain'_cons] at hc
    intro z hz
    rcases List.mem_cons.1 hz with rfl | hz
    · exact hh z rfl
    · exact path_vertices_lt g W (y :: rest) hc.2
        (fun w hw => by
          simp only [List.head?_cons, Option.mem_def, Option.some.injEq] at hw
          subst hw
          exact hc.1.2.1) z hz

theorem rowWeight_nonneg (g : AdjacencyMatrixGraph V) (hnn : NonNegWeights g) (i : Nat)
    (hi : i < g.vertices.length) : 0 ≤ rowWeight g i := by
  unfold rowWeight
  apply List.sum_nonneg
  intro x hx
  obtain ⟨j, hj, rfl⟩ := List.mem_map.1 hx
  by_cases he : (slot g i j).isEmpty = true
  · rw [if_pos he]
  · rw [if_neg he]
    exact hnn i hi j (List.mem_range.1 hj) (by simpa using he)

theorem edge_le_rowWeight (g : AdjacencyMatrixGraph V) (W : Int) (hnn : NonNegWeights g)
    (u v : Nat) (h : Allowed g W u v) : (slot g u v).weight ≤ rowWeight g u := by
  have hmem : (slot g u v).weight ∈ (List.range g.vertices.length).map (fun j =>
      if (slot g u j).isEmpty = true then 0 else (slot g u j).weight) := by
    refine List.mem_map.2 ⟨v, List.mem_range.2 h.2.1, ?_⟩
    simp [h.2.2.1]
  refine List.single_le_sum ?_ _ hmem
  intro x hx
  obtain ⟨j, hj, rfl⟩ := List.mem_map.1 hx
  by_cases he : (slot g u j).isEmpty = true
  · rw [if_pos he]
  · rw [if_neg he]
    exact hnn u h.1 j (List.mem_range.1 hj) (by simpa using he)

theorem pathWeight_le_rows (g : AdjacencyMatrixGraph V) (W : Int) (hnn : NonNegWeights g) :
    ∀ (p : List Nat), List.Chain' (Allowed g W) p → (∀ x ∈ p, x < g.vertices.length) →
    pathWeight g p ≤ (p.map (rowWeight g)).sum
  | [], _, _ => by simp [pathWeight]
  | [x], _, hlt => by
    simp only [pathWeight, List.map_cons, List.map_nil, List.sum_cons, List.sum_nil, add_zero]
    exact rowWeight_nonneg g hnn x (hlt x (List.mem_singleton.2 rfl))
  | x :: y :: rest, hc, hlt => by
    rw [List.chain'_cons] at hc
    have ih := pathWeight_le_rows g W hnn (y :: rest) hc.2
      (fun z hz => hlt z (List.mem_cons_of_mem _ hz))
    have h1 := edge_le_rowWeight g W hnn x y hc.1
    simp only [pathWeight, List.map_cons, List.sum_cons] at ih ⊢
    omega

theorem rows_le_totalWeight (g : AdjacencyMatrixGraph V) (hnn : NonNegWeights g)
    (q : List Nat) (hnd : q.Nodup) (hlt : ∀ x ∈ q, x < g.vertices.length) :
    (q.map (rowWeight g)).sum ≤ totalWeight g := by
  have hsub : q ⊆ List.range g.vertices.length := fun x hx => List.mem_range.2 (hlt x hx)
  obtain ⟨l, hperm, hsl⟩ := List.subperm_of_subset hnd hsub
  have h1 : (q.map (rowWeight g)).sum = (l.map (rowWeight g)).sum :=
    ((hperm.map (rowWeight g)).sum_eq).symm
  rw [h1]
  have h2 : totalWeight g = ((List.range g.vertices.length).map (rowWeight g)).sum := rfl
  rw [h2]
  apply List.Sublist.sum_le_sum (hsl.map (rowWeight g))
  intro a ha
  obtain ⟨i, hi, rfl⟩ := List.mem_map.1 ha
  exact rowWeight_nonneg g hnn i (List.mem_range.1 hi)

theorem exists_light_path (g : AdjacencyMatrixGraph V) (W : Int) (hnn : NonNegWeights g)
    (p : List Nat) (a b : Nat) (h : IsPath g W p a b) :
    ∃ q, IsPath g W q a b ∧ pathWeight g q ≤ totalWeight g := by
  obtain ⟨q, hq, hnd⟩ := exists_nodup_path g W p a b h
  refine ⟨q, hq, ?_⟩
  have hlt := path_vertices_lt g W q hq.2.2.2 (fun x hx => by
    rw [hq.1] at hx
    cases hx
    exact hq.2.2.1)
  exact Int.le_trans (pathWeight_le_rows g W hnn q hq.2.2.2 hlt)
    (rows_le_totalWeight g hnn q hnd hlt)

/-- C11 (counterexample): `graphIsland` is well-formed, its one weight 2000 is
at least 0 and below the sentinel, and no path leads from 0 to 1 over present
edges of bandwidth at least 3 (no edge leaves 0); yet `dijkstra(0, 1, 3)` does
not report `IMPOSSIBLE`, it reports the weight -2147482649 and the vertex
sequence 0, 2, 1. -/
theorem dijkstra_impossible_overflow :
    WellFormed graphIsland ∧ NonNegWeights graphIsland ∧ totalWeight graphIsland < MAX ∧
      dijkstra graphIsland 0 1 3 =
        some (DijkstraOutput.report 3 (-2147482649) 5 [0, 2, 1]) ∧
      (¬ ∃ p, IsPath graphIsland 3 p 0 1) ∧
      ¬ (dijkstra graphIsland 0 1 3 = some DijkstraOutput.impossible ↔
        ¬ ∃ p, IsPath graphIsland 3 p 0 1) := by
  have hrun : dijkstra graphIsland 0 1 3 =
      some (DijkstraOutput.report 3 (-2147482649) 5 [0, 2, 1]) := by decide
  have hnone : ¬ ∃ p, IsPath graphIsland 3 p 0 1 := by
    rintro ⟨p, hh, hl, -, hc⟩
    have hout : ∀ v, ¬ Allowed graphIsland 3 0 v := by
      intro v hv
      have hv3 : v < 3 := hv.2.1
      have hall : ∀ w < 3, ¬ Allowed graphIsland 3 0 w := by decide
      exact hall v hv3 hv
    cases p with
    | nil => simp at hh
    | cons x rest =>
      simp only [List.head?_cons, Option.some.injEq] at hh
      subst hh
      cases rest with
      | nil => simp at hl
      | cons y rest =>
        rw [List.chain'_cons] at hc
        exact hout y hc.1
  refine ⟨by decide, by decide, by decide, hrun, hnone, ?_⟩
  intro hiff
  have := hiff.2 hnone
  rw [hrun] at this
  cases this

/-- C11 (amended): on a well-formed graph whose present edges have weights
between 0 and 1000 summing below the sentinel, for valid indices
`frm ≠ toIndex` and every `W`, `dijkstra` returns, and it reports `IMPOSSIBLE`
exactly when no path leads from `frm` to `toIndex` over present edges of
bandwidth at least `W`. -/
theorem dijkstra_impossible_iff (g : AdjacencyMatrixGraph V) (W : Int) (frm toIndex : Nat)
    (_hwf : WellFormed g) (hnn : NonNegWeights g) (hmax : WeightsAtMost g 1000)
    (htotal : totalWeight g < MAX) (hfrm : frm < g.vertices.length)
    (hto : toIndex < g.vertices.length) (hne : frm ≠ toIndex) :
    ∃ out, dijkstra g frm toIndex W = some out ∧
      (out = DijkstraOutput.impossible ↔ ¬ ∃ p, IsPath g W p frm toIndex) := by
  obtain ⟨s, hb, hmin, hout⟩ := dijkstra_output g W frm toIndex hnn hmax hfrm hto hne
  refine ⟨_, hout, ?_⟩
  by_cases hM : s.wp toIndex = MAX
  · rw [if_pos hM]
    refine ⟨fun _ => ?_, fun _ => rfl⟩
    rintro ⟨p, hp⟩
    obtain ⟨q, hq, hw⟩ := exists_light_path g W hnn p frm toIndex hp
    have := hmin q hq
    omega
  · rw [if_neg hM]
    refine ⟨fun h => (by cases h), fun h => ?_⟩
    exfalso
    have hlt : s.wp toIndex < MAX := by
      have := (hb.basic.rng toIndex hto).2
      omega
    obtain ⟨hp, -, -⟩ := hb.basic.good toIndex hto hlt
    exact h ⟨_, hp⟩

/-- C11 (witness): the scenario `A -> B` (1, 5), `B -> C` (1, 5), `A -> C` (5, 1)
with `W = 10`: `dijkstra(0, 2, 10)` reports `IMPOSSIBLE` and no path of
bandwidth at least 10 leads from 0 to 2. -/
theorem dijkstra_impossible_iff_witness :
    WellFormed graphScenario ∧ NonNegWeights graphScenario ∧
      WeightsAtMost graphScenario 1000 ∧ totalWeight graphScenario < MAX ∧
      dijkstra graphScenario 0 2 10 = some DijkstraOutput.impossible ∧
      ¬ ∃ p, IsPath graphScenario 10 p 0 2 := by
  have hrun : dijkstra graphScenario 0 2 10 = some DijkstraOutput.impossible := by decide
  obtain ⟨out, hout, hiff⟩ := dijkstra_impossible_iff graphScenario 10 0 2 (by decide)
    (by decide) (by decide) (by decide) (by decide) (by decide) (by decide)
  rw [hrun] at hout
  have hout' : out = DijkstraOutput.impossible := (Option.some.inj hout).symm
  exact ⟨by decide, by decide, by decide, by decide, hrun, hiff.1 hout'⟩

/-! ### The query from a vertex to itself -/

/-- C21 (counterexample): `graphBack` is well-formed and its one weight 2000
is at least 0, yet `dijkstra(0, 0, 3)` does not report `IMPOSSIBLE`: the
round of the unreachable vertex 2 adds 2000 to the sentinel, the wrapped sum
is below `weightPath[0] = 0`, and the relaxation evaluates
`vertexPath[0].back()` on the empty path of the source, which has no defined
result. -/
theorem dijkstra_self_overflow :
    WellFormed graphBack ∧ NonNegWeights graphBack ∧ 0 < graphBack.vertices.length ∧
      wrapInt (MAX + (slot graphBack 2 0).weight) < 0 ∧
      dijkstra graphBack 0 0 3 = none ∧
      dijkstra graphBack 0 0 3 ≠ some DijkstraOutput.impossible := by
  decide

/-- C21 (amended): on a well-formed graph whose present edges have weights
between 0 and 1000, for every valid index `frm` and every `W`,
`dijkstra(frm, frm, W)` reports `IMPOSSIBLE`, whatever self-loops and cycles
the graph has. -/
theorem dijkstra_self_impossible (g : AdjacencyMatrixGraph V) (W : Int) (frm : Nat)
    (_hwf : WellFormed g) (hnn : NonNegWeights g) (hmax : WeightsAtMost g 1000)
    (hfrm : frm < g.vertices.length) :
    dijkstra g frm frm W = some DijkstraOutput.impossible := by
  obtain ⟨s, hs, hb, -, -⟩ := dijkstra_run g W frm hnn hmax hfrm
  have hvp : s.vertexPath.getD frm [] = [] := hb.basic.vp_frm
  have hpath : (completePaths s.vertexPath 0).getD frm [] = [frm] := by
    rw [completePaths_getD _ _ _ (by rw [hb.basic.len_p]; exact hfrm), hvp]
    simp
  unfold dijkstra
  rw [hs, Option.map_some']
  simp only [hpath]
  simp

/-- C21 (witness): in `graphLoops` the vertex `A` has the self-loop
`A -> A` (4, 9) and lies on the cycle `A -> C -> A` whose edges have the
bandwidths 1 and 9; `dijkstra(0, 0, 1)` reports `IMPOSSIBLE`. -/
theorem dijkstra_self_impossible_witness :
    WellFormed graphLoops ∧ NonNegWeights graphLoops ∧ WeightsAtMost graphLoops 1000 ∧
      Allowed graphLoops 1 0 0 ∧ Allowed graphLoops 1 0 2 ∧ Allowed graphLoops 1 2 0 ∧
      dijkstra graphLoops 0 0 1 = some DijkstraOutput.impossible :=
  ⟨by decide, by decide, by decide, by decide, by decide, by decide,
    dijkstra_self_impossible graphLoops 1 0 (by decide) (by decide) (by decide) (by decide)⟩

/-! ### `transpose` on the graph without vertices -/

theorem transposeOuter_empty_round (e : List (List Nat)) (fuel : Nat) (i : Int)
    (h0 : 0 ≤ i) (h1 : i < INT_MAX) :
    transposeOuter 0 (fuel + 1) i e = transposeOuter 0 fuel (i + 1) e := by
  have hc : toSize i < sizeSub 0 1 := by
    unfold INT_MAX at h1
    unfold toSize sizeSub
    omega
  have hs : succInt i = some (i + 1) := by
    unfold succInt
    rw [if_pos h1]
  rw [transposeOuter, if_pos hc, hs]
  simp only
  rw [transposeInner_empty _ _ _ _ (by omega), Option.some_bind]

theorem transposeOuter_empty_last (e : List (List Nat)) (fuel : Nat) :
    transposeOuter 0 fuel INT_MAX e = none :=
  transposeOuter_empty_none e fuel INT_MAX (by decide) (le_refl _)

theorem transpose_init_none : transpose (AdjacencyMatrixGraph.init String) = none := by
  have h : transposeOuter 0 4294967296 0 [] = none :=
    transposeOuter_empty_none [] 4294967296 0 (le_refl _) (by decide)
  unfold transpose
  simp only [AdjacencyMatrixGraph.init, List.length_nil]
  rw [h]
  rfl

/-- C24 (failing input): `transpose()` on the graph without vertices.  The
bound `vertices.size() - 1` is `2^64 - 1`, the condition of the outer loop
holds for every counter from 0 to `INT_MAX`, and each round below `INT_MAX`
runs (its inner loop does nothing, so the matrix is untouched) and increments
the counter: the loop does iterate.  In the round of `INT_MAX` the
increment leaves the range of `int`, which has no defined result, and so has
the call: it does not return the graph as it was. -/
theorem transpose_empty_iterates :
    (AdjacencyMatrixGraph.init String).vertices.length = 0 ∧
      sizeSub 0 1 = 18446744073709551615 ∧
      (∀ i : Int, 0 ≤ i → i ≤ INT_MAX → toSize i < sizeSub 0 1) ∧
      (∀ (e : List (List Nat)) (fuel : Nat) (i : Int), 0 ≤ i → i < INT_MAX →
        transposeOuter 0 (fuel + 1) i e = transposeOuter 0 fuel (i + 1) e) ∧
      succInt INT_MAX = none ∧
      (∀ (e : List (List Nat)) (fuel : Nat), transposeOuter 0 fuel INT_MAX e = none) ∧
      transpose (AdjacencyMatrixGraph.init String) = none ∧
      transpose (AdjacencyMatrixGraph.init String) ≠
        some (AdjacencyMatrixGraph.init String) := by
  refine ⟨rfl, by decide, ?_, fun e fuel i h0 h1 => transposeOuter_empty_round e fuel i h0 h1,
    by decide, fun e fuel => transposeOuter_empty_last e fuel, transpose_init_none, ?_⟩
  · intro i h0 h1
    unfold INT_MAX at h1
    unfold toSize sizeSub
    omega
  · rw [transpose_init_none]
    exact fun h => Option.noConfusion h

/-- C3 (failing input): `transpose(); transpose();` on the graph without
vertices.  The graph is well-formed, the first call already has no defined
result (the counter of its outer loop reaches `INT_MAX`), and so the two
calls do not end in the graph they started from. -/
theorem transpose_twice_empty :
    WellFormed (AdjacencyMatrixGraph.init String) ∧
      (transpose (AdjacencyMatrixGraph.init String)).bind transpose = none ∧
      (transpose (AdjacencyMatrixGraph.init String)).bind transpose ≠
        some (AdjacencyMatrixGraph.init String) := by
  have h : (transpose (AdjacencyMatrixGraph.init String)).bind transpose = none := by
    rw [transpose_init_none]
    rfl
  refine ⟨by decide, h, ?_⟩
  rw [h]
  exact fun h => Option.noConfusion h

/-! ### The stack of `cycleDFS` holds no vertex twice -/

theorem visitTarget_nodup (g : AdjacencyMatrixGraph V)
    (rec : Vertex V → List (Vertex V) → List (Vertex V) → Option (DfsResult V))
    (hrec : ∀ frm vis st r, rec frm vis st = some r → st.Nodup → (∀ v ∈ st, v ∈ vis) →
      frm ∉ vis → StackPost vis st r)
    (j : Nat) (vis st : List (Vertex V)) (r : DfsResult V)
    (h : visitTarget g rec j vis st = some r) (hnd : st.Nodup) (hsub : ∀ v ∈ st, v ∈ vis) :
    StackPost vis st r := by
  unfold visitTarget at h
  cases hw : g.vertices[j]? with
  | none => simp [hw] at h
  | some w =>
    simp only [hw] at h
    by_cases hseen : vis.any (fun vertex => decide (w.title = vertex.title)) = true
    · simp only [hseen, Bool.not_true, Bool.false_eq_true, if_false] at h
      by_cases hon : st.any (fun vertex => decide (w.title = vertex.title)) = true
      · simp only [hon, if_true, Option.some.injEq] at h
        subst h
        exact ⟨fun h => by simp at h, fun v hv => hv, fun _ _ => hnd⟩
      · simp only [hon, Bool.false_eq_true, if_false, Option.some.injEq] at h
        subst h
        exact ⟨fun _ => rfl, fun v hv => hv, fun res h => by simp at h⟩
    · have hnew : w ∉ vis := by
        intro hmem
        apply hseen
        rw [List.any_eq_true]
        exact ⟨w, hmem, decide_eq_true rfl⟩
      have hs : vis.any (fun vertex => decide (w.title = vertex.title)) = false := by
        simpa using hseen
      simp only [hs, Bool.not_false, if_true] at h
      cases hr1 : rec w vis st with
      | none => simp [hr1] at h
      | some r1 =>
        have hpost := hrec w vis st r1 hr1 hnd hsub hnew
        simp only [hr1] at h
        cases hres : r1.result with
        | some res =>
          simp only [hres, Option.some.injEq] at h
          subst h
          exact hpost
        | none =>
          simp only [hres, Option.some.injEq] at h
          subst h
          exact ⟨fun _ => hpost.same hres, hpost.mono, fun res h => by simp at h⟩

theorem scanPairs_nodup (g : AdjacencyMatrixGraph V)
    (rec : Vertex V → List (Vertex V) → List (Vertex V) → Option (DfsResult V))
    (hrec : ∀ frm vis st r, rec frm vis st = some r → st.Nodup → (∀ v ∈ st, v ∈ vis) →
      frm ∉ vis → StackPost vis st r)
    (edge : Nat) : ∀ (ps : List (Nat × Nat)) (vis st : List (Vertex V)) (r : DfsResult V),
    scanPairs g rec edge ps vis st = some r → st.Nodup → (∀ v ∈ st, v ∈ vis) →
    StackPost vis st r
  | [], vis, st, r, h, _, _ => by
    simp only [scanPairs, Option.some.injEq] at h
    subst h
    exact ⟨fun _ => rfl, fun v hv => hv, fun res h => by simp at h⟩
  | (i, j) :: rest, vis, st, r, h, hnd, hsub => by
    rw [scanPairs] at h
    by_cases he : edge = edgeAt g i j
    · rw [if_pos he] at h
      cases hv : visitTarget g rec j vis st with
      | none => simp [hv] at h
      | some r1 =>
        have hpost := visitTarget_nodup g rec hrec j vis st r1 hv hnd hsub
        simp only [hv] at h
        cases hres : r1.result with
        | some res =>
          simp only [hres, Option.some.injEq] at h
          subst h
          exact hpost
        | none =>
          simp only [hres] at h
          have hst := hpost.same hres
          rw [hst] at h
          have hrest := scanPairs_nodup g rec hrec edge rest r1.visited st r h hnd
            (fun v hv => hpost.mono v (hsub v hv))
          exact ⟨hrest.same, fun v hv => hrest.mono v (hpost.mono v hv), hrest.nodup⟩
    · rw [if_neg he] at h
      exact scanPairs_nodup g rec hrec edge rest vis st r h hnd hsub

theorem scanEdges_nodup (g : AdjacencyMatrixGraph V)
    (rec : Vertex V → List (Vertex V) → List (Vertex V) → Option (DfsResult V))
    (hrec : ∀ frm vis st r, rec frm vis st = some r → st.Nodup → (∀ v ∈ st, v ∈ vis) →
      frm ∉ vis → StackPost vis st r) :
    ∀ (es : List Nat) (vis st : List (Vertex V)) (r : DfsResult V),
    scanEdges g rec es vis st = some r → st.Nodup → (∀ v ∈ st, v ∈ vis) →
    StackPost vis st r
  | [], vis, st, r, h, _, _ => by
    simp only [scanEdges, Option.some.injEq] at h
    subst h
    exact ⟨fun _ => rfl, fun v hv => hv, fun res h => by simp at h⟩
  | edge :: rest, vis, st, r, h, hnd, hsub => by
    rw [scanEdges] at h
    cases hv : scanPairs g rec edge (allPairs g.vertices.length) vis st with
    | none => simp [hv] at h
    | some r1 =>
      have hpost := scanPairs_nodup g rec hrec edge _ vis st r1 hv hnd hsub
      simp only [hv] at h
      cases hres : r1.result with
      | some res =>
        simp only [hres, Option.some.injEq] at h
        subst h
        exact hpost
      | none =>
        simp only [hres] at h
        have hst := hpost.same hres
        rw [hst] at h
        have hrest := scanEdges_nodup g rec hrec rest r1.visited st r h hnd
          (fun v hv => hpost.mono v (hsub v hv))
        exact ⟨hrest.same, fun v hv => hrest.mono v (hpost.mono v hv), hrest.nodup⟩

theorem cycleDFS_nodup (g : AdjacencyMatrixGraph V) :
    ∀ (fuel : Nat) (frm : Vertex V) (vis st : List (Vertex V)) (r : DfsResult V),
    cycleDFS g fuel frm vis st = some r → st.Nodup → (∀ v ∈ st, v ∈ vis) → frm ∉ vis →
    StackPost vis st r
  | 0, _, _, _, _, h, _, _, _ => by simp [cycleDFS] at h
  | fuel + 1, frm, vis, st, r, h, hnd, hsub, hnew => by
    rw [cycleDFS] at h
    cases hout : edgesFrom g frm with
    | none => simp [hout] at h
    | some out =>
      simp only [hout] at h
      have hnd1 : (st ++ [frm]).Nodup := by
        rw [List.nodup_append]
        refine ⟨hnd, List.nodup_singleton _, ?_⟩
        intro v hv hf
        rw [List.mem_singleton] at hf
        subst hf
        exact hnew (hsub v hv)
      have hsub1 : ∀ v ∈ st ++ [frm], v ∈ vis ++ [frm] := by
        intro v hv
        rcases List.mem_append.1 hv with hv | hv
        · exact List.mem_append_left _ (hsub v hv)
        · exact List.mem_append_right _ hv
      cases hs : scanEdges g (cycleDFS g fuel) out (vis ++ [frm]) (st ++ [frm]) with
      | none => simp [hs] at h
      | some r1 =>
        have hpost := scanEdges_nodup g (cycleDFS g fuel) (cycleDFS_nodup g fuel) out _ _ r1 hs
          hnd1 hsub1
        simp only [hs] at h
        cases hres : r1.result with
        | some res =>
          simp only [hres, Option.some.injEq] at h
          subst h
          exact ⟨fun h => by simp [hres] at h,
            fun v hv => hpost.mono v (List.mem_append_left _ hv), hpost.nodup⟩
        | none =>
          simp only [hres, Option.some.injEq] at h
          subst h
          refine ⟨fun _ => ?_, fun v hv => hpost.mono v (List.mem_append_left _ hv),
            fun res h => by simp at h⟩
          show r1.stack.dropLast = st
          rw [hpost.same hres, List.dropLast_concat]

theorem isAcyclicFrom_found (g : AdjacencyMatrixGraph V) :
    ∀ (roots : List (Vertex V)) (stack : List (Vertex V)),
    isAcyclicFrom g roots = some (false, stack) →
    ∃ root ∈ roots, ∃ r res, cycleDFS g g.vertices.length root [] [] = some r ∧
      r.result = some res ∧ trimStack res r.stack = some stack
  | [], stack, h => by simp [isAcyclicFrom] at h
  | vertex :: rest, stack, h => by
    rw [isAcyclicFrom] at h
    cases hr : cycleDFS g g.vertices.length vertex [] [] with
    | none => simp [hr] at h
    | some r =>
      simp only [hr] at h
      cases hres : r.result with
      | some res =>
        simp only [hres, Option.map_eq_some', Prod.mk.injEq, true_and] at h
        obtain ⟨s, hs, rfl⟩ := h
        exact ⟨vertex, List.mem_cons_self _ _, r, res, hr, hres, hs⟩
      | none =>
        simp only [hres] at h
        obtain ⟨root, hroot, r', res, h1, h2, h3⟩ := isAcyclicFrom_found g rest stack h
        exact ⟨root, List.mem_cons_of_mem _ hroot, r', res, h1, h2, h3⟩

/-- C23: on a well-formed graph with unique keys, when `isAcyclic` returns
false the `stack` it leaves holds no vertex twice (nor two vertices with the
same key) and at most `vertices.size()` vertices; its first element is the
vertex that the call of `cycleDFS` for some root returned, and the last
element of the stack has a present edge to it. -/
theorem isAcyclic_witness_simple (g : AdjacencyMatrixGraph V) (hwf : WellFormed g)
    (huk : UniqueKeys g) (stack : List (Vertex V))
    (h : isAcyclic g = some (false, stack)) :
    stack.Nodup ∧ (stack.map (fun v => v.title)).Nodup ∧
      stack.length ≤ g.vertices.length ∧
      ∃ root r res x, root ∈ g.vertices ∧
        cycleDFS g g.vertices.length root [] [] = some r ∧ r.result = some res ∧
        stack.head? = some res ∧ stack.getLast? = some x ∧ hasEdge g x res = true := by
  obtain ⟨root, hroot, r, res, hr, hres, htrim⟩ := isAcyclicFrom_found g g.vertices stack h
  have hpre : DfsPre g root [] [] := ⟨hroot, by simp, by simp, by simp, by simp⟩
  have hfuel : unvisited g [] ≤ g.vertices.length := by
    unfold unvisited
    exact List.length_filter_le _ _
  obtain ⟨r', hr', hpost⟩ := cycleDFS_spec g hwf huk g.vertices.length root [] [] hpre hfuel
  rw [hr] at hr'
  have hrr : r = r' := Option.some.inj hr'
  subst hrr
  obtain ⟨hon, -, hsub, x, hlast, hedge⟩ := hpost.found res hres
  obtain ⟨pre, suf, hsplit, htrim'⟩ := trimStack_of_mem res r.stack hon
  rw [htrim] at htrim'
  have hstack : stack = res :: suf := Option.some.inj htrim'
  subst hstack
  have hnd0 : r.stack.Nodup :=
    (cycleDFS_nodup g g.vertices.length root [] [] r hr List.nodup_nil (by simp)
      (by simp)).nodup res hres
  have hsuffix : (res :: suf) <:+ r.stack := ⟨pre, hsplit.symm⟩
  have hnd : (res :: suf).Nodup := List.Nodup.sublist hsuffix.sublist hnd0
  have hmem : ∀ v ∈ res :: suf, v ∈ g.vertices := by
    intro v hv
    exact hpost.visited_sub v (hsub v (hsuffix.subset hv))
  refine ⟨hnd, ?_, ?_, root, r, res, x, hroot, hr, hres, rfl, ?_, hedge.2.2⟩
  · exact List.Nodup.map_on
      (fun a ha b hb hab => title_inj g huk (hmem a ha) (hmem b hb) hab) hnd
  · exact (List.subperm_of_subset hnd hmem).length_le
  · rw [hsplit, List.getLast?_append_of_ne_nil _ (List.cons_ne_nil res suf)] at hlast
    exact hlast

/-- C23 (witness): on the path `A -> B -> C` with the edge `C -> B` added, the
search from `A` returns `B` with the stack `A, B, C`; the call returns false
and leaves `B, C`: two different vertices, the first of them the returned
vertex, to which the last one, `C`, has an edge. -/
theorem isAcyclic_witness_simple_witness :
    WellFormed (withEdge graphPath "C" "B" 3 0) ∧
      UniqueKeys (withEdge graphPath "C" "B" 3 0) ∧
      isAcyclic (withEdge graphPath "C" "B" 3 0) =
        some (false, (withEdge graphPath "C" "B" 3 0).vertices.drop 1) ∧
      ((withEdge graphPath "C" "B" 3 0).vertices.drop 1).map (fun v => v.title) =
        ["B", "C"] ∧
      ((withEdge graphPath "C" "B" 3 0).vertices.drop 1).Nodup ∧
      ∃ root r res x, root ∈ (withEdge graphPath "C" "B" 3 0).vertices ∧
        cycleDFS (withEdge graphPath "C" "B" 3 0)
          (withEdge graphPath "C" "B" 3 0).vertices.length root [] [] = some r ∧
        r.result = some res ∧
        ((withEdge graphPath "C" "B" 3 0).vertices.drop 1).head? = some res ∧
        ((withEdge graphPath "C" "B" 3 0).vertices.drop 1).getLast? = some x ∧
        hasEdge (withEdge graphPath "C" "B" 3 0) x res = true := by
  obtain ⟨h1, -, -, h4⟩ := isAcyclic_witness_simple (withEdge graphPath "C" "B" 3 0)
    (by decide) (by decide) ((withEdge graphPath "C" "B" 3 0).vertices.drop 1) (by decide)
  exact ⟨by decide, by decide, by decide, by decide, h1, h4⟩

/-! ### The rounds of `dijkstra` -/

theorem relaxEdge_safe (g : AdjacencyMatrixGraph V) (W : Int) (frm cur k : Nat)
    (s : DijkstraState) (hnn : NonNegWeights g) (hcur : cur < g.vertices.length)
    (hk : k < g.vertices.length) (h : Safe g frm s)
    (hno : Allowed g W cur k →
      -2147483648 ≤ s.wp cur + (slot g cur k).weight ∧
        s.wp cur + (slot g cur k).weight ≤ INT_MAX) :
    ∃ s', relaxEdge g W cur s k = some s' ∧ Safe g frm s' ∧ s'.wp cur = s.wp cur := by
  unfold relaxEdge
  by_cases hE : (slot g cur k).isEmpty = true
  · rw [if_pos hE]
    exact ⟨s, rfl, h, rfl⟩
  rw [if_neg hE]
  by_cases hB : (slot g cur k).bandwidth < W
  · rw [if_pos hB]
    exact ⟨s, rfl, h, rfl⟩
  rw [if_neg hB]
  dsimp only
  have hE' : (slot g cur k).isEmpty = false := by simpa using hE
  have hall : Allowed g W cur k := ⟨hcur, hk, hE', by omega⟩
  obtain ⟨hlo, hhi⟩ := hno hall
  have hw : 0 ≤ (slot g cur k).weight := hnn cur hcur k hk hE'
  have hc0 : 0 ≤ s.wp cur := h.nonneg cur hcur
  have hwrap : wrapInt (s.weightPath.getD cur 0 + (slot g cur k).weight) =
      s.wp cur + (slot g cur k).weight := by
    unfold INT_MAX at hhi
    exact wrapInt_id _ hlo hhi
  have hwrap' : wrapInt ((slot g cur k).weight + s.weightPath.getD cur 0) =
      s.wp cur + (slot g cur k).weight := by
    rw [Int.add_comm]
    exact hwrap
  by_cases hF : wrapInt (s.weightPath.getD cur 0 + (slot g cur k).weight) <
      s.weightPath.getD k 0
  · rw [if_pos hF]
    rw [hwrap] at hF
    have hF' : s.wp cur + (slot g cur k).weight < s.wp k := hF
    have hkf : k ≠ frm := by
      intro hkf
      have h0 : s.wp k = 0 := by rw [hkf]; exact h.wp_frm
      omega
    have hkc : k ≠ cur := by
      intro hkc
      have h0 : s.wp k = s.wp cur := by rw [hkc]
      omega
    have hne := h.paths k hk hkf
    cases hl : (s.vertexPath.getD k []).getLast? with
    | none =>
      exfalso
      rw [List.getLast?_eq_none_iff] at hl
      exact hne hl
    | some back =>
      simp only
      refine ⟨_, rfl, ⟨by simp [h.len_w], ?_, ?_, ?_, ?_⟩, ?_⟩
      · show (if back ≠ cur then s.vertexPath.set k (s.vertexPath.getD cur [] ++ [cur])
          else s.vertexPath).length = g.vertices.length
        split_ifs <;> simp [h.len_p]
      · intro i hi
        simp only [DijkstraState.wp, getD_set]
        by_cases hki : k = i
        · rw [if_pos ⟨hki, by rw [h.len_w]; exact hk⟩, hwrap']
          omega
        · rw [if_neg (fun hh => hki hh.1)]
          exact h.nonneg i hi
      · simp only [DijkstraState.wp, getD_set]
        rw [if_neg (fun hh => hkf hh.1)]
        exact h.wp_frm
      · intro i hi hif
        show (if back ≠ cur then s.vertexPath.set k (s.vertexPath.getD cur [] ++ [cur])
          else s.vertexPath).getD i [] ≠ []
        by_cases hb : back ≠ cur
        · rw [if_pos hb, getD_set]
          by_cases hki : k = i
          · rw [if_pos ⟨hki, by rw [h.len_p]; exact hk⟩]
            simp
          · rw [if_neg (fun hh => hki hh.1)]
            exact h.paths i hi hif
        · rw [if_neg hb]
          exact h.paths i hi hif
      · simp only [DijkstraState.wp, getD_set]
        rw [if_neg (fun hh => hkc hh.1)]
  · rw [if_neg hF]
    exact ⟨s, rfl, h, rfl⟩

theorem relaxAll_safe (g : AdjacencyMatrixGraph V) (W : Int) (frm cur : Nat)
    (hnn : NonNegWeights g) (hcur : cur < g.vertices.length) :
    ∀ (l : List Nat) (s : DijkstraState), (∀ k ∈ l, k < g.vertices.length) → Safe g frm s →
    (∀ k ∈ l, Allowed g W cur k →
      -2147483648 ≤ s.wp cur + (slot g cur k).weight ∧
        s.wp cur + (slot g cur k).weight ≤ INT_MAX) →
    ∃ s', relaxAll g W cur l s = some s' ∧ Safe g frm s'
  | [], s, _, h, _ => ⟨s, rfl, h⟩
  | k :: rest, s, hl, h, hno => by
    obtain ⟨s1, hs1, h1, hwp⟩ := relaxEdge_safe g W frm cur k s hnn hcur
      (hl k (List.mem_cons_self _ _)) h (hno k (List.mem_cons_self _ _))
    obtain ⟨s', hs', h'⟩ := relaxAll_safe g W frm cur hnn hcur rest s1
      (fun j hj => hl j (List.mem_cons_of_mem _ hj)) h1
      (fun j hj ha => by
        rw [hwp]
        exact hno j (List.mem_cons_of_mem _ hj) ha)
    refine ⟨s', ?_, h'⟩
    rw [relaxAll, hs1, Option.some_bind]
    exact hs'

theorem dijkstraStep_marks (g : AdjacencyMatrixGraph V) (W : Int) (s s1 : DijkstraState)
    (h : QueueInv g s) (hstep : dijkstraStep g W s s1) :
    ∃ cur, s.pqueue = [cur] ∧ cur < g.vertices.length ∧ s.vis cur = false ∧
      s1.visited = s.visited.set cur true := by
  obtain ⟨cur, htop, hround⟩ := hstep
  rcases h.queue with hq | ⟨c, hq, hc, hvc, -⟩
  · rw [hq] at htop
    cases htop
  · rw [hq] at htop
    have hcc : c = cur := by
      have : pqueueTop [c] = some c := rfl
      rw [this] at htop
      exact Option.some.inj htop
    subst hcc
    refine ⟨c, hq, hc, hvc, ?_⟩
    unfold dijkstraRound at hround
    simp only [Option.map_eq_some'] at hround
    obtain ⟨s2, hrel, hs'⟩ := hround
    obtain ⟨hvis, -⟩ := relaxAll_visited g W c _ _ s2 hrel
    have h2 : s1.visited = s2.visited := by
      rw [← hs']
      split_ifs <;> rfl
    rw [h2, hvis]

theorem dijkstraRound_safe (g : AdjacencyMatrixGraph V) (W : Int) (frm cur : Nat)
    (s : DijkstraState) (hnn : NonNegWeights g) (hcur : cur < g.vertices.length)
    (h : Safe g frm s) (hno : NoOverflow g W s cur) :
    ∃ s', dijkstraRound g W cur { s with pqueue := [] } = some s' ∧ Safe g frm s' := by
  have h1 : Safe g frm
      ({ s with pqueue := [], visited := s.visited.set cur true } : DijkstraState) :=
    ⟨h.len_w, h.len_p, h.nonneg, h.wp_frm, h.paths⟩
  obtain ⟨s2, hs2, h2⟩ := relaxAll_safe g W frm cur hnn hcur (List.range g.vertices.length)
    _ (fun k hk => List.mem_range.1 hk) h1 (fun k hk ha => hno k (List.mem_range.1 hk) ha)
  unfold dijkstraRound
  rw [hs2, Option.map_some']
  refine ⟨_, rfl, ?_⟩
  dsimp only
  split_ifs
  · exact ⟨h2.len_w, h2.len_p, h2.nonneg, h2.wp_frm, h2.paths⟩
  · exact h2

theorem dijkstraLoop_safe (g : AdjacencyMatrixGraph V) (W : Int) (frm : Nat)
    (hnn : NonNegWeights g) :
    ∀ (fuel : Nat) (s : DijkstraState), QueueInv g s → Safe g frm s →
    (∀ t, Relation.ReflTransGen (dijkstraStep g W) s t →
      ∀ cur, pqueueTop t.pqueue = some cur → NoOverflow g W t cur) →
    s.visited.count false ≤ fuel →
    ∃ s', dijkstraLoop g W fuel s = some s' ∧ s'.pqueue = []
  | 0, s, hq, _, _, hfuel => by
    rcases hq.queue with he | ⟨cur, he, hc, hvc, -⟩
    · exact ⟨s, by rw [dijkstraLoop, if_pos he], he⟩
    · exfalso
      have := count_false_pos s.visited cur (by rw [hq.len_v]; exact hc) hvc
      omega
  | fuel + 1, s, hq, hs, hno, hfuel => by
    rcases hq.queue with he | ⟨cur, he, hc, hvc, -⟩
    · refine ⟨s, ?_, he⟩
      rw [dijkstraLoop, he]
      rfl
    · have htop : pqueueTop s.pqueue = some cur := by
        rw [he]
        rfl
      have hpop : ({ s with pqueue := s.pqueue.erase cur } : DijkstraState) =
          { s with pqueue := [] } := by
        rw [he]
        simp
      obtain ⟨s1, hs1, hsafe1⟩ := dijkstraRound_safe g W frm cur s hnn hc hs
        (hno s Relation.ReflTransGen.refl cur htop)
      have hstep : dijkstraStep g W s s1 := ⟨cur, htop, by rw [hpop]; exact hs1⟩
      have hq1 : QueueInv g s1 :=
        dijkstraRound_queue g W cur s s1 (by omega) hq.len_v hq.len_w hq.bound hs1
      obtain ⟨c, hcq, -, -, hvis⟩ := dijkstraStep_marks g W s s1 hq hstep
      have hcc : c = cur := by
        rw [he] at hcq
        exact (List.cons.inj hcq).1.symm
      subst hcc
      have hcount := count_false_set s.visited c (by rw [hq.len_v]; exact hc) hvc
      rw [← hvis] at hcount
      obtain ⟨s', hs', hempty⟩ := dijkstraLoop_safe g W frm hnn fuel s1 hq1 hsafe1
        (fun t ht => hno t (Relation.ReflTransGen.head hstep ht)) (by omega)
      refine ⟨s', ?_, hempty⟩
      rw [dijkstraLoop, htop]
      simp only
      rw [hpop, hs1, Option.some_bind]
      exact hs'

theorem reaches_queueInv (g : AdjacencyMatrixGraph V) (W : Int) (frm : Nat)
    (hfrm : frm < g.vertices.length) (s : DijkstraState)
    (hs : Relation.ReflTransGen (dijkstraStep g W) (dijkstraInit g frm) s) : QueueInv g s := by
  induction hs with
  | refl => exact dijkstraInit_queue g frm hfrm
  | tail _ hstep ih => exact dijkstraStep_queue g W _ _ ih hstep

theorem dijkstraStep_between (g : AdjacencyMatrixGraph V) (W : Int) (frm : Nat)
    (hnn : NonNegWeights g) (hmax : WeightsAtMost g 1000) (s0 s1 : DijkstraState)
    (ih : Between g W frm s0) (hstep : dijkstraStep g W s0 s1) : Between g W frm s1 := by
  obtain ⟨cur, htop, hround⟩ := hstep
  rcases ih.queue with ⟨hq, -⟩ | ⟨c, hc, hq, hvc, hminc⟩
  · rw [hq] at htop
    cases htop
  · rw [hq] at htop
    have hcc : c = cur := by
      have : pqueueTop [c] = some c := rfl
      rw [this] at htop
      exact Option.some.inj htop
    subst hcc
    have hpop : ({ s0 with pqueue := s0.pqueue.erase c } : DijkstraState) =
        { s0 with pqueue := [] } := by
      rw [hq]
      simp
    rw [hpop] at hround
    obtain ⟨s', hs', hb', -⟩ := dijkstraRound_spec g W frm c s0 hnn hmax hc ih hq hvc hminc
    rw [hround] at hs'
    rw [Option.some.inj hs']
    exact hb'

theorem reaches_between (g : AdjacencyMatrixGraph V) (W : Int) (frm : Nat)
    (hnn : NonNegWeights g) (hmax : WeightsAtMost g 1000) (hfrm : frm < g.vertices.length)
    (s : DijkstraState)
    (hs : Relation.ReflTransGen (dijkstraStep g W) (dijkstraInit g frm) s) :
    Between g W frm s := by
  induction hs with
  | refl => exact dijkstraInit_between g W frm hfrm
  | tail _ hstep ih => exact dijkstraStep_between g W frm hnn hmax _ _ ih hstep

theorem noOverflow_of_weights (g : AdjacencyMatrixGraph V) (W : Int) (frm : Nat)
    (hnn : NonNegWeights g) (hmax : WeightsAtMost g 1000) (hfrm : frm < g.vertices.length)
    (s : DijkstraState)
    (hs : Relation.ReflTransGen (dijkstraStep g W) (dijkstraInit g frm) s) (cur : Nat) :
    NoOverflow g W s cur := by
  have hb := reaches_between g W frm hnn hmax hfrm s hs
  intro i hi ha
  have h1 := hb.basic.rng cur ha.1
  have h2 := hnn cur ha.1 i hi ha.2.2.1
  have h3 := hmax cur ha.1 i hi ha.2.2.1
  have hM : MAX = 2147482647 := by decide
  have hI : INT_MAX = 2147483647 := by decide
  omega

theorem dijkstraInit_safe (g : AdjacencyMatrixGraph V) (frm : Nat)
    (hfrm : frm < g.vertices.length) : Safe g frm (dijkstraInit g frm) := by
  have hb := (dijkstraInit_between g 0 frm hfrm).basic
  refine ⟨hb.len_w, hb.len_p, fun i hi => (hb.rng i hi).1, hb.wp_frm, ?_⟩
  intro i hi hif
  rcases hb.pred i hi hif with h | ⟨c, -, -, -, h⟩
  · rw [h]
    simp
  · rw [h]
    simp

/-- C22 (counterexample): `graphNegative` is well-formed with 3 vertices and
the weights 1 and -5; in `dijkstra(0, _, 3)` the only sums formed before the
failure, 0 + 1 and 1 + (-5), stay in the range of `int`.  The round of vertex
1 finds 1 + (-5) below `weightPath[0] = 0` and evaluates
`vertexPath[0].back()` on the empty path of the source, which has no defined
result: with no number of rounds does the loop end. -/
theorem dijkstra_negative_undefined :
    WellFormed graphNegative ∧ 0 < graphNegative.vertices.length ∧
      (∀ s, Relation.ReflTransGen (dijkstraStep graphNegative 3)
          (dijkstraInit graphNegative 0) s →
        ∀ cur, pqueueTop s.pqueue = some cur → NoOverflow graphNegative 3 s cur) ∧
      ∀ fuel, dijkstraLoop graphNegative 3 fuel (dijkstraInit graphNegative 0) = none := by
  have hr0 : dijkstraRound graphNegative 3 0
      { dijkstraInit graphNegative 0 with
        pqueue := (dijkstraInit graphNegative 0).pqueue.erase 0 } =
      some { visited := [true, false, false], weightPath := [0, 1, 2147482647],
             bandwidthPath := [2147482647, 5, 2147482647], vertexPath := [[], [0], [0]],
             pqueue := [1] } := by decide
  have hr1 : dijkstraRound graphNegative 3 1
      { visited := [true, false, false], weightPath := [0, 1, 2147482647],
        bandwidthPath := [2147482647, 5, 2147482647], vertexPath := [[], [0], [0]],
        pqueue := [] } = none := by decide
  have htop0 : pqueueTop (dijkstraInit graphNegative 0).pqueue = some 0 := rfl
  refine ⟨by decide, by decide, ?_, ?_⟩
  · intro s hs cur htop
    rcases Relation.ReflTransGen.cases_head hs with h | ⟨c, hstep, hrest⟩
    · subst h
      rw [htop0] at htop
      cases htop
      decide
    · obtain ⟨c0, hc0, hround⟩ := hstep
      rw [htop0] at hc0
      cases hc0
      rw [hr0] at hround
      cases hround
      rcases Relation.ReflTransGen.cases_head hrest with h | ⟨c2, hstep2, -⟩
      · subst h
        cases htop
        decide
      · exfalso
        obtain ⟨c1, hc1, hround1⟩ := hstep2
        cases hc1
        have : dijkstraRound graphNegative 3 1
            { visited := [true, false, false], weightPath := [0, 1, 2147482647],
              bandwidthPath := [2147482647, 5, 2147482647], vertexPath := [[], [0], [0]],
              pqueue := [] } = some c2 := hround1
        rw [hr1] at this
        cases this
  · intro fuel
    cases fuel with
    | zero => decide
    | succ f =>
      rw [dijkstraLoop, htop0]
      simp only
      rw [hr0, Option.some_bind]
      cases f with
      | zero => decide
      | succ f2 =>
        rw [dijkstraLoop]
        have htop1 : pqueueTop [1] = some 1 := rfl
        simp only [htop1]
        have hpop : ([1] : List Nat).erase 1 = [] := by decide
        rw [hpop, hr1]
        rfl

/-- C22 (amended): on a well-formed graph with at least one vertex and
weights of at least 0, for a valid source index and every `W`, when no sum
`weightPath[cur] + weight` formed in a round leaves the range of `int`, the
loop of `dijkstra` ends with an empty queue within `vertices.size()` rounds;
and every round marks one vertex that was not visited before, so that no
vertex is marked twice. -/
theorem dijkstra_rounds (g : AdjacencyMatrixGraph V) (W : Int) (frm : Nat)
    (_hwf : WellFormed g) (hnn : NonNegWeights g) (hfrm : frm < g.vertices.length)
    (hno : ∀ s, Relation.ReflTransGen (dijkstraStep g W) (dijkstraInit g frm) s →
      ∀ cur, pqueueTop s.pqueue = some cur → NoOverflow g W s cur) :
    (∃ s', dijkstraLoop g W g.vertices.length (dijkstraInit g frm) = some s' ∧
      s'.pqueue = []) ∧
      ∀ s s1, Relation.ReflTransGen (dijkstraStep g W) (dijkstraInit g frm) s →
        dijkstraStep g W s s1 →
        ∃ cur, s.pqueue = [cur] ∧ cur < g.vertices.length ∧ s.vis cur = false ∧
          s1.visited = s.visited.set cur true := by
  refine ⟨?_, fun s s1 hs hstep =>
    dijkstraStep_marks g W s s1 (reaches_queueInv g W frm hfrm s hs) hstep⟩
  apply dijkstraLoop_safe g W frm hnn g.vertices.length (dijkstraInit g frm)
    (dijkstraInit_queue g frm hfrm) (dijkstraInit_safe g frm hfrm) hno
  simp [dijkstraInit]

/-- C22 (witness): the scenario graph `A -> B` (1, 5), `B -> C` (1, 5),
`A -> C` (5, 1) with source 0 and `W = 3`: the weights are between 0 and
1000, so no sum overflows, and the loop ends within 3 rounds. -/
theorem dijkstra_rounds_witness :
    WellFormed graphScenario ∧ NonNegWeights graphScenario ∧
      0 < graphScenario.vertices.length ∧
      (∀ s, Relation.ReflTransGen (dijkstraStep graphScenario 3)
          (dijkstraInit graphScenario 0) s →
        ∀ cur, pqueueTop s.pqueue = some cur → NoOverflow graphScenario 3 s cur) ∧
      ∃ s', dijkstraLoop graphScenario 3 graphScenario.vertices.length
          (dijkstraInit graphScenario 0) = some s' ∧ s'.pqueue = [] :=
  ⟨by decide, by decide, by decide,
    fun s hs cur _ =>
      noOverflow_of_weights graphScenario 3 0 (by decide) (by decide) (by decide) s hs cur,
    (dijkstra_rounds graphScenario 3 0 (by decide) (by decide) (by decide)
      (fun s hs cur _ =>
        noOverflow_of_weights graphScenario 3 0 (by decide) (by decide) (by decide)
          s hs cur)).1⟩

end GraphADT
